import Mathlib

/-!
# Sudoku solver: board and solver model

A shallow embedding of `SudokuBoard.cpp` and `Solver.cpp`.

* `int` cell values, digits and masks are natural numbers: every value the
  program stores is non-negative (digits `0..9`, masks built from `1 << n`).
* Array indices that the source keeps in `0..8` are `Fin 9`; `boxMask` is
  indexed by `Fin 3 × Fin 3` through `div3` (the source's `row / 3`).
* `isValid` keeps its three `int` parameters as `Int`, because it is the one
  function that checks its arguments against the bounds.
* Console diagnostics and the optional step callback have no effect on the
  board or on the counters and are left out.
* Recursion that the source does not bound (`solveRecursive`, the loop of
  `solveHumanistic`) takes a fuel argument and returns `none` when it runs out.
-/

set_option maxRecDepth 100000

/-! ## Bit operations -/

/-- The value of `m & ~v` for non-negative `m` and `v`: the bits of `v` are
cleared in `m`. -/
def andNot (m v : Nat) : Nat := m ^^^ (m &&& v)

/-- Two-dimensional array write: `g[r][c] = v`. -/
def set2 {α : Type} (g : Fin 9 → Fin 9 → α) (r c : Fin 9) (v : α) : Fin 9 → Fin 9 → α :=
  fun i j => if i = r ∧ j = c then v else g i j

/-- Two-dimensional array write on the 3×3 box masks. -/
def set3 (g : Fin 3 → Fin 3 → Nat) (r c : Fin 3) (v : Nat) : Fin 3 → Fin 3 → Nat :=
  fun i j => if i = r ∧ j = c then v else g i j

/-- One-dimensional array write: `f[i] = v`. -/
def set1 (f : Fin 9 → Nat) (i : Fin 9) (v : Nat) : Fin 9 → Nat :=
  fun k => if k = i then v else f k

/-- Index of the box band of a row or column: `i / 3`. -/
def div3 (i : Fin 9) : Fin 3 := ⟨i.val / 3, by omega⟩

/-- The cells of the board in the order of the nested loops
`for i in 0..8, for j in 0..8` (row-major). -/
def allCells : List (Fin 9 × Fin 9) :=
  (List.finRange 9).flatMap (fun r => (List.finRange 9).map (fun c => (r, c)))

/-- The digits `1..9` in the order of `for (n = 1; n <= 9; ++n)`. -/
def digits : List Nat := [1, 2, 3, 4, 5, 6, 7, 8, 9]

/-! ## SudokuBoard -/

/-- The private state of `class SudokuBoard`. -/
structure SudokuBoard where
  grid : Fin 9 → Fin 9 → Nat
  fixed : Fin 9 → Fin 9 → Bool
  rowMask : Fin 9 → Nat
  colMask : Fin 9 → Nat
  boxMask : Fin 3 → Fin 3 → Nat

namespace SudokuBoard

/-- The state written by `reset()`: the constructor's board. -/
def new : SudokuBoard where
  grid := fun _ _ => 0
  fixed := fun _ _ => false
  rowMask := fun _ => 0
  colMask := fun _ => 0
  boxMask := fun _ _ => 0

/-- `SudokuBoard::reset`: every field is overwritten. -/
def reset (_b : SudokuBoard) : SudokuBoard := new

/-- `SudokuBoard::getValue`. -/
def getValue (b : SudokuBoard) (row col : Fin 9) : Nat := b.grid row col

/-- `SudokuBoard::isFixed`. -/
def isFixed (b : SudokuBoard) (row col : Fin 9) : Bool := b.fixed row col

/-- `SudokuBoard::isValid`, on arbitrary integers. -/
def isValid (b : SudokuBoard) (row col number : Int) : Bool :=
  if h : row < 0 ∨ row ≥ 9 ∨ col < 0 ∨ col ≥ 9 ∨ number < 1 ∨ number > 9 then false
  else
    let r : Fin 9 := ⟨row.toNat, by omega⟩
    let c : Fin 9 := ⟨col.toNat, by omega⟩
    if (b.grid r c : Int) = number then true
    else
      let val := 1 <<< number.toNat
      if b.rowMask r &&& val ≠ 0 then false
      else if b.colMask c &&& val ≠ 0 then false
      else if b.boxMask (div3 r) (div3 c) &&& val ≠ 0 then false
      else true

/-- `SudokuBoard::removeNumber`. -/
def removeNumber (b : SudokuBoard) (row col : Fin 9) : SudokuBoard :=
  if b.fixed row col then b
  else
    let number := b.grid row col
    if number = 0 then b
    else
      let val := 1 <<< number
      { b with
        grid := set2 b.grid row col 0
        rowMask := set1 b.rowMask row (andNot (b.rowMask row) val)
        colMask := set1 b.colMask col (andNot (b.colMask col) val)
        boxMask := set3 b.boxMask (div3 row) (div3 col)
          (andNot (b.boxMask (div3 row) (div3 col)) val) }

/-- `SudokuBoard::placeNumber`. -/
def placeNumber (b : SudokuBoard) (row col : Fin 9) (number : Nat) : SudokuBoard :=
  if b.fixed row col then b
  else
    let b1 := if b.grid row col ≠ 0 then b.removeNumber row col else b
    if number = 0 then b1
    else
      let val := 1 <<< number
      { b1 with
        grid := set2 b1.grid row col number
        rowMask := set1 b1.rowMask row (b1.rowMask row ||| val)
        colMask := set1 b1.colMask col (b1.colMask col ||| val)
        boxMask := set3 b1.boxMask (div3 row) (div3 col)
          (b1.boxMask (div3 row) (div3 col) ||| val) }

/-- One iteration of the loop body of `loadBoard`. -/
def loadCell (inputGrid : Fin 9 → Fin 9 → Nat) (b : SudokuBoard) (p : Fin 9 × Fin 9) :
    SudokuBoard :=
  let num := inputGrid p.1 p.2
  if num ≠ 0 then
    let b1 := b.placeNumber p.1 p.2 num
    { b1 with fixed := set2 b1.fixed p.1 p.2 true }
  else b

/-- `SudokuBoard::loadBoard`. -/
def loadBoard (b : SudokuBoard) (inputGrid : Fin 9 → Fin 9 → Nat) : SudokuBoard :=
  allCells.foldl (loadCell inputGrid) b.reset

/-- `SudokuBoard::isComplete`. -/
def isComplete (b : SudokuBoard) : Bool :=
  allCells.all (fun p => b.grid p.1 p.2 != 0)

end SudokuBoard

/-! ## Data-model predicates -/

/-- Two cells lie in the same row, the same column or the same 3×3 box. -/
def sameUnit (r c r' c' : Fin 9) : Prop :=
  r = r' ∨ c = c' ∨ (div3 r = div3 r' ∧ div3 c = div3 c')

/-- Bit `n` of each row, column and box mask is set exactly when some cell of
that unit holds `n`, for every digit `n` in `1..9`. -/
def MaskInv (b : SudokuBoard) : Prop :=
  ∀ n : Nat, 1 ≤ n → n ≤ 9 →
    (∀ r, (b.rowMask r).testBit n = true ↔ ∃ c, b.grid r c = n) ∧
    (∀ c, (b.colMask c).testBit n = true ↔ ∃ r, b.grid r c = n) ∧
    (∀ br bc, (b.boxMask br bc).testBit n = true ↔
      ∃ r c, div3 r = br ∧ div3 c = bc ∧ b.grid r c = n)

/-- No two different non-empty cells of one row, column or box hold the same
value. -/
def NoRepeat (g : Fin 9 → Fin 9 → Nat) : Prop :=
  ∀ r c r' c', (r, c) ≠ (r', c') → sameUnit r c r' c' → g r c ≠ 0 → g r c ≠ g r' c'

/-- Every cell holds `0` or a digit `1..9`. -/
def CellsInRange (g : Fin 9 → Fin 9 → Nat) : Prop := ∀ r c, g r c ≤ 9

/-- No empty cell is marked fixed. -/
def NoEmptyFixed (b : SudokuBoard) : Prop := ∀ r c, b.grid r c = 0 → b.fixed r c = false

/-! ## Operation sequences on a board -/

/-- A mutating call on a board: `placeNumber(r, c, d)` or `removeNumber(r, c)`. -/
inductive BoardOp where
  | place (r c : Fin 9) (d : Nat)
  | remove (r c : Fin 9)

/-- The board after one call. -/
def BoardOp.apply (b : SudokuBoard) : BoardOp → SudokuBoard
  | BoardOp.place r c d => b.placeNumber r c d
  | BoardOp.remove r c => b.removeNumber r c

/-- The board after a sequence of calls, made in list order. -/
def runOps (b : SudokuBoard) (ops : List BoardOp) : SudokuBoard :=
  ops.foldl BoardOp.apply b

/-- Every digit passed to `placeNumber` in the sequence lies in `0..9`. -/
def OpsInRange : List BoardOp → Prop
  | [] => True
  | BoardOp.place _ _ d :: rest => d ≤ 9 ∧ OpsInRange rest
  | BoardOp.remove _ _ :: rest => OpsInRange rest

/-- Every `placeNumber(r, c, d)` of the sequence is made with `d = 0` or at a
moment when `isValid(r, c, d)` is true on the current board. -/
def OpsGated : SudokuBoard → List BoardOp → Prop
  | _, [] => True
  | b, BoardOp.place r c d :: rest =>
    (d = 0 ∨ b.isValid (r.val : Int) (c.val : Int) (d : Int) = true) ∧
      OpsGated (b.placeNumber r c d) rest
  | b, BoardOp.remove r c :: rest => OpsGated (b.removeNumber r c) rest

/-! ## Solver -/

/-- `Solver::Mode`. -/
inductive Mode where
  | LOGIC_ONLY
  | BACKTRACK_ONLY
  | HYBRID
  deriving DecidableEq

/-- The state of `class Solver`: the board it refers to, its three counters
and its mode. -/
structure Solver where
  board : SudokuBoard
  recursionCount : Nat
  backtrackCount : Nat
  logicCount : Nat
  currentMode : Mode

namespace Solver

/-- `Solver::Solver(board)`: counters at zero, mode `HYBRID`. -/
def init (board : SudokuBoard) : Solver :=
  { board := board, recursionCount := 0, backtrackCount := 0, logicCount := 0,
    currentMode := Mode.HYBRID }

/-- `Solver::setMode`. -/
def setMode (s : Solver) (mode : Mode) : Solver := { s with currentMode := mode }

/-- The loop of `countSetBits`: `while (n > 0) { n &= n - 1; count++; }`. Each
iteration makes `n` smaller, so `n` iterations always suffice. -/
def countSetBitsLoop : Nat → Nat → Nat → Nat
  | 0, _, count => count
  | fuel + 1, n, count =>
    if n > 0 then countSetBitsLoop fuel (n &&& (n - 1)) (count + 1) else count

/-- `Solver::countSetBits`. -/
def countSetBits (n : Nat) : Nat := countSetBitsLoop n n 0

/-- `Solver::getCandidates`. -/
def getCandidates (b : SudokuBoard) (row col : Fin 9) : Nat :=
  digits.foldl
    (fun (mask n : Nat) =>
      if b.isValid (row.val : Int) (col.val : Int) (n : Int) then mask ||| (1 <<< n) else mask)
    0

/-- The scan of `findBestCell` over the remaining cells, with the current
`minCandidates` and the current `(row, col)` (`none` for `(-1, -1)`). -/
def findBestCellLoop (b : SudokuBoard) :
    List (Fin 9 × Fin 9) → Nat → Option (Fin 9 × Fin 9) → Option (Fin 9 × Fin 9)
  | [], _, best => best
  | p :: rest, minCandidates, best =>
    if b.getValue p.1 p.2 = 0 then
      let count := countSetBits (getCandidates b p.1 p.2)
      if count < minCandidates then
        if count = 1 then some p
        else findBestCellLoop b rest count (some p)
      else findBestCellLoop b rest minCandidates best
    else findBestCellLoop b rest minCandidates best

/-- `Solver::findBestCell`: `some (row, col)` when it returns true, `none` when
it returns false (`row == -1`). -/
def findBestCell (b : SudokuBoard) : Option (Fin 9 × Fin 9) :=
  findBestCellLoop b allCells 10 none

/-- The inner loop of `applyNakedSingles`: the first `n` in `1..9` whose bit is
set in `mask`, or `0`. -/
def firstBit (mask : Nat) : Nat :=
  match digits.find? (fun n => decide (mask &&& (1 <<< n) ≠ 0)) with
  | some n => n
  | none => 0

/-- A placement made by deduction: `board.placeNumber(r, c, val); logicCount++`. -/
def logicPlace (s : Solver) (r c : Fin 9) (val : Nat) : Solver :=
  { s with board := s.board.placeNumber r c val, logicCount := s.logicCount + 1 }

/-- The scan of `applyNakedSingles` over the remaining cells. -/
def nakedLoop (s : Solver) : List (Fin 9 × Fin 9) → Bool × Solver
  | [] => (false, s)
  | p :: rest =>
    if s.board.getValue p.1 p.2 ≠ 0 then nakedLoop s rest
    else
      let mask := getCandidates s.board p.1 p.2
      let count := countSetBits mask
      if count = 1 then (true, s.logicPlace p.1 p.2 (firstBit mask))
      else nakedLoop s rest

/-- `Solver::applyNakedSingles`. -/
def applyNakedSingles (s : Solver) : Bool × Solver := nakedLoop s allCells

/-- The local arrays of `applyHiddenSingles`: `counts[10]` and the last
position seen for each digit. The row scan uses `lastPosC` as its `lastPos`,
the column scan uses `lastPosR`, the box scan uses both. -/
structure Tally where
  counts : Nat → Nat
  lastPosR : Nat → Fin 9
  lastPosC : Nat → Fin 9

/-- The arrays after `= {0}`. -/
def Tally.zero : Tally := { counts := fun _ => 0, lastPosR := fun _ => 0, lastPosC := fun _ => 0 }

/-- The body of `for n in 1..9: if (mask & (1 << n)) { counts[n]++; lastPos[n] = ...; }`. -/
def tallyDigit (mask : Nat) (p : Fin 9 × Fin 9) (t : Tally) (n : Nat) : Tally :=
  if mask &&& (1 <<< n) ≠ 0 then
    { counts := Function.update t.counts n (t.counts n + 1)
      lastPosR := Function.update t.lastPosR n p.1
      lastPosC := Function.update t.lastPosC n p.2 }
  else t

/-- The body of the scan of one unit, for one cell. -/
def tallyCell (b : SudokuBoard) (t : Tally) (p : Fin 9 × Fin 9) : Tally :=
  if b.getValue p.1 p.2 = 0 then
    digits.foldl (tallyDigit (getCandidates b p.1 p.2) p) t
  else t

/-- The counting scan over the cells of one unit. -/
def tallyUnit (b : SudokuBoard) (cells : List (Fin 9 × Fin 9)) : Tally :=
  cells.foldl (tallyCell b) Tally.zero

/-- The cells of row `r`, in column order. -/
def rowCells (r : Fin 9) : List (Fin 9 × Fin 9) := (List.finRange 9).map (fun c => (r, c))

/-- The cells of column `c`, in row order. -/
def colCells (c : Fin 9) : List (Fin 9 × Fin 9) := (List.finRange 9).map (fun r => (r, c))

/-- The cells of box `(br, bc)`: `r = br * 3 + i`, `c = bc * 3 + j`. -/
def boxCells (br bc : Fin 3) : List (Fin 9 × Fin 9) :=
  (List.finRange 3).flatMap (fun i => (List.finRange 3).map (fun j =>
    ((⟨br.val * 3 + i.val, by omega⟩ : Fin 9), (⟨bc.val * 3 + j.val, by omega⟩ : Fin 9))))

/-- The boxes in the order `for br in 0..2, for bc in 0..2`. -/
def allBoxes : List (Fin 3 × Fin 3) :=
  (List.finRange 3).flatMap (fun br => (List.finRange 3).map (fun bc => (br, bc)))

/-- The first digit `n` in `1..9` with `counts[n] == 1`. -/
def firstSingle (t : Tally) : Option Nat := digits.find? (fun n => decide (t.counts n = 1))

/-- The row part of `applyHiddenSingles`, over the remaining rows. -/
def hiddenRows (s : Solver) : List (Fin 9) → Option Solver
  | [] => none
  | r :: rest =>
    let t := tallyUnit s.board (rowCells r)
    match firstSingle t with
    | some n => some (s.logicPlace r (t.lastPosC n) n)
    | none => hiddenRows s rest

/-- The column part of `applyHiddenSingles`, over the remaining columns. -/
def hiddenCols (s : Solver) : List (Fin 9) → Option Solver
  | [] => none
  | c :: rest =>
    let t := tallyUnit s.board (colCells c)
    match firstSingle t with
    | some n => some (s.logicPlace (t.lastPosR n) c n)
    | none => hiddenCols s rest

/-- The box part of `applyHiddenSingles`, over the remaining boxes. -/
def hiddenBoxes (s : Solver) : List (Fin 3 × Fin 3) → Option Solver
  | [] => none
  | bx :: rest =>
    let t := tallyUnit s.board (boxCells bx.1 bx.2)
    match firstSingle t with
    | some n => some (s.logicPlace (t.lastPosR n) (t.lastPosC n) n)
    | none => hiddenBoxes s rest

/-- `Solver::applyHiddenSingles`. -/
def applyHiddenSingles (s : Solver) : Bool × Solver :=
  match hiddenRows s (List.finRange 9) with
  | some s1 => (true, s1)
  | none =>
    match hiddenCols s (List.finRange 9) with
    | some s1 => (true, s1)
    | none =>
      match hiddenBoxes s allBoxes with
      | some s1 => (true, s1)
      | none => (false, s)

/-- `Solver::solveHumanistic`; one unit of fuel per iteration of the `while`
loop. -/
def solveHumanistic : Nat → Solver → Option (Bool × Solver)
  | 0, _ => none
  | fuel + 1, s =>
    match applyNakedSingles s with
    | (true, s1) => solveHumanistic fuel s1
    | (false, s1) =>
      match applyHiddenSingles s1 with
      | (true, s2) => solveHumanistic fuel s2
      | (false, s2) => some (s2.board.isComplete, s2)

/-- The `for (num = 1; num <= 9; num++)` loop of `solveRecursive` over the
remaining digits; `recurse` is the recursive call. -/
def tryDigits (recurse : Solver → Option (Bool × Solver)) (row col : Fin 9) :
    List Nat → Solver → Option (Bool × Solver)
  | [], s => some (false, s)
  | num :: rest, s =>
    if s.board.isValid (row.val : Int) (col.val : Int) (num : Int) then
      match recurse { s with board := s.board.placeNumber row col num } with
      | none => none
      | some (true, s1) => some (true, s1)
      | some (false, s1) =>
        tryDigits recurse row col rest
          { s1 with board := s1.board.removeNumber row col,
                    backtrackCount := s1.backtrackCount + 1 }
    else tryDigits recurse row col rest s

/-- `Solver::solveRecursive`; one unit of fuel per nested call. -/
def solveRecursive : Nat → Solver → Option (Bool × Solver)
  | 0, _ => none
  | fuel + 1, s =>
    let s0 := { s with recursionCount := s.recursionCount + 1 }
    match findBestCell s0.board with
    | none => some (true, s0)
    | some (row, col) => tryDigits (solveRecursive fuel) row col digits s0

/-- The part of `solve` after the deduction step. -/
def solveSearch (fuel : Nat) (s : Solver) : Option (Bool × Solver) :=
  if s.board.isComplete then some (true, s)
  else if s.currentMode = Mode.BACKTRACK_ONLY ∨ s.currentMode = Mode.HYBRID then
    solveRecursive fuel s
  else some (false, s)

/-- `Solver::solve`. -/
def solve (fuel : Nat) (s : Solver) : Option (Bool × Solver) :=
  let s0 := { s with recursionCount := 0, backtrackCount := 0, logicCount := 0 }
  if s0.currentMode = Mode.LOGIC_ONLY ∨ s0.currentMode = Mode.HYBRID then
    match solveHumanistic fuel s0 with
    | none => none
    | some (_, s1) =>
      if s1.currentMode = Mode.LOGIC_ONLY then some (s1.board.isComplete, s1)
      else solveSearch fuel s1
  else solveSearch fuel s0

end Solver

/-- A 9×9 input grid given by its rows; missing entries read as `0`. -/
def gridOfRows (rows : List (List Nat)) : Fin 9 → Fin 9 → Nat :=
  fun i j => (rows.getD i.val []).getD j.val 0

/-! ## Completions and fuel -/

/-- Every row, column and 3×3 box of the grid contains each digit `1..9`
exactly once. -/
def EachDigitOnce (g : Fin 9 → Fin 9 → Nat) : Prop :=
  ∀ n : Nat, 1 ≤ n → n ≤ 9 →
    (∀ r, ∃! c, g r c = n) ∧
    (∀ c, ∃! r, g r c = n) ∧
    (∀ br bc, ∃! p : Fin 9 × Fin 9, div3 p.1 = br ∧ div3 p.2 = bc ∧ g p.1 p.2 = n)

/-- Grid `g'` agrees with every non-empty cell of grid `g`. -/
def Extends (g g' : Fin 9 → Fin 9 → Nat) : Prop := ∀ r c, g r c ≠ 0 → g' r c = g r c

/-- A valid completion of grid `g`: a grid with each digit `1..9` exactly once
per row, column and box that agrees with every non-empty cell of `g`. -/
def IsCompletion (g S : Fin 9 → Fin 9 → Nat) : Prop := EachDigitOnce S ∧ Extends g S

/-- The number of empty cells of the board. -/
def emptyCount (b : SudokuBoard) : Nat := allCells.countP (fun p => b.grid p.1 p.2 == 0)

/-- The data-model invariants of a board the solver may be started on: the
masks agree with the grid, no digit repeats in a unit, no empty cell is fixed. -/
def ValidBoard (b : SudokuBoard) : Prop := MaskInv b ∧ NoRepeat b.grid ∧ NoEmptyFixed b

/-- Board `b'` satisfies the data-model invariants, agrees with every
non-empty cell of `b`, has the fixed flags of `b`, and has its cells in `0..9`
when `b` has. -/
def Grows (b b' : SudokuBoard) : Prop :=
  ValidBoard b' ∧ Extends b.grid b'.grid ∧ b'.fixed = b.fixed ∧
    (CellsInRange b.grid → CellsInRange b'.grid)

/-- A step of deduction from `b` to `b'`: one digit accepted by `isValid` is
placed in an empty cell, and on a valid board every completion holds that
digit in that cell. -/
def DeductionStep (b b' : SudokuBoard) : Prop :=
  ∃ (r c : Fin 9) (d : Nat), b.grid r c = 0 ∧
    b.isValid (r.val : Int) (c.val : Int) (d : Int) = true ∧
    b' = b.placeNumber r c d ∧
    (ValidBoard b → ∀ S, IsCompletion b.grid S → S r c = d)

instance (g : Fin 9 → Fin 9 → Nat) : Decidable (NoRepeat g) := by
  unfold NoRepeat sameUnit
  infer_instance

instance (g : Fin 9 → Fin 9 → Nat) : Decidable (CellsInRange g) := by
  unfold CellsInRange
  infer_instance

instance (g g' : Fin 9 → Fin 9 → Nat) : Decidable (Extends g g') := by
  unfold Extends
  infer_instance

instance (b : SudokuBoard) : Decidable (NoEmptyFixed b) := by
  unfold NoEmptyFixed
  infer_instance

/-! ## Test grids -/

/-- The easy grid of `test_solver.cpp`. -/
def easyGrid : Fin 9 → Fin 9 → Nat :=
  gridOfRows
    [[0, 0, 0, 2, 6, 0, 7, 0, 1], [6, 8, 0, 0, 7, 0, 0, 9, 0],
     [1, 9, 0, 0, 0, 4, 5, 0, 0], [8, 2, 0, 1, 0, 0, 0, 4, 0],
     [0, 0, 4, 6, 0, 2, 9, 0, 0], [0, 5, 0, 0, 0, 3, 0, 2, 8],
     [0, 0, 9, 3, 0, 0, 0, 7, 4], [0, 4, 0, 0, 5, 0, 0, 3, 6],
     [7, 0, 3, 0, 1, 8, 0, 0, 0]]

/-- The completion of `easyGrid`. -/
def easySolution : Fin 9 → Fin 9 → Nat :=
  gridOfRows
    [[4, 3, 5, 2, 6, 9, 7, 8, 1], [6, 8, 2, 5, 7, 1, 4, 9, 3],
     [1, 9, 7, 8, 3, 4, 5, 6, 2], [8, 2, 6, 1, 9, 5, 3, 4, 7],
     [3, 7, 4, 6, 8, 2, 9, 1, 5], [9, 5, 1, 7, 4, 3, 6, 2, 8],
     [5, 1, 9, 3, 2, 6, 8, 7, 4], [2, 4, 8, 9, 5, 7, 1, 3, 6],
     [7, 6, 3, 4, 1, 8, 2, 5, 9]]

/-- The hard grid of `test_solver.cpp`. -/
def hardGrid : Fin 9 → Fin 9 → Nat :=
  gridOfRows
    [[0, 2, 0, 0, 0, 0, 0, 0, 0], [0, 0, 0, 6, 0, 0, 0, 0, 3],
     [0, 7, 4, 0, 8, 0, 0, 0, 0], [0, 0, 0, 0, 0, 3, 0, 0, 2],
     [0, 8, 0, 0, 4, 0, 0, 1, 0], [6, 0, 0, 5, 0, 0, 0, 0, 0],
     [0, 0, 0, 0, 1, 0, 7, 8, 0], [5, 0, 0, 0, 0, 9, 0, 0, 0],
     [0, 0, 0, 0, 0, 0, 0, 4, 0]]

/-- A completion of `hardGrid`. -/
def hardSolution : Fin 9 → Fin 9 → Nat :=
  gridOfRows
    [[1, 2, 6, 4, 3, 7, 9, 5, 8], [8, 9, 5, 6, 2, 1, 4, 7, 3],
     [3, 7, 4, 9, 8, 5, 1, 2, 6], [4, 5, 7, 1, 9, 3, 8, 6, 2],
     [9, 8, 3, 2, 4, 6, 5, 1, 7], [6, 1, 2, 5, 7, 8, 3, 9, 4],
     [2, 6, 9, 3, 1, 4, 7, 8, 5], [5, 4, 8, 7, 6, 9, 2, 3, 1],
     [7, 3, 1, 8, 5, 2, 6, 4, 9]]

/-- The easy solution with its two corner cells `(0,0)` and `(8,8)` blanked. -/
def nearGrid : Fin 9 → Fin 9 → Nat :=
  gridOfRows
    [[0, 3, 5, 2, 6, 9, 7, 8, 1], [6, 8, 2, 5, 7, 1, 4, 9, 3],
     [1, 9, 7, 8, 3, 4, 5, 6, 2], [8, 2, 6, 1, 9, 5, 3, 4, 7],
     [3, 7, 4, 6, 8, 2, 9, 1, 5], [9, 5, 1, 7, 4, 3, 6, 2, 8],
     [5, 1, 9, 3, 2, 6, 8, 7, 4], [2, 4, 8, 9, 5, 7, 1, 3, 6],
     [7, 6, 3, 4, 1, 8, 2, 5, 0]]

/-- A grid that holds 3 twice in row 0 (cells `(0,0)` and `(0,1)`), with cell
`(8,8)` blank. -/
def conflictGrid : Fin 9 → Fin 9 → Nat :=
  gridOfRows
    [[3, 3, 5, 2, 6, 9, 7, 8, 1], [6, 8, 2, 5, 7, 1, 4, 9, 3],
     [1, 9, 7, 8, 3, 4, 5, 6, 2], [8, 2, 6, 1, 9, 5, 3, 4, 7],
     [3, 7, 4, 6, 8, 2, 9, 1, 5], [9, 5, 1, 7, 4, 3, 6, 2, 8],
     [5, 1, 9, 3, 2, 6, 8, 7, 4], [2, 4, 8, 9, 5, 7, 1, 3, 6],
     [7, 6, 3, 4, 1, 8, 2, 5, 0]]

/-- A grid without repeated digit in which cell `(0,8)` has no legal digit:
row 0 holds `1..8` and column 8 holds 9. -/
def deadEndGrid : Fin 9 → Fin 9 → Nat :=
  gridOfRows [[1, 2, 3, 4, 5, 6, 7, 8, 0], [0, 0, 0, 0, 0, 0, 0, 0, 9]]

/-- A grid without repeated digit in which the first empty cell `(0,0)` has the
single candidate 1 and the later empty cell `(8,8)` has no candidate: row 8
holds `1..8` and column 8 holds 9. -/
def mrvGrid : Fin 9 → Fin 9 → Nat :=
  gridOfRows
    [[0, 2, 3, 4, 5, 6, 7, 8, 9], [], [], [], [], [], [], [],
     [2, 3, 4, 5, 6, 7, 8, 1, 0]]

/-! ## Difficulty estimation -/

/-- `Solver::Difficulty`. -/
inductive Difficulty where
  | UNKNOWN
  | EASY
  | MEDIUM
  | HARD
  | EXPERT
  deriving DecidableEq

namespace Solver

/-- The counting loop of `estimateDifficulty`:
`if (board.getValue(r, c) == 0) emptyCount++` over all cells. -/
def countEmpty (b : SudokuBoard) : Nat :=
  allCells.foldl (fun (n : Nat) p => if b.getValue p.1 p.2 = 0 then n + 1 else n) 0

/-- `Solver::estimateDifficulty`, a `const` method: it returns a difficulty and
has no access to change the board or the counters. -/
def estimateDifficulty (s : Solver) : Difficulty :=
  let emptyCount := countEmpty s.board
  if s.backtrackCount > 500 then Difficulty.EXPERT
  else if s.backtrackCount > 50 then Difficulty.HARD
  else if emptyCount < 30 then Difficulty.EASY
  else if emptyCount < 45 then Difficulty.MEDIUM
  else if emptyCount < 55 then Difficulty.HARD
  else Difficulty.EXPERT

/-! ## Randomized search -/

/-- The `for (int num : numbers)` loop of `solveRecursiveRandomized` over the
remaining shuffled digits. The state carries the solver and the number of
shuffles drawn so far; `recurse` is the recursive call. -/
def tryShuffled (recurse : Solver × Nat → Option (Bool × Solver × Nat)) (row col : Fin 9) :
    List Nat → Solver × Nat → Option (Bool × Solver × Nat)
  | [], st => some (false, st.1, st.2)
  | num :: rest, st =>
    if st.1.board.isValid (row.val : Int) (col.val : Int) (num : Int) then
      match recurse ({ st.1 with board := st.1.board.placeNumber row col num }, st.2) with
      | none => none
      | some (true, s1, k1) => some (true, s1, k1)
      | some (false, s1, k1) =>
        tryShuffled recurse row col rest
          ({ s1 with board := s1.board.removeNumber row col,
                     backtrackCount := s1.backtrackCount + 1 }, k1)
    else tryShuffled recurse row col rest st

/-- `Solver::solveRecursiveRandomized`; one unit of fuel per nested call. The
outcome of the `k`-th call of `std::shuffle` on `{1, ..., 9}` is `shuffles k`. -/
def solveRecursiveRandomized (shuffles : Nat → List Nat) :
    Nat → Solver × Nat → Option (Bool × Solver × Nat)
  | 0, _ => none
  | fuel + 1, st =>
    let s0 := { st.1 with recursionCount := st.1.recursionCount + 1 }
    match findBestCell s0.board with
    | none => some (true, s0, st.2)
    | some (row, col) =>
      tryShuffled (solveRecursiveRandomized shuffles fuel) row col (shuffles st.2) (s0, st.2 + 1)

/-- `Solver::solveRandomized`. -/
def solveRandomized (shuffles : Nat → List Nat) (fuel : Nat) (s : Solver) :
    Option (Bool × Solver) :=
  let s0 := { s with recursionCount := 0, backtrackCount := 0 }
  match solveRecursiveRandomized shuffles fuel (s0, 0) with
  | none => none
  | some (res, s1, _) => some (res, s1)

end Solver

/-- The two-tier difficulty rule in the words of the specification, for a
backtrack count `b` and a number `e` of empty cells. -/
def difficultyReference (b e : Nat) : Difficulty :=
  if b > 500 then Difficulty.EXPERT
  else if b > 50 then Difficulty.HARD
  else if e < 30 then Difficulty.EASY
  else if 30 ≤ e ∧ e < 45 then Difficulty.MEDIUM
  else if 45 ≤ e ∧ e < 55 then Difficulty.HARD
  else Difficulty.EXPERT

/-- The number of legal candidates of a cell: the digits `d` in `1..9` for
which `isValid` is true there. -/
def candidateCount (b : SudokuBoard) (r c : Fin 9) : Nat :=
  digits.countP (fun (d : Nat) => b.isValid (r.val : Int) (c.val : Int) (d : Int))

/-! ## Reachable board states -/

/-- The board states reachable from construction by `loadBoard` of a grid with
entries in `0..9`, `placeNumber` and `removeNumber` calls with in-range
coordinates. -/
inductive Reachable : SudokuBoard → Prop where
  | construct : Reachable SudokuBoard.new
  | load (b : SudokuBoard) (g : Fin 9 → Fin 9 → Nat) :
      Reachable b → CellsInRange g → Reachable (b.loadBoard g)
  | place (b : SudokuBoard) (r c : Fin 9) (d : Nat) :
      Reachable b → Reachable (b.placeNumber r c d)
  | remove (b : SudokuBoard) (r c : Fin 9) :
      Reachable b → Reachable (b.removeNumber r c)

/-- The number of non-zero cells of the board. -/
def clueCount (b : SudokuBoard) : Nat := allCells.countP (fun p => b.grid p.1 p.2 != 0)

/-! ## Generator -/

/-- `Generator::Difficulty`. -/
inductive Generator.Difficulty where
  | EASY
  | MEDIUM
  | HARD
  | EXPERT
  deriving DecidableEq

namespace Generator

/-- The `switch (level)` of `generate`: the number `k` of cells to remove. The
`default` branch (`k = 40`) is not reachable for a value of the enumeration. -/
def removalCount : Difficulty → Nat
  | Difficulty.EASY => 30
  | Difficulty.MEDIUM => 45
  | Difficulty.HARD => 54
  | Difficulty.EXPERT => 60

/-- `Generator::fillBox(board, row, col)` for `row = 3 * br`, `col = 3 * bc`;
`nums` is the outcome of the shuffle of `{1, ..., 9}`. The cells
`(row + i, col + j)` are visited in the order of `boxCells` and receive
`nums[0]`, `nums[1]`, ... -/
def fillBox (b : SudokuBoard) (br bc : Fin 3) (nums : List Nat) : SudokuBoard :=
  ((Solver.boxCells br bc).zip nums).foldl (fun b x => b.placeNumber x.1.1 x.1.2 x.2) b

/-- `Generator::fillDiagonal`: `fillBox(board, i, i)` for `i = 0, 3, 6`, with
the three shuffle outcomes `p0`, `p1`, `p2`. -/
def fillDiagonal (b : SudokuBoard) (p0 p1 p2 : List Nat) : SudokuBoard :=
  fillBox (fillBox (fillBox b 0 0 p0) 1 1 p1) 2 2 p2

/-- `Generator::removeDigits(board, count)`; the list holds the successive
outcomes of the draw of `cellId` in `0..80`. The result is `none` when the
list ends while `count > 0`. -/
def removeDigits : List (Fin 81) → SudokuBoard → Nat → Option SudokuBoard
  | _, b, 0 => some b
  | [], _, _ + 1 => none
  | cellId :: rest, b, count + 1 =>
    if b.getValue ⟨cellId.val / 9, by omega⟩ ⟨cellId.val % 9, by omega⟩ ≠ 0 then
      removeDigits rest (b.removeNumber ⟨cellId.val / 9, by omega⟩ ⟨cellId.val % 9, by omega⟩)
        count
    else removeDigits rest b (count + 1)

/-- `Generator::generate(board, level)`. The random choices are the three box
shuffles `p0`, `p1`, `p2`, the shuffles of the search and the draws of
`removeDigits`. The result is `some (true, board)` when the puzzle is
produced, `some (false, board)` when the fill fails and `generate` returns
after the error message, and `none` when the search or the removal loop does
not end within the fuel and the draws given. -/
def generate (p0 p1 p2 : List Nat) (shuffles : Nat → List Nat) (removals : List (Fin 81))
    (fuel : Nat) (board : SudokuBoard) (level : Difficulty) : Option (Bool × SudokuBoard) :=
  let b1 := board.loadBoard (fun _ _ => 0)
  let b2 := fillDiagonal b1 p0 p1 p2
  match Solver.solveRandomized shuffles fuel (Solver.init b2) with
  | none => none
  | some (false, s) => some (false, s.board)
  | some (true, s) =>
    match removeDigits removals s.board (removalCount level) with
    | none => none
    | some b3 => some (true, b3.loadBoard (fun i j => b3.getValue i j))

end Generator

/-! ## Test data for the generator -/

/-- A shuffle outcome for the top-left box. -/
def diagBox0 : List Nat := [4, 3, 5, 6, 8, 2, 1, 9, 7]

/-- A shuffle outcome for the centre box. -/
def diagBox1 : List Nat := [1, 9, 5, 6, 8, 2, 7, 4, 3]

/-- A shuffle outcome for the bottom-right box. -/
def diagBox2 : List Nat := [8, 7, 4, 1, 3, 6, 2, 5, 9]

/-- A stream of draws of `cellId`: the cells `0..19`, then the cells `0..39`,
so that the draws 21 to 40 hit cells that are already empty. -/
def removalDraws : List (Fin 81) := (List.finRange 81).take 20 ++ (List.finRange 81).take 40

open SudokuBoard Solver

/-! ## Bit lemmas -/

theorem testBit_one_shiftLeft (d n : Nat) : (1 <<< d).testBit n = decide (d = n) := by
  rw [Nat.one_shiftLeft, Nat.testBit_two_pow]

theorem testBit_andNot (m v n : Nat) :
    (andNot m v).testBit n = (m.testBit n && !v.testBit n) := by
  unfold andNot
  rw [Nat.testBit_xor, Nat.testBit_and]
  cases m.testBit n <;> cases v.testBit n <;> rfl

theorem testBit_andNot_shift (m d n : Nat) :
    (andNot m (1 <<< d)).testBit n = (m.testBit n && !decide (d = n)) := by
  rw [testBit_andNot, testBit_one_shiftLeft]

theorem testBit_or_shift (m d n : Nat) :
    (m ||| 1 <<< d).testBit n = (m.testBit n || decide (d = n)) := by
  rw [Nat.testBit_or, testBit_one_shiftLeft]

theorem and_shift_ne_zero (m d : Nat) : m &&& 1 <<< d ≠ 0 ↔ m.testBit d = true := by
  constructor
  · intro h
    by_contra hb
    apply h
    apply Nat.eq_of_testBit_eq
    intro i
    rw [Nat.testBit_and, testBit_one_shiftLeft, Nat.zero_testBit]
    by_cases hi : d = i
    · subst hi; simp [hb]
    · simp [hi]
  · intro hb h
    have := congrArg (fun x => x.testBit d) h
    simp [Nat.testBit_and, testBit_one_shiftLeft, hb] at this

theorem andNot_or_shift (m d : Nat) (h : m.testBit d = false) :
    andNot (m ||| 1 <<< d) (1 <<< d) = m := by
  apply Nat.eq_of_testBit_eq
  intro i
  rw [testBit_andNot_shift, testBit_or_shift]
  by_cases hi : d = i
  · subst hi; simp [h]
  · simp [hi]

/-- The model of `m & ~v` is the two's-complement operation on integers. -/
theorem andNot_eq_int (m v : Nat) :
    ((andNot m v : Nat) : Int) = Int.land (m : Int) (Int.lnot (v : Int)) := by
  have h : andNot m v = Nat.ldiff m v := by
    apply Nat.eq_of_testBit_eq
    intro i
    rw [testBit_andNot, Nat.testBit_ldiff]
  rw [h]
  rfl

/-! ## Array writes -/

theorem set1_apply (f : Fin 9 → Nat) (i : Fin 9) (v : Nat) (k : Fin 9) :
    set1 f i v k = if k = i then v else f k := rfl

theorem set2_apply {α : Type} (g : Fin 9 → Fin 9 → α) (r c : Fin 9) (v : α) (i j : Fin 9) :
    set2 g r c v i j = if i = r ∧ j = c then v else g i j := rfl

theorem set3_apply (g : Fin 3 → Fin 3 → Nat) (r c : Fin 3) (v : Nat) (i j : Fin 3) :
    set3 g r c v i j = if i = r ∧ j = c then v else g i j := rfl

theorem sameUnit_self (r c : Fin 9) : sameUnit r c r c := Or.inl rfl

theorem sameUnit_symm {r c r' c' : Fin 9} (h : sameUnit r c r' c') : sameUnit r' c' r c := by
  rcases h with h | h | ⟨h1, h2⟩
  · exact Or.inl h.symm
  · exact Or.inr (Or.inl h.symm)
  · exact Or.inr (Or.inr ⟨h1.symm, h2.symm⟩)

namespace SudokuBoard

/-! ## isValid -/

theorem isValid_cast (b : SudokuBoard) (r c : Fin 9) (n : Nat) (h1 : 1 ≤ n) (h9 : n ≤ 9) :
    b.isValid (r.val : Int) (c.val : Int) (n : Int) =
      (decide (b.grid r c = n) ||
        (!(b.rowMask r).testBit n && !(b.colMask c).testBit n &&
          !(b.boxMask (div3 r) (div3 c)).testBit n)) := by
  have hr := r.isLt
  have hc := c.isLt
  unfold isValid
  rw [dif_neg (by omega)]
  simp only [Int.toNat_ofNat, Fin.eta, Nat.cast_inj, and_shift_ne_zero]
  by_cases hg : b.grid r c = n
  · simp [hg]
  · simp only [hg, if_false, decide_False, Bool.false_or]
    cases (b.rowMask r).testBit n <;> cases (b.colMask c).testBit n <;>
      cases (b.boxMask (div3 r) (div3 c)).testBit n <;> simp

theorem isValid_range (b : SudokuBoard) (row col number : Int)
    (h : b.isValid row col number = true) :
    0 ≤ row ∧ row < 9 ∧ 0 ≤ col ∧ col < 9 ∧ 1 ≤ number ∧ number ≤ 9 := by
  unfold isValid at h
  split at h
  · simp at h
  · omega

theorem isValid_digit (b : SudokuBoard) (r c : Fin 9) (n : Nat)
    (h : b.isValid (r.val : Int) (c.val : Int) (n : Int) = true) : 1 ≤ n ∧ n ≤ 9 := by
  have := isValid_range b _ _ _ h
  omega

/-! ## removeNumber -/

theorem removeNumber_of_fixed (b : SudokuBoard) (r c : Fin 9) (h : b.fixed r c = true) :
    b.removeNumber r c = b := by
  simp [removeNumber, h]

theorem removeNumber_of_empty (b : SudokuBoard) (r c : Fin 9) (h : b.grid r c = 0) :
    b.removeNumber r c = b := by
  simp [removeNumber, h]

theorem removeNumber_fixed (b : SudokuBoard) (r c : Fin 9) :
    (b.removeNumber r c).fixed = b.fixed := by
  unfold removeNumber
  split
  · rfl
  · dsimp only
    split <;> rfl

theorem removeNumber_grid (b : SudokuBoard) (r c : Fin 9) (h : b.fixed r c = false) :
    (b.removeNumber r c).grid = set2 b.grid r c 0 := by
  unfold removeNumber
  simp only [h, Bool.false_eq_true, if_false]
  split
  · rename_i h0
    funext i j
    rw [set2_apply]
    split
    · rename_i hij
      rw [hij.1, hij.2, h0]
    · rfl
  · rfl

theorem removeNumber_rowMask (b : SudokuBoard) (r c : Fin 9) (h : b.fixed r c = false)
    (r' : Fin 9) (n : Nat) (hn : 1 ≤ n) :
    ((b.removeNumber r c).rowMask r').testBit n =
      ((b.rowMask r').testBit n && !decide (r' = r ∧ b.grid r c = n)) := by
  unfold removeNumber
  simp only [h, Bool.false_eq_true, if_false]
  split
  · rename_i h0
    have : ¬ (r' = r ∧ b.grid r c = n) := by omega
    simp [this]
  · simp only [set1_apply]
    by_cases hr : r' = r
    · subst hr
      simp [testBit_andNot_shift]
    · simp [hr]

theorem removeNumber_colMask (b : SudokuBoard) (r c : Fin 9) (h : b.fixed r c = false)
    (c' : Fin 9) (n : Nat) (hn : 1 ≤ n) :
    ((b.removeNumber r c).colMask c').testBit n =
      ((b.colMask c').testBit n && !decide (c' = c ∧ b.grid r c = n)) := by
  unfold removeNumber
  simp only [h, Bool.false_eq_true, if_false]
  split
  · rename_i h0
    have : ¬ (c' = c ∧ b.grid r c = n) := by omega
    simp [this]
  · simp only [set1_apply]
    by_cases hr : c' = c
    · subst hr
      simp [testBit_andNot_shift]
    · simp [hr]

theorem removeNumber_boxMask (b : SudokuBoard) (r c : Fin 9) (h : b.fixed r c = false)
    (br bc : Fin 3) (n : Nat) (hn : 1 ≤ n) :
    ((b.removeNumber r c).boxMask br bc).testBit n =
      ((b.boxMask br bc).testBit n &&
        !decide ((br = div3 r ∧ bc = div3 c) ∧ b.grid r c = n)) := by
  unfold removeNumber
  simp only [h, Bool.false_eq_true, if_false]
  split
  · rename_i h0
    have : ¬ ((br = div3 r ∧ bc = div3 c) ∧ b.grid r c = n) := by omega
    simp [this]
  · simp only [set3_apply]
    by_cases hr : br = div3 r ∧ bc = div3 c
    · obtain ⟨h1, h2⟩ := hr
      subst h1 h2
      simp [testBit_andNot_shift]
    · simp [hr]

end SudokuBoard

namespace SudokuBoard

/-! ## placeNumber -/

theorem placeNumber_of_fixed (b : SudokuBoard) (r c : Fin 9) (d : Nat) (h : b.fixed r c = true) :
    b.placeNumber r c d = b := by
  simp [placeNumber, h]

theorem placeNumber_zero (b : SudokuBoard) (r c : Fin 9) :
    b.placeNumber r c 0 = b.removeNumber r c := by
  unfold placeNumber
  by_cases hf : b.fixed r c = true
  · simp [hf, removeNumber_of_fixed]
  · by_cases hg : b.grid r c = 0
    · simp [hf, hg, removeNumber_of_empty]
    · simp [hf, hg]

theorem placeNumber_remove (b : SudokuBoard) (r c : Fin 9) (d : Nat) :
    b.placeNumber r c d = (b.removeNumber r c).placeNumber r c d := by
  by_cases hf : b.fixed r c = true
  · rw [removeNumber_of_fixed b r c hf]
  · by_cases hg : b.grid r c = 0
    · rw [removeNumber_of_empty b r c hg]
    · have hf' : b.fixed r c = false := by simpa using hf
      have h1 : (b.removeNumber r c).fixed r c = false := by rw [removeNumber_fixed]; exact hf'
      have h2 : (b.removeNumber r c).grid r c = 0 := by
        rw [removeNumber_grid b r c hf', set2_apply]; simp
      unfold placeNumber
      simp [hf', hg, h1, h2]

theorem placeNumber_fixed (b : SudokuBoard) (r c : Fin 9) (d : Nat) :
    (b.placeNumber r c d).fixed = b.fixed := by
  unfold placeNumber
  split
  · rfl
  · dsimp only
    split <;> split <;> simp [removeNumber_fixed]

theorem placeNumber_empty_grid (b : SudokuBoard) (r c : Fin 9) (d : Nat)
    (hf : b.fixed r c = false) (hg : b.grid r c = 0) :
    (b.placeNumber r c d).grid = set2 b.grid r c d := by
  unfold placeNumber
  simp only [hf, hg, Bool.false_eq_true, if_false, ne_eq, not_true_eq_false]
  split
  · rename_i h0
    funext i j
    rw [set2_apply]
    split
    · rename_i hij
      rw [hij.1, hij.2, hg, h0]
    · rfl
  · rfl

theorem placeNumber_grid (b : SudokuBoard) (r c : Fin 9) (d : Nat) (hf : b.fixed r c = false) :
    (b.placeNumber r c d).grid = set2 b.grid r c d := by
  rw [placeNumber_remove]
  have h1 : (b.removeNumber r c).fixed r c = false := by rw [removeNumber_fixed]; exact hf
  have h2 : (b.removeNumber r c).grid r c = 0 := by
    rw [removeNumber_grid b r c hf, set2_apply]; simp
  rw [placeNumber_empty_grid _ r c d h1 h2, removeNumber_grid b r c hf]
  funext i j
  simp only [set2_apply]
  split <;> rfl

theorem placeNumber_empty_rowMask (b : SudokuBoard) (r c : Fin 9) (d : Nat)
    (hf : b.fixed r c = false) (hg : b.grid r c = 0) (r' : Fin 9) (n : Nat) (hn : 1 ≤ n) :
    ((b.placeNumber r c d).rowMask r').testBit n =
      ((b.rowMask r').testBit n || decide (r' = r ∧ d = n)) := by
  unfold placeNumber
  simp only [hf, hg, Bool.false_eq_true, if_false, ne_eq, not_true_eq_false]
  split
  · rename_i h0
    have : ¬ (r' = r ∧ d = n) := by omega
    simp [this]
  · simp only [set1_apply]
    by_cases hr : r' = r
    · subst hr
      rw [if_pos rfl, testBit_or_shift]
      simp
    · simp [hr]

theorem placeNumber_empty_colMask (b : SudokuBoard) (r c : Fin 9) (d : Nat)
    (hf : b.fixed r c = false) (hg : b.grid r c = 0) (c' : Fin 9) (n : Nat) (hn : 1 ≤ n) :
    ((b.placeNumber r c d).colMask c').testBit n =
      ((b.colMask c').testBit n || decide (c' = c ∧ d = n)) := by
  unfold placeNumber
  simp only [hf, hg, Bool.false_eq_true, if_false, ne_eq, not_true_eq_false]
  split
  · rename_i h0
    have : ¬ (c' = c ∧ d = n) := by omega
    simp [this]
  · simp only [set1_apply]
    by_cases hr : c' = c
    · subst hr
      rw [if_pos rfl, testBit_or_shift]
      simp
    · simp [hr]

theorem placeNumber_empty_boxMask (b : SudokuBoard) (r c : Fin 9) (d : Nat)
    (hf : b.fixed r c = false) (hg : b.grid r c = 0) (br bc : Fin 3) (n : Nat) (hn : 1 ≤ n) :
    ((b.placeNumber r c d).boxMask br bc).testBit n =
      ((b.boxMask br bc).testBit n || decide ((br = div3 r ∧ bc = div3 c) ∧ d = n)) := by
  unfold placeNumber
  simp only [hf, hg, Bool.false_eq_true, if_false, ne_eq, not_true_eq_false]
  split
  · rename_i h0
    have : ¬ ((br = div3 r ∧ bc = div3 c) ∧ d = n) := by omega
    simp [this]
  · simp only [set3_apply]
    by_cases hr : br = div3 r ∧ bc = div3 c
    · obtain ⟨h1, h2⟩ := hr
      subst h1 h2
      rw [if_pos ⟨rfl, rfl⟩, testBit_or_shift]
      simp
    · simp [hr]

end SudokuBoard

/-! ## Invariants under removal and placement -/

theorem NoRepeat_set_zero (g : Fin 9 → Fin 9 → Nat) (r c : Fin 9) (h : NoRepeat g) :
    NoRepeat (set2 g r c 0) := by
  intro a b a' b' hne hu hnz
  simp only [set2_apply] at hnz ⊢
  by_cases h1 : a = r ∧ b = c
  · simp [h1] at hnz
  · simp only [h1, if_false] at hnz ⊢
    by_cases h2 : a' = r ∧ b' = c
    · simp only [h2, and_self, if_true]; exact hnz
    · simp only [h2, if_false]
      exact h a b a' b' hne hu hnz

theorem NoRepeat_set_digit (g : Fin 9 → Fin 9 → Nat) (r c : Fin 9) (d : Nat) (h : NoRepeat g)
    (hfree : ∀ r' c', (r', c') ≠ (r, c) → sameUnit r c r' c' → g r' c' ≠ d) :
    NoRepeat (set2 g r c d) := by
  intro a b a' b' hne hu hnz
  simp only [set2_apply] at hnz ⊢
  by_cases h1 : a = r ∧ b = c
  · obtain ⟨ha, hb⟩ := h1
    subst ha hb
    have h2 : ¬ (a' = a ∧ b' = b) := by
      rintro ⟨rfl, rfl⟩; exact hne rfl
    simp only [and_self, if_true, h2, if_false]
    have h3 : (a', b') ≠ (a, b) := by
      intro he; exact hne he.symm
    exact fun he => hfree a' b' h3 hu he.symm
  · simp only [h1, if_false] at hnz ⊢
    by_cases h2 : a' = r ∧ b' = c
    · obtain ⟨ha, hb⟩ := h2
      subst ha hb
      simp only [and_self, if_true]
      exact hfree a b hne (sameUnit_symm hu)
    · simp only [h2, if_false]
      exact h a b a' b' hne hu hnz

theorem NoRepeat_removeNumber (b : SudokuBoard) (r c : Fin 9) (h : NoRepeat b.grid) :
    NoRepeat (b.removeNumber r c).grid := by
  by_cases hf : b.fixed r c = true
  · rw [SudokuBoard.removeNumber_of_fixed b r c hf]; exact h
  · rw [SudokuBoard.removeNumber_grid b r c (by simpa using hf)]
    exact NoRepeat_set_zero _ _ _ h

theorem MaskInv_removeNumber (b : SudokuBoard) (r c : Fin 9) (hm : MaskInv b)
    (h : NoRepeat b.grid) : MaskInv (b.removeNumber r c) := by
  by_cases hf : b.fixed r c = true
  · rw [SudokuBoard.removeNumber_of_fixed b r c hf]; exact hm
  have hf' : b.fixed r c = false := by simpa using hf
  intro n h1 h9
  obtain ⟨hrow, hcol, hbox⟩ := hm n h1 h9
  have hgrid := SudokuBoard.removeNumber_grid b r c hf'
  refine ⟨?_, ?_, ?_⟩
  · intro r'
    rw [SudokuBoard.removeNumber_rowMask b r c hf' r' n h1, hgrid]
    simp only [Bool.and_eq_true, Bool.not_eq_true', decide_eq_false_iff_not, set2_apply, hrow]
    constructor
    · rintro ⟨⟨c', hc'⟩, hne⟩
      refine ⟨c', ?_⟩
      have : ¬ (r' = r ∧ c' = c) := by
        rintro ⟨rfl, rfl⟩; exact hne ⟨rfl, hc'⟩
      simp [this, hc']
    · rintro ⟨c', hc'⟩
      by_cases hrc : r' = r ∧ c' = c
      · simp [hrc] at hc'; omega
      · simp only [hrc, if_false] at hc'
        refine ⟨⟨c', hc'⟩, ?_⟩
        rintro ⟨rfl, hv⟩
        have hne : (r', c) ≠ (r', c') := by
          intro he; apply hrc; simp at he; exact ⟨rfl, he.symm⟩
        exact h r' c r' c' hne (Or.inl rfl) (by omega) (by rw [hv, hc'])
  · intro c'
    rw [SudokuBoard.removeNumber_colMask b r c hf' c' n h1, hgrid]
    simp only [Bool.and_eq_true, Bool.not_eq_true', decide_eq_false_iff_not, set2_apply, hcol]
    constructor
    · rintro ⟨⟨r', hr'⟩, hne⟩
      refine ⟨r', ?_⟩
      have : ¬ (r' = r ∧ c' = c) := by
        rintro ⟨rfl, rfl⟩; exact hne ⟨rfl, hr'⟩
      simp [this, hr']
    · rintro ⟨r', hr'⟩
      by_cases hrc : r' = r ∧ c' = c
      · simp [hrc] at hr'; omega
      · simp only [hrc, if_false] at hr'
        refine ⟨⟨r', hr'⟩, ?_⟩
        rintro ⟨rfl, hv⟩
        have hne : (r, c') ≠ (r', c') := by
          intro he; apply hrc; simp at he; exact ⟨he.symm, rfl⟩
        exact h r c' r' c' hne (Or.inr (Or.inl rfl)) (by omega) (by rw [hv, hr'])
  · intro br bc
    rw [SudokuBoard.removeNumber_boxMask b r c hf' br bc n h1, hgrid]
    simp only [Bool.and_eq_true, Bool.not_eq_true', decide_eq_false_iff_not, set2_apply, hbox]
    constructor
    · rintro ⟨⟨r', c', hbr, hbc, hv⟩, hne⟩
      refine ⟨r', c', hbr, hbc, ?_⟩
      have : ¬ (r' = r ∧ c' = c) := by
        rintro ⟨rfl, rfl⟩; exact hne ⟨⟨hbr.symm, hbc.symm⟩, hv⟩
      simp [this, hv]
    · rintro ⟨r', c', hbr, hbc, hv⟩
      by_cases hrc : r' = r ∧ c' = c
      · simp [hrc] at hv; omega
      · simp only [hrc, if_false] at hv
        refine ⟨⟨r', c', hbr, hbc, hv⟩, ?_⟩
        rintro ⟨⟨rfl, rfl⟩, hg⟩
        have hne : (r, c) ≠ (r', c') := by
          intro he; apply hrc; simp at he; exact ⟨he.1.symm, he.2.symm⟩
        exact h r c r' c' hne (Or.inr (Or.inr ⟨hbr.symm, hbc.symm⟩)) (by omega)
          (by rw [hg, hv])

theorem MaskInv_new : MaskInv SudokuBoard.new := by
  intro n h1 h9
  refine ⟨?_, ?_, ?_⟩
  · intro r
    simp only [SudokuBoard.new, Nat.zero_testBit, Bool.false_eq_true, false_iff, not_exists]
    intro c; omega
  · intro c
    simp only [SudokuBoard.new, Nat.zero_testBit, Bool.false_eq_true, false_iff, not_exists]
    intro r; omega
  · intro br bc
    simp only [SudokuBoard.new, Nat.zero_testBit, Bool.false_eq_true, false_iff, not_exists]
    intro r c; omega

theorem NoRepeat_new : NoRepeat SudokuBoard.new.grid := by
  intro r c r' c' _ _ h
  exact absurd rfl h

theorem MaskInv_placeNumber_empty (b : SudokuBoard) (r c : Fin 9) (d : Nat) (hm : MaskInv b)
    (hg : b.grid r c = 0) : MaskInv (b.placeNumber r c d) := by
  by_cases hf : b.fixed r c = true
  · rw [SudokuBoard.placeNumber_of_fixed b r c d hf]; exact hm
  have hf' : b.fixed r c = false := by simpa using hf
  intro n h1 h9
  obtain ⟨hrow, hcol, hbox⟩ := hm n h1 h9
  have hgrid := SudokuBoard.placeNumber_empty_grid b r c d hf' hg
  refine ⟨?_, ?_, ?_⟩
  · intro r'
    rw [SudokuBoard.placeNumber_empty_rowMask b r c d hf' hg r' n h1, hgrid]
    simp only [Bool.or_eq_true, decide_eq_true_eq, set2_apply, hrow]
    constructor
    · rintro (⟨c', hc'⟩ | ⟨rfl, rfl⟩)
      · refine ⟨c', ?_⟩
        have : ¬ (r' = r ∧ c' = c) := by
          rintro ⟨rfl, rfl⟩; omega
        simp [this, hc']
      · exact ⟨c, by simp⟩
    · rintro ⟨c', hc'⟩
      by_cases hrc : r' = r ∧ c' = c
      · simp only [hrc, and_self, if_true] at hc'
        exact Or.inr ⟨hrc.1, hc'⟩
      · simp only [hrc, if_false] at hc'
        exact Or.inl ⟨c', hc'⟩
  · intro c'
    rw [SudokuBoard.placeNumber_empty_colMask b r c d hf' hg c' n h1, hgrid]
    simp only [Bool.or_eq_true, decide_eq_true_eq, set2_apply, hcol]
    constructor
    · rintro (⟨r', hr'⟩ | ⟨rfl, rfl⟩)
      · refine ⟨r', ?_⟩
        have : ¬ (r' = r ∧ c' = c) := by
          rintro ⟨rfl, rfl⟩; omega
        simp [this, hr']
      · exact ⟨r, by simp⟩
    · rintro ⟨r', hr'⟩
      by_cases hrc : r' = r ∧ c' = c
      · simp only [hrc, and_self, if_true] at hr'
        exact Or.inr ⟨hrc.2, hr'⟩
      · simp only [hrc, if_false] at hr'
        exact Or.inl ⟨r', hr'⟩
  · intro br bc
    rw [SudokuBoard.placeNumber_empty_boxMask b r c d hf' hg br bc n h1, hgrid]
    simp only [Bool.or_eq_true, decide_eq_true_eq, set2_apply, hbox]
    constructor
    · rintro (⟨r', c', hbr, hbc, hv⟩ | ⟨⟨rfl, rfl⟩, rfl⟩)
      · refine ⟨r', c', hbr, hbc, ?_⟩
        have : ¬ (r' = r ∧ c' = c) := by
          rintro ⟨rfl, rfl⟩; omega
        simp [this, hv]
      · exact ⟨r, c, rfl, rfl, by simp⟩
    · rintro ⟨r', c', hbr, hbc, hv⟩
      by_cases hrc : r' = r ∧ c' = c
      · simp only [hrc, and_self, if_true] at hv
        obtain ⟨rfl, rfl⟩ := hrc
        exact Or.inr ⟨⟨hbr.symm, hbc.symm⟩, hv⟩
      · simp only [hrc, if_false] at hv
        exact Or.inl ⟨r', c', hbr, hbc, hv⟩

/-- On a board that satisfies the invariants, a digit accepted by `isValid`
occurs in no other cell of the three units of the cell. -/
theorem free_of_isValid (b : SudokuBoard) (r c : Fin 9) (d : Nat) (hm : MaskInv b)
    (hn : NoRepeat b.grid) (hv : b.isValid (r.val : Int) (c.val : Int) (d : Int) = true) :
    ∀ r' c', (r', c') ≠ (r, c) → sameUnit r c r' c' → b.grid r' c' ≠ d := by
  obtain ⟨h1, h9⟩ := SudokuBoard.isValid_digit b r c d hv
  rw [SudokuBoard.isValid_cast b r c d h1 h9] at hv
  intro r' c' hne hu he
  simp only [Bool.or_eq_true, decide_eq_true_eq, Bool.and_eq_true, Bool.not_eq_true'] at hv
  rcases hv with hv | ⟨⟨hr, hc⟩, hb⟩
  · exact hn r c r' c' (fun h => hne h.symm) hu (by omega) (by rw [hv, he])
  · obtain ⟨hrow, hcol, hbox⟩ := hm d h1 h9
    rcases hu with hu | hu | ⟨hu1, hu2⟩
    · subst hu
      have := (hrow r).2 ⟨c', he⟩
      rw [hr] at this; exact Bool.noConfusion this
    · subst hu
      have := (hcol c).2 ⟨r', he⟩
      rw [hc] at this; exact Bool.noConfusion this
    · have := (hbox (div3 r) (div3 c)).2 ⟨r', c', hu1.symm, hu2.symm, he⟩
      rw [hb] at this; exact Bool.noConfusion this

theorem invariants_removeNumber (b : SudokuBoard) (r c : Fin 9) (hm : MaskInv b)
    (hn : NoRepeat b.grid) :
    MaskInv (b.removeNumber r c) ∧ NoRepeat (b.removeNumber r c).grid :=
  ⟨MaskInv_removeNumber b r c hm hn, NoRepeat_removeNumber b r c hn⟩

theorem invariants_placeNumber (b : SudokuBoard) (r c : Fin 9) (d : Nat) (hm : MaskInv b)
    (hn : NoRepeat b.grid) (hv : b.isValid (r.val : Int) (c.val : Int) (d : Int) = true) :
    MaskInv (b.placeNumber r c d) ∧ NoRepeat (b.placeNumber r c d).grid := by
  by_cases hf : b.fixed r c = true
  · rw [SudokuBoard.placeNumber_of_fixed b r c d hf]; exact ⟨hm, hn⟩
  have hf' : b.fixed r c = false := by simpa using hf
  constructor
  · rw [SudokuBoard.placeNumber_remove]
    apply MaskInv_placeNumber_empty _ _ _ _ (MaskInv_removeNumber b r c hm hn)
    rw [SudokuBoard.removeNumber_grid b r c hf', set2_apply]; simp
  · rw [SudokuBoard.placeNumber_grid b r c d hf']
    exact NoRepeat_set_digit _ _ _ _ hn (free_of_isValid b r c d hm hn hv)

theorem invariants_apply (b : SudokuBoard) (op : BoardOp) (hm : MaskInv b)
    (hn : NoRepeat b.grid) (hg : OpsGated b [op]) :
    MaskInv (op.apply b) ∧ NoRepeat (op.apply b).grid := by
  cases op with
  | place r c d =>
    simp only [OpsGated, and_true] at hg
    rcases hg with rfl | hv
    · simp only [BoardOp.apply, SudokuBoard.placeNumber_zero]
      exact invariants_removeNumber b r c hm hn
    · exact invariants_placeNumber b r c d hm hn hv
  | remove r c => exact invariants_removeNumber b r c hm hn

theorem invariants_runOps (ops : List BoardOp) :
    ∀ b : SudokuBoard, MaskInv b → NoRepeat b.grid → OpsGated b ops →
      MaskInv (runOps b ops) ∧ NoRepeat (runOps b ops).grid := by
  induction ops with
  | nil => intro b hm hn _; exact ⟨hm, hn⟩
  | cons op rest ih =>
    intro b hm hn hg
    have hop : OpsGated b [op] ∧ OpsGated (op.apply b) rest := by
      cases op with
      | place r c d => simp only [OpsGated, and_true, BoardOp.apply] at hg ⊢; exact hg
      | remove r c => simp only [OpsGated, BoardOp.apply] at hg ⊢; exact ⟨trivial, hg⟩
    obtain ⟨h1, h2⟩ := invariants_apply b op hm hn hop.1
    exact ih (op.apply b) h1 h2 hop.2

theorem OpsGated_take (ops : List BoardOp) :
    ∀ (b : SudokuBoard) (k : Nat), OpsGated b ops → OpsGated b (ops.take k) := by
  induction ops with
  | nil => intro b k h; simpa using h
  | cons op rest ih =>
    intro b k h
    cases k with
    | zero => simp [OpsGated]
    | succ k =>
      cases op with
      | place r c d =>
        simp only [List.take_succ_cons, OpsGated] at h ⊢
        exact ⟨h.1, ih _ k h.2⟩
      | remove r c =>
        simp only [List.take_succ_cons, OpsGated] at h ⊢
        exact ih _ k h

/-- On a board that satisfies the invariants, `isValid` rejects a digit exactly
when another cell of the three units holds it. -/
theorem isValid_eq_false_iff (b : SudokuBoard) (hm : MaskInv b) (hn : NoRepeat b.grid)
    (r c : Fin 9) (d : Nat) (h1 : 1 ≤ d) (h9 : d ≤ 9) :
    b.isValid (r.val : Int) (c.val : Int) (d : Int) = false ↔
      ∃ r' c', (r', c') ≠ (r, c) ∧ sameUnit r c r' c' ∧ b.grid r' c' = d := by
  constructor
  · intro hv
    rw [SudokuBoard.isValid_cast b r c d h1 h9] at hv
    simp only [Bool.or_eq_false_iff, decide_eq_false_iff_not, Bool.and_eq_false_iff,
      Bool.not_eq_false'] at hv
    obtain ⟨hg, hbits⟩ := hv
    obtain ⟨hrow, hcol, hbox⟩ := hm d h1 h9
    rcases hbits with (hb | hb) | hb
    · obtain ⟨c', hc'⟩ := (hrow r).1 hb
      refine ⟨r, c', ?_, Or.inl rfl, hc'⟩
      intro he
      simp only [Prod.mk.injEq, true_and] at he
      subst he; exact hg hc'
    · obtain ⟨r', hr'⟩ := (hcol c).1 hb
      refine ⟨r', c, ?_, Or.inr (Or.inl rfl), hr'⟩
      intro he
      simp only [Prod.mk.injEq, and_true] at he
      subst he; exact hg hr'
    · obtain ⟨r', c', hbr, hbc, hv⟩ := (hbox _ _).1 hb
      refine ⟨r', c', ?_, Or.inr (Or.inr ⟨hbr.symm, hbc.symm⟩), hv⟩
      intro he
      simp only [Prod.mk.injEq] at he
      obtain ⟨rfl, rfl⟩ := he
      exact hg hv
  · rintro ⟨r', c', hne, hu, he⟩
    by_contra hv
    have hv' : b.isValid (r.val : Int) (c.val : Int) (d : Int) = true := by
      simpa using hv
    exact free_of_isValid b r c d hm hn hv' r' c' hne hu he

/-! ## Board contracts -/

/-- C6, counterexample: after `placeNumber(0,0,5)`, `placeNumber(0,1,5)`,
`removeNumber(0,0)` on a fresh board, all digits in `0..9`, bit 5 of
`rowMask[0]` is clear although cell `(0,1)` still holds 5, so the mask
invariant fails. -/
theorem mask_consistency_unguarded_fails :
    OpsInRange [BoardOp.place 0 0 5, BoardOp.place 0 1 5, BoardOp.remove 0 0] ∧
    ((runOps new [BoardOp.place 0 0 5, BoardOp.place 0 1 5, BoardOp.remove 0 0]).rowMask
      0).testBit 5 = false ∧
    (runOps new [BoardOp.place 0 0 5, BoardOp.place 0 1 5, BoardOp.remove 0 0]).grid 0 1 = 5 ∧
    ¬ MaskInv (runOps new [BoardOp.place 0 0 5, BoardOp.place 0 1 5, BoardOp.remove 0 0]) := by
  refine ⟨by simp [OpsInRange], by decide, by decide, ?_⟩
  intro h
  have h5 := ((h 5 (by decide) (by decide)).1 0).2 ⟨1, by decide⟩
  revert h5
  decide

/-- C6, amended: starting from a freshly constructed board, for every sequence
of `removeNumber` calls and of `placeNumber(r, c, d)` calls each made with
`d = 0` or while `isValid(r, c, d)` is true, the mask invariant holds after
every call. -/
theorem mask_consistency_gated (ops : List BoardOp) (hg : OpsGated new ops) (k : Nat) :
    MaskInv (runOps new (ops.take k)) :=
  (invariants_runOps (ops.take k) new MaskInv_new NoRepeat_new
    (OpsGated_take ops new k hg)).1

/-- Witness of `mask_consistency_gated` on a sequence with a replacement and a
removal. -/
theorem mask_consistency_gated_witness :
    OpsGated new [BoardOp.place 0 0 5, BoardOp.place 0 1 3, BoardOp.place 0 0 7,
      BoardOp.remove 0 1, BoardOp.place 0 0 0] ∧
    MaskInv (runOps new ([BoardOp.place 0 0 5, BoardOp.place 0 1 3, BoardOp.place 0 0 7,
      BoardOp.remove 0 1, BoardOp.place 0 0 0].take 3)) :=
  ⟨by simp only [OpsGated]; decide,
   mask_consistency_gated _ (by simp only [OpsGated]; decide) 3⟩

/-- C7: on a board whose masks agree with the grid and on which no digit
repeats in a row, column or box, `placeNumber(r, c, d)` with a digit accepted
by `isValid(r, c, d)` and `removeNumber(r, c)` both give a board with the same
two properties, whatever the cell holds and whether it is fixed or not. -/
theorem gated_writes_keep_invariants (b : SudokuBoard) (r c : Fin 9) (hm : MaskInv b)
    (hn : NoRepeat b.grid) :
    (∀ d : Nat, b.isValid (r.val : Int) (c.val : Int) (d : Int) = true →
      MaskInv (b.placeNumber r c d) ∧ NoRepeat (b.placeNumber r c d).grid) ∧
    (MaskInv (b.removeNumber r c) ∧ NoRepeat (b.removeNumber r c).grid) :=
  ⟨fun d hv => invariants_placeNumber b r c d hm hn hv, invariants_removeNumber b r c hm hn⟩

/-- Witness of `gated_writes_keep_invariants`: the board holding a 5 at
`(0,0)`, overwritten by 3. -/
theorem gated_writes_keep_invariants_witness :
    (new.placeNumber 0 0 5).isValid 0 0 3 = true ∧
    MaskInv ((new.placeNumber 0 0 5).placeNumber 0 0 3) ∧
    NoRepeat ((new.placeNumber 0 0 5).placeNumber 0 0 3).grid :=
  ⟨by decide,
   (gated_writes_keep_invariants (new.placeNumber 0 0 5) 0 0
      (invariants_placeNumber new 0 0 5 MaskInv_new NoRepeat_new (by decide)).1
      (invariants_placeNumber new 0 0 5 MaskInv_new NoRepeat_new (by decide)).2).1 3
      (by decide)⟩

/-- C8: on a board whose masks agree with the grid and on which no digit
repeats in a unit, for an in-range cell and a digit in `1..9`, `isValid`
returns false exactly when another cell of the same row, column or box holds
the digit. -/
theorem isValid_false_iff_conflict (b : SudokuBoard) (hm : MaskInv b) (hn : NoRepeat b.grid)
    (r c : Fin 9) (d : Nat) (h1 : 1 ≤ d) (h9 : d ≤ 9) :
    b.isValid (r.val : Int) (c.val : Int) (d : Int) = false ↔
      ∃ r' c', (r', c') ≠ (r, c) ∧ sameUnit r c r' c' ∧ b.grid r' c' = d :=
  isValid_eq_false_iff b hm hn r c d h1 h9

/-- Witness of `isValid_false_iff_conflict`: a 5 at `(0,0)` forbids 5 at
`(1,1)`, a cell of the same box. -/
theorem isValid_false_iff_conflict_witness :
    (new.placeNumber 0 0 5).isValid 1 1 5 = false ∧
    ∃ r' c', (r', c') ≠ ((1 : Fin 9), (1 : Fin 9)) ∧ sameUnit 1 1 r' c' ∧
      (new.placeNumber 0 0 5).grid r' c' = 5 :=
  ⟨by decide,
   (isValid_false_iff_conflict (new.placeNumber 0 0 5)
      (invariants_placeNumber new 0 0 5 MaskInv_new NoRepeat_new (by decide)).1
      (invariants_placeNumber new 0 0 5 MaskInv_new NoRepeat_new (by decide)).2
      1 1 5 (by decide) (by decide)).1 (by decide)⟩

/-- C9: on every board and every integer triple, `isValid(row, col, digit)` is
true exactly when the row and column are in `0..8`, the digit is in `1..9` and
either the cell already equals the digit or bit `digit` is clear in
`rowMask[row] | colMask[col] | boxMask[row/3][col/3]`; and for an out-of-range
row, column or digit the answer is false on every board. -/
theorem isValid_iff_definition (row col digit : Int) :
    (∀ b : SudokuBoard, b.isValid row col digit = true ↔
      ∃ (r c : Fin 9) (d : Nat), (r.val : Int) = row ∧ (c.val : Int) = col ∧ (d : Int) = digit ∧
        1 ≤ d ∧ d ≤ 9 ∧
        (b.grid r c = d ∨
          (b.rowMask r ||| b.colMask c ||| b.boxMask (div3 r) (div3 c)).testBit d = false)) ∧
    ((row < 0 ∨ 9 ≤ row ∨ col < 0 ∨ 9 ≤ col ∨ digit < 1 ∨ 9 < digit) →
      ∀ b : SudokuBoard, b.isValid row col digit = false) := by
  constructor
  · intro b
    constructor
    · intro hv
      obtain ⟨hr0, hr9, hc0, hc9, hd1, hd9⟩ := isValid_range b row col digit hv
      refine ⟨⟨row.toNat, by omega⟩, ⟨col.toNat, by omega⟩, digit.toNat, ?_, ?_, ?_, ?_, ?_, ?_⟩
      · simp only; omega
      · simp only; omega
      · omega
      · omega
      · omega
      · have e1 : row = ((⟨row.toNat, by omega⟩ : Fin 9).val : Int) := by simp only; omega
        have e2 : col = ((⟨col.toNat, by omega⟩ : Fin 9).val : Int) := by simp only; omega
        have e3 : digit = (digit.toNat : Int) := by omega
        rw [e1, e2, e3, isValid_cast b _ _ _ (by omega) (by omega)] at hv
        simp only [Bool.or_eq_true, decide_eq_true_eq, Bool.and_eq_true, Bool.not_eq_true'] at hv
        rcases hv with hv | ⟨⟨h1, h2⟩, h3⟩
        · exact Or.inl hv
        · right
          simp only [Nat.testBit_or, h1, h2, h3, Bool.or_self]
    · rintro ⟨r, c, d, rfl, rfl, rfl, h1, h9, h⟩
      rw [isValid_cast b r c d h1 h9]
      rcases h with h | h
      · simp [h]
      · simp only [Nat.testBit_or, Bool.or_eq_false_iff] at h
        simp [h.1.1, h.1.2, h.2]
  · intro h b
    unfold isValid
    rw [dif_pos (by omega)]

/-- Witness of `isValid_iff_definition`: row 9 is rejected on the fresh board. -/
theorem isValid_iff_definition_witness : new.isValid 9 0 5 = false :=
  (isValid_iff_definition 9 0 5).2 (by decide) new

/-- C10: on every board, for every fixed cell, `placeNumber` with any digit
and `removeNumber` return the board state unchanged: cells, fixed flags and
all masks. -/
theorem fixed_cell_immutable (b : SudokuBoard) (r c : Fin 9) (hf : b.fixed r c = true) :
    (∀ d : Nat, b.placeNumber r c d = b) ∧ b.removeNumber r c = b :=
  ⟨fun d => placeNumber_of_fixed b r c d hf, removeNumber_of_fixed b r c hf⟩

/-- Witness of `fixed_cell_immutable`: the clue loaded at `(0,0)`. -/
theorem fixed_cell_immutable_witness :
    (new.loadBoard (gridOfRows [[5]])).fixed 0 0 = true ∧
    (new.loadBoard (gridOfRows [[5]])).placeNumber 0 0 7 = new.loadBoard (gridOfRows [[5]]) ∧
    (new.loadBoard (gridOfRows [[5]])).removeNumber 0 0 = new.loadBoard (gridOfRows [[5]]) :=
  ⟨by decide,
   (fixed_cell_immutable (new.loadBoard (gridOfRows [[5]])) 0 0 (by decide)).1 7,
   (fixed_cell_immutable (new.loadBoard (gridOfRows [[5]])) 0 0 (by decide)).2⟩

/-! ## countSetBits -/

/-- For positive `n`, `n & (n - 1)` clears exactly one set bit of `n`. -/
theorem and_pred_clears_one_bit (n : Nat) (hn : 0 < n) :
    ∃ k, n.testBit k = true ∧
      ∀ i, (n &&& (n - 1)).testBit i = (n.testBit i && !decide (i = k)) := by
  induction n using Nat.strong_induction_on with
  | _ n ih =>
    by_cases hodd : n % 2 = 1
    · refine ⟨0, ?_, ?_⟩
      · rw [Nat.testBit_zero]; simp [hodd]
      · intro i
        rw [Nat.testBit_and]
        cases i with
        | zero =>
          have : (n - 1) % 2 = 0 := by omega
          simp [Nat.testBit_zero, this]
        | succ i =>
          have : (n - 1) / 2 = n / 2 := by omega
          simp [Nat.testBit_succ, this]
    · have hm : 0 < n / 2 := by omega
      obtain ⟨k, hk, hik⟩ := ih (n / 2) (by omega) hm
      refine ⟨k + 1, ?_, ?_⟩
      · rw [Nat.testBit_succ]; exact hk
      · intro i
        rw [Nat.testBit_and]
        cases i with
        | zero =>
          have : n % 2 = 0 := by omega
          simp [Nat.testBit_zero, this]
        | succ i =>
          have h2 : (n - 1) / 2 = n / 2 - 1 := by omega
          have := hik i
          rw [Nat.testBit_and] at this
          simp only [Nat.testBit_succ, h2, this, add_left_inj]

/-- Clearing one bit with `n & (n - 1)` lowers the number of set bits below
position `w` by one. -/
theorem bitCount_and_pred (n w : Nat) (hn : 0 < n) (hw : n < 2 ^ w) :
    ((Finset.range w).filter (fun i => (n &&& (n - 1)).testBit i = true)).card + 1 =
      ((Finset.range w).filter (fun i => n.testBit i = true)).card := by
  obtain ⟨k, hk, hik⟩ := and_pred_clears_one_bit n hn
  have hkw : k < w := by
    by_contra hge
    have := Nat.testBit_lt_two_pow (Nat.lt_of_lt_of_le hw (Nat.pow_le_pow_right (by decide) (not_lt.mp hge)))
    rw [hk] at this; exact Bool.noConfusion this
  have hmem : k ∈ (Finset.range w).filter (fun i => n.testBit i = true) := by
    simp [hkw, hk]
  have heq : (Finset.range w).filter (fun i => (n &&& (n - 1)).testBit i = true) =
      ((Finset.range w).filter (fun i => n.testBit i = true)).erase k := by
    ext i
    simp only [Finset.mem_filter, Finset.mem_range, Finset.mem_erase, hik, Bool.and_eq_true,
      Bool.not_eq_true', decide_eq_false_iff_not]
    tauto
  rw [heq, Finset.card_erase_of_mem hmem]
  have := Finset.card_pos.mpr ⟨k, hmem⟩
  omega

theorem countSetBitsLoop_eq (w : Nat) :
    ∀ (fuel n count : Nat), n ≤ fuel → n < 2 ^ w →
      Solver.countSetBitsLoop fuel n count =
        count + ((Finset.range w).filter (fun i => n.testBit i = true)).card := by
  intro fuel
  induction fuel with
  | zero =>
    intro n count hle _
    have : n = 0 := by omega
    subst this
    simp [Solver.countSetBitsLoop]
  | succ fuel ih =>
    intro n count hle hw
    unfold Solver.countSetBitsLoop
    by_cases hn : n > 0
    · simp only [hn, if_true]
      have h1 : n &&& (n - 1) ≤ n - 1 := Nat.and_le_right
      rw [ih (n &&& (n - 1)) (count + 1) (by omega) (by omega),
        ← bitCount_and_pred n w hn hw]
      omega
    · have : n = 0 := by omega
      subst this
      simp

/-- `countSetBits` returns the number of set bits. -/
theorem countSetBits_eq (w n : Nat) (hw : n < 2 ^ w) :
    Solver.countSetBits n = ((Finset.range w).filter (fun i => n.testBit i = true)).card := by
  unfold Solver.countSetBits
  rw [countSetBitsLoop_eq w n n 0 (le_refl n) hw]
  omega

/-! ## Candidates -/

theorem mem_digits (n : Nat) : n ∈ digits ↔ 1 ≤ n ∧ n ≤ 9 := by
  simp only [digits, List.mem_cons, List.mem_singleton, List.not_mem_nil, or_false]
  omega

theorem foldl_or_testBit (p : Nat → Bool) (L : List Nat) :
    ∀ (m0 i : Nat),
      (L.foldl (fun (mask n : Nat) => if p n then mask ||| (1 <<< n) else mask) m0).testBit i =
        (m0.testBit i || (decide (i ∈ L) && p i)) := by
  induction L with
  | nil => intro m0 i; simp
  | cons a L ih =>
    intro m0 i
    rw [List.foldl_cons, ih]
    by_cases hp : p a = true
    · simp only [hp, if_true, testBit_or_shift, List.mem_cons]
      by_cases hai : a = i
      · subst hai; simp [hp]
      · have : ¬ i = a := fun h => hai h.symm
        simp [hai, this]
    · simp only [hp, if_false, List.mem_cons, Bool.false_eq_true]
      by_cases hai : i = a
      · subst hai
        have : p i = false := by simpa using hp
        simp [this]
      · simp [hai]

namespace Solver

theorem getCandidates_testBit (b : SudokuBoard) (r c : Fin 9) (n : Nat) :
    (getCandidates b r c).testBit n = b.isValid (r.val : Int) (c.val : Int) (n : Int) := by
  unfold getCandidates
  rw [foldl_or_testBit (fun n => b.isValid (r.val : Int) (c.val : Int) (n : Int))]
  simp only [Nat.zero_testBit, Bool.false_or]
  by_cases hv : b.isValid (r.val : Int) (c.val : Int) (n : Int) = true
  · have := (mem_digits n).2 (isValid_digit b r c n hv)
    simp [hv, this]
  · have : b.isValid (r.val : Int) (c.val : Int) (n : Int) = false := by simpa using hv
    simp [this]

theorem getCandidates_lt (b : SudokuBoard) (r c : Fin 9) : getCandidates b r c < 2 ^ 10 := by
  apply Nat.lt_pow_two_of_testBit
  intro i hi
  rw [getCandidates_testBit]
  by_contra hv
  have hv' : b.isValid (r.val : Int) (c.val : Int) (i : Int) = true := by simpa using hv
  have := isValid_digit b r c i hv'
  omega

theorem countSetBits_getCandidates (b : SudokuBoard) (r c : Fin 9) :
    countSetBits (getCandidates b r c) =
      ((Finset.range 10).filter
        (fun n : Nat => b.isValid (r.val : Int) (c.val : Int) (n : Int) = true)).card := by
  rw [countSetBits_eq 10 _ (getCandidates_lt b r c)]
  congr 1
  ext n
  simp only [Finset.mem_filter, Finset.mem_range, getCandidates_testBit]

theorem countSetBits_getCandidates_lt (b : SudokuBoard) (r c : Fin 9) :
    countSetBits (getCandidates b r c) < 10 := by
  rw [countSetBits_getCandidates]
  have hsub : (Finset.range 10).filter
      (fun n : Nat => b.isValid (r.val : Int) (c.val : Int) (n : Int) = true) ⊆
      (Finset.range 10).erase 0 := by
    intro n hn
    simp only [Finset.mem_filter, Finset.mem_range] at hn
    have := isValid_digit b r c n hn.2
    simp only [Finset.mem_erase, Finset.mem_range]
    omega
  have := Finset.card_le_card hsub
  simp at this
  omega

/-- A cell whose candidate count is 1 has exactly one digit accepted by
`isValid`, and `firstBit` finds it. -/
theorem naked_single_unique (b : SudokuBoard) (r c : Fin 9)
    (h : countSetBits (getCandidates b r c) = 1) :
    b.isValid (r.val : Int) (c.val : Int) (firstBit (getCandidates b r c) : Int) = true ∧
    ∀ d : Nat, b.isValid (r.val : Int) (c.val : Int) (d : Int) = true →
      d = firstBit (getCandidates b r c) := by
  rw [countSetBits_getCandidates, Finset.card_eq_one] at h
  obtain ⟨a, ha⟩ := h
  have hmem : ∀ n : Nat, b.isValid (r.val : Int) (c.val : Int) (n : Int) = true ↔ n = a := by
    intro n
    have := Finset.ext_iff.1 ha n
    simp only [Finset.mem_filter, Finset.mem_range, Finset.mem_singleton] at this
    constructor
    · intro hv
      have hd := isValid_digit b r c n hv
      exact this.1 ⟨by omega, hv⟩
    · intro hn
      exact (this.2 hn).2
  have hfirst : firstBit (getCandidates b r c) = a := by
    unfold firstBit
    cases hf : digits.find? (fun n => decide (getCandidates b r c &&& (1 <<< n) ≠ 0)) with
    | none =>
      exfalso
      rw [List.find?_eq_none] at hf
      have ha' := (hmem a).2 rfl
      have := hf a ((mem_digits a).2 (isValid_digit b r c a ha'))
      simp only [decide_eq_true_eq, and_shift_ne_zero, getCandidates_testBit] at this
      exact this ha'
    | some n =>
      have := List.find?_some hf
      simp only [decide_eq_true_eq, and_shift_ne_zero, getCandidates_testBit] at this
      exact (hmem n).1 this
  rw [hfirst]
  exact ⟨(hmem a).2 rfl, fun d hd => (hmem d).1 hd⟩

/-! ## findBestCell -/

theorem findBestCellLoop_some (b : SudokuBoard) (cells : List (Fin 9 × Fin 9)) :
    ∀ (minC : Nat) (best : Option (Fin 9 × Fin 9)) (p : Fin 9 × Fin 9),
      findBestCellLoop b cells minC best = some p →
        best = some p ∨ b.grid p.1 p.2 = 0 := by
  induction cells with
  | nil => intro minC best p h; exact Or.inl h
  | cons q rest ih =>
    intro minC best p h
    unfold findBestCellLoop at h
    simp only [getValue] at h
    split at h
    · rename_i hq
      split at h
      · split at h
        · simp only [Option.some.injEq] at h
          subst h; exact Or.inr hq
        · rcases ih _ _ _ h with h' | h'
          · simp only [Option.some.injEq] at h'
            subst h'; exact Or.inr hq
          · exact Or.inr h'
      · exact ih _ _ _ h
    · exact ih _ _ _ h

theorem findBestCellLoop_none (b : SudokuBoard) (cells : List (Fin 9 × Fin 9)) :
    ∀ (minC : Nat) (best : Option (Fin 9 × Fin 9)),
      findBestCellLoop b cells minC best = none →
        best = none ∧ (minC = 10 → ∀ p ∈ cells, b.grid p.1 p.2 ≠ 0) := by
  induction cells with
  | nil => intro minC best h; exact ⟨h, fun _ p hp => by simp at hp⟩
  | cons q rest ih =>
    intro minC best h
    unfold findBestCellLoop at h
    simp only [getValue] at h
    split at h
    · rename_i hq
      split at h
      · split at h
        · simp at h
        · have := (ih _ _ h).1
          simp at this
      · rename_i hlt
        obtain ⟨h1, h2⟩ := ih _ _ h
        refine ⟨h1, ?_⟩
        intro h10
        subst h10
        exact absurd (countSetBits_getCandidates_lt b q.1 q.2) hlt
    · rename_i hq
      obtain ⟨h1, h2⟩ := ih _ _ h
      refine ⟨h1, ?_⟩
      intro h10 p hp
      rcases List.mem_cons.1 hp with rfl | hp
      · exact hq
      · exact h2 h10 p hp

theorem mem_allCells (p : Fin 9 × Fin 9) : p ∈ allCells := by
  unfold allCells
  simp only [List.mem_flatMap, List.mem_map, List.mem_finRange, true_and]
  exact ⟨p.1, p.2, rfl⟩

theorem findBestCell_some (b : SudokuBoard) (p : Fin 9 × Fin 9) (h : findBestCell b = some p) :
    b.grid p.1 p.2 = 0 := by
  rcases findBestCellLoop_some b allCells 10 none p h with h' | h'
  · simp at h'
  · exact h'

theorem findBestCell_none (b : SudokuBoard) (h : findBestCell b = none) :
    ∀ r c, b.grid r c ≠ 0 := by
  intro r c
  exact (findBestCellLoop_none b allCells 10 none h).2 rfl (r, c) (mem_allCells (r, c))

end Solver

theorem isComplete_iff (b : SudokuBoard) : b.isComplete = true ↔ ∀ r c, b.grid r c ≠ 0 := by
  unfold isComplete
  rw [List.all_eq_true]
  constructor
  · intro h r c
    have := h (r, c) (Solver.mem_allCells (r, c))
    simpa using this
  · intro h p _
    simpa using h p.1 p.2

/-! ## Undoing a placement -/

theorem set2_set2_zero (g : Fin 9 → Fin 9 → Nat) (r c : Fin 9) (d : Nat) (hg : g r c = 0) :
    set2 (set2 g r c d) r c 0 = g := by
  funext i j
  simp only [set2_apply]
  split
  · rename_i h; rw [h.1, h.2, hg]
  · rfl

theorem bits_clear_of_isValid (b : SudokuBoard) (r c : Fin 9) (d : Nat) (hg : b.grid r c = 0)
    (hv : b.isValid (r.val : Int) (c.val : Int) (d : Int) = true) :
    (b.rowMask r).testBit d = false ∧ (b.colMask c).testBit d = false ∧
      (b.boxMask (div3 r) (div3 c)).testBit d = false := by
  obtain ⟨h1, h9⟩ := isValid_digit b r c d hv
  rw [isValid_cast b r c d h1 h9] at hv
  have hne : ¬ (b.grid r c = d) := by omega
  simp only [hne, decide_False, Bool.false_or, Bool.and_eq_true, Bool.not_eq_true'] at hv
  exact ⟨hv.1.1, hv.1.2, hv.2⟩

/-- Placing a digit accepted by `isValid` in an empty mutable cell and removing
it again gives back the same board state. -/
theorem removeNumber_placeNumber (b : SudokuBoard) (r c : Fin 9) (d : Nat)
    (hf : b.fixed r c = false) (hg : b.grid r c = 0)
    (hv : b.isValid (r.val : Int) (c.val : Int) (d : Int) = true) :
    (b.placeNumber r c d).removeNumber r c = b := by
  obtain ⟨hr, hc, hb⟩ := bits_clear_of_isValid b r c d hg hv
  have hd : d ≠ 0 := by have := isValid_digit b r c d hv; omega
  obtain ⟨grid, fixed, rowMask, colMask, boxMask⟩ := b
  simp only at hf hg hr hc hb
  simp only [placeNumber, removeNumber, hf, hg, hd, Bool.false_eq_true, if_false, ne_eq,
    not_true_eq_false, set2_apply, and_self, if_true, set1_apply, set3_apply]
  congr 1
  · exact set2_set2_zero grid r c d hg
  · funext k
    simp only [set1_apply]
    split
    · rename_i h; subst h; exact andNot_or_shift _ _ hr
    · rfl
  · funext k
    simp only [set1_apply]
    split
    · rename_i h; subst h; exact andNot_or_shift _ _ hc
    · rfl
  · funext i j
    simp only [set3_apply]
    split
    · rename_i h; obtain ⟨h1, h2⟩ := h; subst h1 h2; exact andNot_or_shift _ _ hb
    · rfl

/-! ## Empty cells -/

theorem allCells_nodup : allCells.Nodup := by decide

theorem countP_change_one {α : Type} [DecidableEq α] (p p' : α → Bool) (q : α)
    (hq : p q = true) (hq' : p' q = false) (hother : ∀ x, x ≠ q → p' x = p x) :
    ∀ L : List α, L.Nodup →
      L.countP p' + (if q ∈ L then 1 else 0) = L.countP p := by
  intro L
  induction L with
  | nil => intro _; simp
  | cons a L ih =>
    intro hn
    rw [List.nodup_cons] at hn
    have ih' := ih hn.2
    by_cases ha : a = q
    · subst ha
      simp only [List.countP_cons, hq, hq', List.mem_cons, true_or, if_true, if_false,
        Bool.false_eq_true]
      simp only [hn.1, if_false] at ih'
      omega
    · have hqa : ¬ q = a := fun h => ha h.symm
      simp only [List.countP_cons, hother a ha, List.mem_cons, hqa, false_or]
      omega

theorem emptyCount_placeNumber (b : SudokuBoard) (r c : Fin 9) (d : Nat)
    (hf : b.fixed r c = false) (hg : b.grid r c = 0) (hd : d ≠ 0) :
    emptyCount (b.placeNumber r c d) + 1 = emptyCount b := by
  unfold emptyCount
  rw [placeNumber_grid b r c d hf]
  have := countP_change_one (fun p : Fin 9 × Fin 9 => b.grid p.1 p.2 == 0)
    (fun p : Fin 9 × Fin 9 => set2 b.grid r c d p.1 p.2 == 0) (r, c)
    (by simp [hg]) (by simp [set2_apply, hd])
    (by
      intro x hx
      have : ¬ (x.1 = r ∧ x.2 = c) := by
        rintro ⟨h1, h2⟩; apply hx; exact Prod.ext h1 h2
      simp [set2_apply, this])
    allCells allCells_nodup
  simp only [Solver.mem_allCells, if_true] at this
  exact this

theorem NoEmptyFixed_placeNumber (b : SudokuBoard) (r c : Fin 9) (d : Nat)
    (h : NoEmptyFixed b) : NoEmptyFixed (b.placeNumber r c d) := by
  by_cases hf : b.fixed r c = true
  · rw [placeNumber_of_fixed b r c d hf]; exact h
  have hf' : b.fixed r c = false := by simpa using hf
  intro i j hij
  rw [placeNumber_fixed]
  rw [placeNumber_grid b r c d hf', set2_apply] at hij
  by_cases hrc : i = r ∧ j = c
  · rw [hrc.1, hrc.2]; exact hf'
  · simp only [hrc, if_false] at hij
    exact h i j hij

/-! ## solveRecursive: restoration on failure and termination -/

namespace Solver

theorem tryDigits_restore (recurse : Solver → Option (Bool × Solver)) (row col : Fin 9)
    (hrec : ∀ t t', NoEmptyFixed t.board → recurse t = some (false, t') → t'.board = t.board) :
    ∀ (L : List Nat) (s s' : Solver), NoEmptyFixed s.board → s.board.grid row col = 0 →
      tryDigits recurse row col L s = some (false, s') → s'.board = s.board := by
  intro L
  induction L with
  | nil =>
    intro s s' _ _ h
    simp only [tryDigits, Option.some.injEq, Prod.mk.injEq, true_and] at h
    rw [h]
  | cons num rest ih =>
    intro s s' hnef hg h
    unfold tryDigits at h
    split at h
    · rename_i hv
      split at h
      · exact Option.noConfusion h
      · simp at h
      · rename_i s1 hr
        have hf : s.board.fixed row col = false := hnef row col hg
        have h1 := hrec _ s1 (NoEmptyFixed_placeNumber s.board row col num hnef) hr
        simp only at h1
        have h2 : s1.board.removeNumber row col = s.board := by
          rw [h1]; exact removeNumber_placeNumber s.board row col num hf hg hv
        have := ih _ s' (by simp only [h2]; exact hnef) (by simp only [h2]; exact hg) h
        simp only [h2] at this
        exact this
    · exact ih s s' hnef hg h

theorem solveRecursive_restore :
    ∀ (fuel : Nat) (s s' : Solver), NoEmptyFixed s.board →
      solveRecursive fuel s = some (false, s') → s'.board = s.board := by
  intro fuel
  induction fuel with
  | zero => intro s s' _ h; simp [solveRecursive] at h
  | succ fuel ih =>
    intro s s' hnef h
    unfold solveRecursive at h
    simp only at h
    split at h
    · simp at h
    · rename_i row col hfb
      have hg := findBestCell_some _ _ hfb
      exact tryDigits_restore (solveRecursive fuel) row col ih digits
        { s with recursionCount := s.recursionCount + 1 } s' hnef hg h

theorem tryDigits_isSome (recurse : Solver → Option (Bool × Solver)) (row col : Fin 9) (n : Nat)
    (hrec : ∀ t t', NoEmptyFixed t.board → recurse t = some (false, t') → t'.board = t.board)
    (hsome : ∀ t, NoEmptyFixed t.board → emptyCount t.board < n → (recurse t).isSome = true) :
    ∀ (L : List Nat) (s : Solver), NoEmptyFixed s.board → s.board.grid row col = 0 →
      emptyCount s.board < n + 1 → (tryDigits recurse row col L s).isSome = true := by
  intro L
  induction L with
  | nil => intro s _ _ _; simp [tryDigits]
  | cons num rest ih =>
    intro s hnef hg hcount
    unfold tryDigits
    split
    · rename_i hv
      have hf : s.board.fixed row col = false := hnef row col hg
      have hd : num ≠ 0 := by have := isValid_digit _ _ _ _ hv; omega
      have hnef1 := NoEmptyFixed_placeNumber s.board row col num hnef
      have hc1 := emptyCount_placeNumber s.board row col num hf hg hd
      have hs := hsome { s with board := s.board.placeNumber row col num } hnef1
        (by simp only; omega)
      split
      · rename_i hnone
        rw [hnone] at hs; simp at hs
      · simp
      · rename_i s1 hr
        have h1 := hrec _ s1 hnef1 hr
        simp only at h1
        have h2 : s1.board.removeNumber row col = s.board := by
          rw [h1]; exact removeNumber_placeNumber s.board row col num hf hg hv
        exact ih _ (by simp only [h2]; exact hnef) (by simp only [h2]; exact hg)
          (by simp only [h2]; exact hcount)
    · exact ih s hnef hg hcount

theorem solveRecursive_isSome :
    ∀ (fuel : Nat) (s : Solver), NoEmptyFixed s.board → emptyCount s.board < fuel →
      (solveRecursive fuel s).isSome = true := by
  intro fuel
  induction fuel with
  | zero => intro s _ h; omega
  | succ fuel ih =>
    intro s hnef hcount
    unfold solveRecursive
    simp only
    split
    · simp
    · rename_i row col hfb
      have hg := findBestCell_some _ _ hfb
      exact tryDigits_isSome (solveRecursive fuel) row col fuel (solveRecursive_restore fuel) ih
        digits _ hnef hg hcount

end Solver

/-! ## Full grids -/

theorem box_card : ∀ br bc : Fin 3,
    Fintype.card { p : Fin 9 × Fin 9 // div3 p.1 = br ∧ div3 p.2 = bc } = 9 := by
  decide

theorem exists_digit_of_injective {α : Type} [Fintype α] (hcard : Fintype.card α = 9)
    (f : α → Nat) (hinj : Function.Injective f) (hr : ∀ a, 1 ≤ f a ∧ f a ≤ 9)
    (n : Nat) (h1 : 1 ≤ n) (h9 : n ≤ 9) : ∃ a, f a = n := by
  let g : α → Fin 9 := fun a => ⟨f a - 1, by have := hr a; omega⟩
  have hg : Function.Injective g := by
    intro a a' h
    apply hinj
    have h' := congrArg Fin.val h
    simp only [g] at h'
    have := hr a
    have := hr a'
    omega
  have hbij : Function.Bijective g :=
    (Fintype.bijective_iff_injective_and_card g).2 ⟨hg, by simp [hcard]⟩
  obtain ⟨a, ha⟩ := hbij.2 ⟨n - 1, by omega⟩
  refine ⟨a, ?_⟩
  have h' := congrArg Fin.val ha
  simp only [g] at h'
  have := hr a
  omega

/-- A grid without empty cell, with cells in `1..9` and without repeated digit
in a unit holds each digit exactly once in every row, column and box. -/
theorem eachDigitOnce_of_full (g : Fin 9 → Fin 9 → Nat) (hfull : ∀ r c, g r c ≠ 0)
    (hrange : CellsInRange g) (hn : NoRepeat g) : EachDigitOnce g := by
  have hr : ∀ r c, 1 ≤ g r c ∧ g r c ≤ 9 := by
    intro r c
    have := hfull r c
    have := hrange r c
    omega
  intro n h1 h9
  refine ⟨?_, ?_, ?_⟩
  · intro r
    have hinj : Function.Injective (fun c => g r c) := by
      intro c c' h
      by_contra hne
      exact hn r c r c' (by simpa using hne) (Or.inl rfl) (hfull r c) h
    obtain ⟨c, hc⟩ := exists_digit_of_injective (by simp) (fun c => g r c) hinj (hr r) n h1 h9
    exact ⟨c, hc, fun c' hc' => hinj (by simp only; rw [hc', hc])⟩
  · intro c
    have hinj : Function.Injective (fun r => g r c) := by
      intro r r' h
      by_contra hne
      exact hn r c r' c (by simpa using hne) (Or.inr (Or.inl rfl)) (hfull r c) h
    obtain ⟨r, hr'⟩ := exists_digit_of_injective (by simp) (fun r => g r c) hinj
      (fun r => hr r c) n h1 h9
    exact ⟨r, hr', fun r' hr'' => hinj (by simp only; rw [hr'', hr'])⟩
  · intro br bc
    have hinj : Function.Injective
        (fun p : { p : Fin 9 × Fin 9 // div3 p.1 = br ∧ div3 p.2 = bc } => g p.1.1 p.1.2) := by
      intro p p' h
      by_contra hne
      have hne' : (p.1.1, p.1.2) ≠ (p'.1.1, p'.1.2) := by
        intro he
        apply hne
        exact Subtype.ext he
      exact hn p.1.1 p.1.2 p'.1.1 p'.1.2 hne'
        (Or.inr (Or.inr ⟨p.2.1.trans p'.2.1.symm, p.2.2.trans p'.2.2.symm⟩))
        (hfull _ _) h
    obtain ⟨p, hp⟩ := exists_digit_of_injective (box_card br bc) _ hinj
      (fun p => hr p.1.1 p.1.2) n h1 h9
    refine ⟨p.1, ⟨p.2.1, p.2.2, hp⟩, ?_⟩
    rintro q ⟨hq1, hq2, hq3⟩
    have := @hinj ⟨q, hq1, hq2⟩ p (by simp only; rw [hq3, hp])
    exact congrArg Subtype.val this

/-- In a grid that holds each digit exactly once per unit, every cell holds a
digit `1..9`. -/
theorem range_of_eachDigitOnce (g : Fin 9 → Fin 9 → Nat) (h : EachDigitOnce g) :
    ∀ r c, 1 ≤ g r c ∧ g r c ≤ 9 := by
  intro r c
  have hex : ∀ k : Fin 9, ∃ c', g r c' = k.val + 1 := by
    intro k
    exact ((h (k.val + 1) (by omega) (by omega)).1 r).exists
  choose sel hsel using hex
  have hinj : Function.Injective sel := by
    intro k k' hk
    have h1 := hsel k
    rw [hk, hsel k'] at h1
    exact Fin.ext (by omega)
  obtain ⟨k, hk⟩ := (Finite.injective_iff_surjective.1 hinj) c
  have := hsel k
  rw [hk] at this
  omega

theorem noRepeat_of_eachDigitOnce (g : Fin 9 → Fin 9 → Nat) (h : EachDigitOnce g) :
    NoRepeat g := by
  intro r c r' c' hne hu _ heq
  obtain ⟨h1, h9⟩ := range_of_eachDigitOnce g h r c
  obtain ⟨hrow, hcol, hbox⟩ := h (g r c) h1 h9
  rcases hu with hu | hu | ⟨hu1, hu2⟩
  · subst hu
    have := @ExistsUnique.unique _ _ (hrow r) c c' rfl heq.symm
    exact hne (by rw [this])
  · subst hu
    have := @ExistsUnique.unique _ _ (hcol c) r r' rfl heq.symm
    exact hne (by rw [this])
  · have := @ExistsUnique.unique _ _ (hbox (div3 r) (div3 c)) (r, c) (r', c')
      ⟨rfl, rfl, rfl⟩ ⟨hu1.symm, hu2.symm, heq.symm⟩
    exact hne this

/-! ## Boards that grow by legal placements -/

theorem Grows_refl (b : SudokuBoard) (hv : ValidBoard b) : Grows b b :=
  ⟨hv, fun _ _ _ => rfl, rfl, fun h => h⟩

theorem Grows_trans {a b c : SudokuBoard} (h1 : Grows a b) (h2 : Grows b c) : Grows a c := by
  obtain ⟨_, he1, hf1, hr1⟩ := h1
  obtain ⟨hv2, he2, hf2, hr2⟩ := h2
  refine ⟨hv2, ?_, hf2.trans hf1, fun h => hr2 (hr1 h)⟩
  intro r c hne
  have h := he1 r c hne
  rw [← h]
  exact he2 r c (by rw [h]; exact hne)

theorem Grows_placeNumber (b : SudokuBoard) (r c : Fin 9) (d : Nat) (hv : ValidBoard b)
    (hg : b.grid r c = 0) (hd : b.isValid (r.val : Int) (c.val : Int) (d : Int) = true) :
    Grows b (b.placeNumber r c d) := by
  obtain ⟨hm, hn, hnef⟩ := hv
  have hf : b.fixed r c = false := hnef r c hg
  obtain ⟨hm', hn'⟩ := invariants_placeNumber b r c d hm hn hd
  refine ⟨⟨hm', hn', NoEmptyFixed_placeNumber b r c d hnef⟩, ?_, placeNumber_fixed b r c d, ?_⟩
  · intro i j hij
    rw [placeNumber_grid b r c d hf, set2_apply]
    have : ¬ (i = r ∧ j = c) := by
      rintro ⟨rfl, rfl⟩; exact hij hg
    simp [this]
  · intro hr i j
    rw [placeNumber_grid b r c d hf, set2_apply]
    split
    · exact (isValid_digit b r c d hd).2
    · exact hr i j

/-! ## solveRecursive: soundness -/

namespace Solver

theorem tryDigits_sound (recurse : Solver → Option (Bool × Solver)) (row col : Fin 9)
    (hrec : ∀ t t', NoEmptyFixed t.board → recurse t = some (false, t') → t'.board = t.board)
    (hsound : ∀ t t', ValidBoard t.board → recurse t = some (true, t') →
      Grows t.board t'.board ∧ ∀ r c, t'.board.grid r c ≠ 0) :
    ∀ (L : List Nat) (s s' : Solver), ValidBoard s.board → s.board.grid row col = 0 →
      tryDigits recurse row col L s = some (true, s') →
        Grows s.board s'.board ∧ ∀ r c, s'.board.grid r c ≠ 0 := by
  intro L
  induction L with
  | nil => intro s s' _ _ h; simp [tryDigits] at h
  | cons num rest ih =>
    intro s s' hv hg h
    unfold tryDigits at h
    split at h
    · rename_i hvalid
      have hgrow := Grows_placeNumber s.board row col num hv hg hvalid
      split at h
      · exact Option.noConfusion h
      · rename_i s1 hr
        simp only [Option.some.injEq, Prod.mk.injEq, true_and] at h
        subst h
        obtain ⟨h1, h2⟩ := hsound _ s1 hgrow.1 hr
        exact ⟨Grows_trans hgrow h1, h2⟩
      · rename_i s1 hr
        have hf : s.board.fixed row col = false := hv.2.2 row col hg
        have h1 := hrec _ s1 hgrow.1.2.2 hr
        simp only at h1
        have h2 : s1.board.removeNumber row col = s.board := by
          rw [h1]; exact removeNumber_placeNumber s.board row col num hf hg hvalid
        have := ih _ s' (by simp only [h2]; exact hv) (by simp only [h2]; exact hg) h
        simp only [h2] at this
        exact this
    · exact ih s s' hv hg h

theorem solveRecursive_sound :
    ∀ (fuel : Nat) (s s' : Solver), ValidBoard s.board →
      solveRecursive fuel s = some (true, s') →
        Grows s.board s'.board ∧ ∀ r c, s'.board.grid r c ≠ 0 := by
  intro fuel
  induction fuel with
  | zero => intro s s' _ h; simp [solveRecursive] at h
  | succ fuel ih =>
    intro s s' hv h
    unfold solveRecursive at h
    simp only at h
    split at h
    · rename_i hfb
      simp only [Option.some.injEq, Prod.mk.injEq, true_and] at h
      subst h
      exact ⟨Grows_refl _ hv, findBestCell_none _ hfb⟩
    · rename_i row col hfb
      have hg := findBestCell_some _ _ hfb
      exact tryDigits_sound (solveRecursive fuel) row col (solveRecursive_restore fuel) ih digits
        { s with recursionCount := s.recursionCount + 1 } s' hv hg h

end Solver

/-! ## Completions -/

theorem completion_isValid (b : SudokuBoard) (S : Fin 9 → Fin 9 → Nat) (hv : ValidBoard b)
    (hS : IsCompletion b.grid S) (r c : Fin 9) :
    b.isValid (r.val : Int) (c.val : Int) (S r c : Int) = true := by
  obtain ⟨h1, h9⟩ := range_of_eachDigitOnce S hS.1 r c
  by_contra hf
  have hf' : b.isValid (r.val : Int) (c.val : Int) (S r c : Int) = false := by simpa using hf
  obtain ⟨r', c', hne, hu, he⟩ := (isValid_eq_false_iff b hv.1 hv.2.1 r c (S r c) h1 h9).1 hf'
  have hS' : S r' c' = S r c := by
    rw [hS.2 r' c' (by omega), he]
  exact noRepeat_of_eachDigitOnce S hS.1 r c r' c' (fun h => hne h.symm) hu (by omega) hS'.symm

theorem IsCompletion_placeNumber (b : SudokuBoard) (S : Fin 9 → Fin 9 → Nat) (r c : Fin 9)
    (hf : b.fixed r c = false) (hS : IsCompletion b.grid S) :
    IsCompletion (b.placeNumber r c (S r c)).grid S := by
  refine ⟨hS.1, ?_⟩
  intro i j hij
  rw [placeNumber_grid b r c _ hf, set2_apply] at hij ⊢
  by_cases hrc : i = r ∧ j = c
  · simp only [hrc, and_self, if_true]
  · simp only [hrc, if_false] at hij ⊢
    exact hS.2 i j hij

/-! ## solveRecursive: completeness -/

namespace Solver

theorem tryDigits_complete (recurse : Solver → Option (Bool × Solver)) (row col : Fin 9)
    (n : Nat) (S : Fin 9 → Fin 9 → Nat)
    (hrec : ∀ t t', NoEmptyFixed t.board → recurse t = some (false, t') → t'.board = t.board)
    (hsome : ∀ t, NoEmptyFixed t.board → emptyCount t.board < n → (recurse t).isSome = true)
    (hcompl : ∀ t, ValidBoard t.board → IsCompletion t.board.grid S → emptyCount t.board < n →
      ∃ t', recurse t = some (true, t')) :
    ∀ (L : List Nat) (s : Solver), ValidBoard s.board → IsCompletion s.board.grid S →
      s.board.grid row col = 0 → emptyCount s.board < n + 1 → S row col ∈ L →
        ∃ s', tryDigits recurse row col L s = some (true, s') := by
  intro L
  induction L with
  | nil => intro s _ _ _ _ h; simp at h
  | cons num rest ih =>
    intro s hv hS hg hcount hmem
    have hf : s.board.fixed row col = false := hv.2.2 row col hg
    unfold tryDigits
    split
    · rename_i hvalid
      have hd : num ≠ 0 := by have := isValid_digit _ _ _ _ hvalid; omega
      have hgrow := Grows_placeNumber s.board row col num hv hg hvalid
      have hc1 := emptyCount_placeNumber s.board row col num hf hg hd
      have hs := hsome { s with board := s.board.placeNumber row col num } hgrow.1.2.2
        (by simp only; omega)
      split
      · rename_i hnone
        rw [hnone] at hs; simp at hs
      · rename_i s1 hr
        exact ⟨s1, rfl⟩
      · rename_i s1 hr
        have hnum : S row col ≠ num := by
          intro he
          obtain ⟨t', ht'⟩ := hcompl { s with board := s.board.placeNumber row col num } hgrow.1
            (by simp only; rw [← he]; exact IsCompletion_placeNumber s.board S row col hf hS)
            (by simp only; omega)
          rw [ht'] at hr
          simp at hr
        have hmem' : S row col ∈ rest := by
          rcases List.mem_cons.1 hmem with h | h
          · exact absurd h hnum
          · exact h
        have h1 := hrec _ s1 hgrow.1.2.2 hr
        simp only at h1
        have h2 : s1.board.removeNumber row col = s.board := by
          rw [h1]; exact removeNumber_placeNumber s.board row col num hf hg hvalid
        exact ih _ (by simp only [h2]; exact hv) (by simp only [h2]; exact hS)
          (by simp only [h2]; exact hg) (by simp only [h2]; exact hcount) hmem'
    · rename_i hvalid
      have hnum : S row col ≠ num := by
        intro he
        apply hvalid
        rw [← he]
        exact completion_isValid s.board S hv hS row col
      have hmem' : S row col ∈ rest := by
        rcases List.mem_cons.1 hmem with h | h
        · exact absurd h hnum
        · exact h
      exact ih s hv hS hg hcount hmem'

theorem solveRecursive_complete (S : Fin 9 → Fin 9 → Nat) :
    ∀ (fuel : Nat) (s : Solver), ValidBoard s.board → IsCompletion s.board.grid S →
      emptyCount s.board < fuel → ∃ s', solveRecursive fuel s = some (true, s') := by
  intro fuel
  induction fuel with
  | zero => intro s _ _ h; omega
  | succ fuel ih =>
    intro s hv hS hcount
    unfold solveRecursive
    simp only
    split
    · exact ⟨_, rfl⟩
    · rename_i row col hfb
      have hg := findBestCell_some _ _ hfb
      have hd := range_of_eachDigitOnce S hS.1 row col
      exact tryDigits_complete (solveRecursive fuel) row col fuel S (solveRecursive_restore fuel)
        (solveRecursive_isSome fuel) ih digits
        { s with recursionCount := s.recursionCount + 1 } hv hS hg hcount
        ((mem_digits _).2 hd)

end Solver

namespace Solver

/-! ## Naked singles -/

theorem nakedLoop_false (s : Solver) (cells : List (Fin 9 × Fin 9)) (s1 : Solver)
    (h : nakedLoop s cells = (false, s1)) : s1 = s := by
  induction cells with
  | nil =>
    simp only [nakedLoop, Prod.mk.injEq, true_and] at h
    exact h.symm
  | cons p rest ih =>
    unfold nakedLoop at h
    split at h
    · exact ih h
    · dsimp only at h
      split at h
      · simp at h
      · exact ih h

theorem nakedLoop_true (s : Solver) (cells : List (Fin 9 × Fin 9)) (s1 : Solver)
    (h : nakedLoop s cells = (true, s1)) :
    ∃ (r c : Fin 9) (d : Nat), s.board.grid r c = 0 ∧
      s.board.isValid (r.val : Int) (c.val : Int) (d : Int) = true ∧
      (∀ d' : Nat, s.board.isValid (r.val : Int) (c.val : Int) (d' : Int) = true → d' = d) ∧
      s1 = s.logicPlace r c d := by
  induction cells with
  | nil => simp [nakedLoop] at h
  | cons p rest ih =>
    unfold nakedLoop at h
    split at h
    · exact ih h
    · rename_i hg
      dsimp only at h
      split at h
      · rename_i hc
        simp only [Prod.mk.injEq, true_and] at h
        obtain ⟨h1, h2⟩ := naked_single_unique s.board p.1 p.2 hc
        refine ⟨p.1, p.2, _, ?_, h1, h2, h.symm⟩
        simpa [getValue] using hg
      · exact ih h

/-! ## Hidden singles -/

theorem foldl_tallyDigit (mask : Nat) (p : Fin 9 × Fin 9) (L : List Nat) :
    L.Nodup → ∀ (t : Tally) (n : Nat),
      ((L.foldl (tallyDigit mask p) t).counts n =
        if n ∈ L ∧ mask.testBit n = true then t.counts n + 1 else t.counts n) ∧
      ((L.foldl (tallyDigit mask p) t).lastPosR n =
        if n ∈ L ∧ mask.testBit n = true then p.1 else t.lastPosR n) ∧
      ((L.foldl (tallyDigit mask p) t).lastPosC n =
        if n ∈ L ∧ mask.testBit n = true then p.2 else t.lastPosC n) := by
  induction L with
  | nil => intro _ t n; simp
  | cons a L ih =>
    intro hnd t n
    rw [List.nodup_cons] at hnd
    rw [List.foldl_cons]
    obtain ⟨h1, h2, h3⟩ := ih hnd.2 (tallyDigit mask p t a) n
    rw [h1, h2, h3]
    unfold tallyDigit
    simp only [and_shift_ne_zero, List.mem_cons]
    by_cases hna : n = a
    · subst hna
      by_cases hb : mask.testBit n = true
      · simp [hb, hnd.1]
      · simp [hb]
    · by_cases hb : mask.testBit a = true
      · simp [hb, hna, Function.update_noteq hna]
      · simp [hb, hna]

theorem digits_nodup : digits.Nodup := by decide

/-- One cell of the scan adds one to `counts[n]` and records the position
exactly when the cell is empty and `n` is one of its candidates. -/
theorem tallyCell_spec (b : SudokuBoard) (t : Tally) (p : Fin 9 × Fin 9) (n : Nat) :
    ((tallyCell b t p).counts n =
      if b.grid p.1 p.2 = 0 ∧ b.isValid (p.1.val : Int) (p.2.val : Int) (n : Int) = true
      then t.counts n + 1 else t.counts n) ∧
    ((tallyCell b t p).lastPosR n =
      if b.grid p.1 p.2 = 0 ∧ b.isValid (p.1.val : Int) (p.2.val : Int) (n : Int) = true
      then p.1 else t.lastPosR n) ∧
    ((tallyCell b t p).lastPosC n =
      if b.grid p.1 p.2 = 0 ∧ b.isValid (p.1.val : Int) (p.2.val : Int) (n : Int) = true
      then p.2 else t.lastPosC n) := by
  unfold tallyCell
  simp only [getValue]
  by_cases hg : b.grid p.1 p.2 = 0
  · simp only [hg, if_true, true_and]
    obtain ⟨h1, h2, h3⟩ := foldl_tallyDigit (getCandidates b p.1 p.2) p digits digits_nodup t n
    rw [h1, h2, h3]
    simp only [getCandidates_testBit]
    by_cases hv : b.isValid (p.1.val : Int) (p.2.val : Int) (n : Int) = true
    · have := (mem_digits n).2 (isValid_digit b p.1 p.2 n hv)
      simp [hv, this]
    · simp [hv]
  · simp [hg]

/-- The state of the counting scan after the cells `seen`: a zero count means
no candidate cell was seen, a count of one means exactly one was seen and it
is the recorded position. -/
theorem tally_invariant (b : SudokuBoard) (n : Nat) (cells : List (Fin 9 × Fin 9)) :
    ∀ (t : Tally) (seen : Fin 9 × Fin 9 → Prop),
      ((t.counts n = 0 → ∀ p, seen p →
          ¬ (b.grid p.1 p.2 = 0 ∧ b.isValid (p.1.val : Int) (p.2.val : Int) (n : Int) = true)) ∧
        (t.counts n = 1 → seen (t.lastPosR n, t.lastPosC n) ∧
          (b.grid (t.lastPosR n) (t.lastPosC n) = 0 ∧
            b.isValid ((t.lastPosR n).val : Int) ((t.lastPosC n).val : Int) (n : Int) = true) ∧
          ∀ p, seen p →
            (b.grid p.1 p.2 = 0 ∧ b.isValid (p.1.val : Int) (p.2.val : Int) (n : Int) = true) →
            p = (t.lastPosR n, t.lastPosC n))) →
      let t' := cells.foldl (tallyCell b) t
      ((t'.counts n = 0 → ∀ p, (seen p ∨ p ∈ cells) →
          ¬ (b.grid p.1 p.2 = 0 ∧ b.isValid (p.1.val : Int) (p.2.val : Int) (n : Int) = true)) ∧
        (t'.counts n = 1 → (seen (t'.lastPosR n, t'.lastPosC n) ∨
            (t'.lastPosR n, t'.lastPosC n) ∈ cells) ∧
          (b.grid (t'.lastPosR n) (t'.lastPosC n) = 0 ∧
            b.isValid ((t'.lastPosR n).val : Int) ((t'.lastPosC n).val : Int) (n : Int) = true) ∧
          ∀ p, (seen p ∨ p ∈ cells) →
            (b.grid p.1 p.2 = 0 ∧ b.isValid (p.1.val : Int) (p.2.val : Int) (n : Int) = true) →
            p = (t'.lastPosR n, t'.lastPosC n))) := by
  induction cells with
  | nil =>
    intro t seen h
    simpa using h
  | cons a cells ih =>
    intro t seen h
    obtain ⟨h0, h1⟩ := h
    have key := ih (tallyCell b t a) (fun p => seen p ∨ p = a) ?_
    · simp only [List.foldl_cons, List.mem_cons]
      simp only [or_assoc] at key
      exact key
    · obtain ⟨e1, e2, e3⟩ := tallyCell_spec b t a n
      by_cases hc : b.grid a.1 a.2 = 0 ∧
          b.isValid (a.1.val : Int) (a.2.val : Int) (n : Int) = true
      · rw [if_pos hc] at e1 e2 e3
        rw [e1, e2, e3]
        refine ⟨fun h => by omega, fun h => ⟨Or.inr rfl, hc, ?_⟩⟩
        intro p hp hcp
        rcases hp with hp | hp
        · exact absurd hcp (h0 (by omega) p hp)
        · exact hp
      · rw [if_neg hc] at e1 e2 e3
        rw [e1, e2, e3]
        refine ⟨?_, ?_⟩
        · intro h p hp
          rcases hp with hp | hp
          · exact h0 h p hp
          · rw [hp]; exact hc
        · intro h
          obtain ⟨g1, g2, g3⟩ := h1 h
          refine ⟨Or.inl g1, g2, ?_⟩
          intro p hp hcp
          rcases hp with hp | hp
          · exact g3 p hp hcp
          · rw [hp] at hcp; exact absurd hcp hc

/-- When the scan of a unit ends with `counts[n] == 1`, the recorded position
is a cell of the unit, empty, with candidate `n`, and the only such cell. -/
theorem tallyUnit_single (b : SudokuBoard) (cells : List (Fin 9 × Fin 9)) (n : Nat)
    (h : (tallyUnit b cells).counts n = 1) :
    ((tallyUnit b cells).lastPosR n, (tallyUnit b cells).lastPosC n) ∈ cells ∧
    b.grid ((tallyUnit b cells).lastPosR n) ((tallyUnit b cells).lastPosC n) = 0 ∧
    b.isValid (((tallyUnit b cells).lastPosR n).val : Int)
      (((tallyUnit b cells).lastPosC n).val : Int) (n : Int) = true ∧
    ∀ p ∈ cells, b.grid p.1 p.2 = 0 →
      b.isValid (p.1.val : Int) (p.2.val : Int) (n : Int) = true →
      p = ((tallyUnit b cells).lastPosR n, (tallyUnit b cells).lastPosC n) := by
  have key := tally_invariant b n cells Tally.zero (fun _ => False)
    ⟨fun _ p hp => hp.elim, fun h0 => by simp [Tally.zero] at h0⟩
  simp only [false_or] at key
  obtain ⟨g1, g2, g3⟩ := key.2 h
  exact ⟨g1, g2.1, g2.2, fun p hp hg hv => g3 p hp ⟨hg, hv⟩⟩

theorem firstSingle_some (t : Tally) (n : Nat) (h : firstSingle t = some n) :
    (1 ≤ n ∧ n ≤ 9) ∧ t.counts n = 1 := by
  unfold firstSingle at h
  have h1 := List.mem_of_find?_eq_some h
  have h2 := List.find?_some h
  exact ⟨(mem_digits n).1 h1, by simpa using h2⟩

end Solver

/-! ## Units -/

theorem mem_rowCells (r : Fin 9) (p : Fin 9 × Fin 9) : p ∈ Solver.rowCells r ↔ p.1 = r := by
  unfold Solver.rowCells
  simp only [List.mem_map, List.mem_finRange, true_and]
  constructor
  · rintro ⟨c, rfl⟩; rfl
  · intro h; exact ⟨p.2, by rw [← h]⟩

theorem mem_colCells (c : Fin 9) (p : Fin 9 × Fin 9) : p ∈ Solver.colCells c ↔ p.2 = c := by
  unfold Solver.colCells
  simp only [List.mem_map, List.mem_finRange, true_and]
  constructor
  · rintro ⟨r, rfl⟩; rfl
  · intro h; exact ⟨p.1, by rw [← h]⟩

theorem mem_boxCells : ∀ (br bc : Fin 3) (p : Fin 9 × Fin 9),
    p ∈ Solver.boxCells br bc ↔ div3 p.1 = br ∧ div3 p.2 = bc := by
  decide

/-- A digit with a single candidate cell in a unit is the digit of that cell
in every completion of a valid board. -/
theorem forced_of_single (b : SudokuBoard) (S : Fin 9 → Fin 9 → Nat) (hv : ValidBoard b)
    (hS : IsCompletion b.grid S) (cells : List (Fin 9 × Fin 9)) (q : Fin 9 × Fin 9) (d : Nat)
    (hsame : ∀ p ∈ cells, sameUnit q.1 q.2 p.1 p.2)
    (hex : ∃ p ∈ cells, S p.1 p.2 = d)
    (hqg : b.grid q.1 q.2 = 0)
    (hqv : b.isValid (q.1.val : Int) (q.2.val : Int) (d : Int) = true)
    (huniq : ∀ p ∈ cells, b.grid p.1 p.2 = 0 →
      b.isValid (p.1.val : Int) (p.2.val : Int) (d : Int) = true → p = q) :
    S q.1 q.2 = d := by
  obtain ⟨p, hp, hSp⟩ := hex
  have hpg : b.grid p.1 p.2 = 0 := by
    by_contra hne
    have h1 : b.grid p.1 p.2 = d := by rw [← hS.2 p.1 p.2 hne, hSp]
    have hpq : (p.1, p.2) ≠ (q.1, q.2) := by
      intro he
      simp only [Prod.mk.injEq] at he
      apply hne
      rw [he.1, he.2]; exact hqg
    exact free_of_isValid b q.1 q.2 d hv.1 hv.2.1 hqv p.1 p.2 hpq (hsame p hp) h1
  have hpv : b.isValid (p.1.val : Int) (p.2.val : Int) (d : Int) = true := by
    rw [← hSp]; exact completion_isValid b S hv hS p.1 p.2
  rw [← huniq p hp hpg hpv]
  exact hSp

namespace Solver

/-- The step made by deduction on the solver state. -/
theorem logicPlace_step (s : Solver) (r c : Fin 9) (d : Nat) (hg : s.board.grid r c = 0)
    (hv : s.board.isValid (r.val : Int) (c.val : Int) (d : Int) = true)
    (hforced : ValidBoard s.board → ∀ S, IsCompletion s.board.grid S → S r c = d) :
    DeductionStep s.board (s.logicPlace r c d).board :=
  ⟨r, c, d, hg, hv, rfl, hforced⟩

theorem applyNakedSingles_false (s s1 : Solver) (h : applyNakedSingles s = (false, s1)) :
    s1 = s :=
  nakedLoop_false s allCells s1 h

theorem applyNakedSingles_true (s s1 : Solver) (h : applyNakedSingles s = (true, s1)) :
    DeductionStep s.board s1.board ∧ s1.currentMode = s.currentMode := by
  obtain ⟨r, c, d, hg, hv, huniq, rfl⟩ := nakedLoop_true s allCells s1 h
  refine ⟨logicPlace_step s r c d hg hv ?_, rfl⟩
  intro hvalid S hS
  exact huniq (S r c) (completion_isValid s.board S hvalid hS r c)

theorem hiddenRows_some (s : Solver) (rows : List (Fin 9)) (s1 : Solver)
    (h : hiddenRows s rows = some s1) :
    DeductionStep s.board s1.board ∧ s1.currentMode = s.currentMode := by
  induction rows with
  | nil => simp [hiddenRows] at h
  | cons r rest ih =>
    unfold hiddenRows at h
    dsimp only at h
    split at h
    · rename_i n hn
      simp only [Option.some.injEq] at h
      subst h
      obtain ⟨hd, hc⟩ := firstSingle_some _ n hn
      obtain ⟨g1, g2, g3, g4⟩ := tallyUnit_single s.board (rowCells r) n hc
      have hr : (tallyUnit s.board (rowCells r)).lastPosR n = r := (mem_rowCells r _).1 g1
      rw [hr] at g2 g3 g4
      refine ⟨logicPlace_step s r _ n g2 g3 ?_, rfl⟩
      intro hvalid S hS
      refine forced_of_single s.board S hvalid hS (rowCells r)
        (r, (tallyUnit s.board (rowCells r)).lastPosC n) n ?_ ?_ g2 g3 g4
      · intro p hp
        exact Or.inl ((mem_rowCells r p).1 hp).symm
      · obtain ⟨c, hc', _⟩ := (hS.1 n hd.1 hd.2).1 r
        exact ⟨(r, c), (mem_rowCells r _).2 rfl, hc'⟩
    · exact ih h

theorem hiddenCols_some (s : Solver) (cols : List (Fin 9)) (s1 : Solver)
    (h : hiddenCols s cols = some s1) :
    DeductionStep s.board s1.board ∧ s1.currentMode = s.currentMode := by
  induction cols with
  | nil => simp [hiddenCols] at h
  | cons c rest ih =>
    unfold hiddenCols at h
    dsimp only at h
    split at h
    · rename_i n hn
      simp only [Option.some.injEq] at h
      subst h
      obtain ⟨hd, hc⟩ := firstSingle_some _ n hn
      obtain ⟨g1, g2, g3, g4⟩ := tallyUnit_single s.board (colCells c) n hc
      have hr : (tallyUnit s.board (colCells c)).lastPosC n = c := (mem_colCells c _).1 g1
      rw [hr] at g2 g3 g4
      refine ⟨logicPlace_step s _ c n g2 g3 ?_, rfl⟩
      intro hvalid S hS
      refine forced_of_single s.board S hvalid hS (colCells c)
        ((tallyUnit s.board (colCells c)).lastPosR n, c) n ?_ ?_ g2 g3 g4
      · intro p hp
        exact Or.inr (Or.inl ((mem_colCells c p).1 hp).symm)
      · obtain ⟨r, hr', _⟩ := (hS.1 n hd.1 hd.2).2.1 c
        exact ⟨(r, c), (mem_colCells c _).2 rfl, hr'⟩
    · exact ih h

theorem hiddenBoxes_some (s : Solver) (boxes : List (Fin 3 × Fin 3)) (s1 : Solver)
    (h : hiddenBoxes s boxes = some s1) :
    DeductionStep s.board s1.board ∧ s1.currentMode = s.currentMode := by
  induction boxes with
  | nil => simp [hiddenBoxes] at h
  | cons bx rest ih =>
    unfold hiddenBoxes at h
    dsimp only at h
    split at h
    · rename_i n hn
      simp only [Option.some.injEq] at h
      subst h
      obtain ⟨hd, hc⟩ := firstSingle_some _ n hn
      obtain ⟨g1, g2, g3, g4⟩ := tallyUnit_single s.board (boxCells bx.1 bx.2) n hc
      have hq := (mem_boxCells bx.1 bx.2 _).1 g1
      refine ⟨logicPlace_step s _ _ n g2 g3 ?_, rfl⟩
      intro hvalid S hS
      refine forced_of_single s.board S hvalid hS (boxCells bx.1 bx.2)
        ((tallyUnit s.board (boxCells bx.1 bx.2)).lastPosR n,
          (tallyUnit s.board (boxCells bx.1 bx.2)).lastPosC n) n ?_ ?_ g2 g3 g4
      · intro p hp
        have hp' := (mem_boxCells bx.1 bx.2 p).1 hp
        exact Or.inr (Or.inr ⟨hq.1.trans hp'.1.symm, hq.2.trans hp'.2.symm⟩)
      · obtain ⟨p, hp, _⟩ := (hS.1 n hd.1 hd.2).2.2 bx.1 bx.2
        exact ⟨p, (mem_boxCells bx.1 bx.2 p).2 ⟨hp.1, hp.2.1⟩, hp.2.2⟩
    · exact ih h

theorem applyHiddenSingles_false (s s1 : Solver) (h : applyHiddenSingles s = (false, s1)) :
    s1 = s := by
  unfold applyHiddenSingles at h
  split at h
  · simp at h
  · split at h
    · simp at h
    · split at h
      · simp at h
      · simp only [Prod.mk.injEq, true_and] at h
        exact h.symm

theorem applyHiddenSingles_true (s s1 : Solver) (h : applyHiddenSingles s = (true, s1)) :
    DeductionStep s.board s1.board ∧ s1.currentMode = s.currentMode := by
  unfold applyHiddenSingles at h
  split at h
  · rename_i s2 h2
    simp only [Prod.mk.injEq, true_and] at h
    subst h
    exact hiddenRows_some s _ _ h2
  · split at h
    · rename_i s2 h2
      simp only [Prod.mk.injEq, true_and] at h
      subst h
      exact hiddenCols_some s _ _ h2
    · split at h
      · rename_i s2 h2
        simp only [Prod.mk.injEq, true_and] at h
        subst h
        exact hiddenBoxes_some s _ _ h2
      · simp at h

end Solver

/-! ## Deduction steps -/

theorem DeductionStep_grows {b b' : SudokuBoard} (hv : ValidBoard b)
    (h : DeductionStep b b') : Grows b b' := by
  obtain ⟨r, c, d, hg, hd, rfl, _⟩ := h
  exact Grows_placeNumber b r c d hv hg hd

theorem DeductionStep_completion {b b' : SudokuBoard} (hv : ValidBoard b)
    (h : DeductionStep b b') (S : Fin 9 → Fin 9 → Nat) (hS : IsCompletion b.grid S) :
    IsCompletion b'.grid S := by
  obtain ⟨r, c, d, hg, _, rfl, hforced⟩ := h
  rw [← hforced hv S hS]
  exact IsCompletion_placeNumber b S r c (hv.2.2 r c hg) hS

theorem DeductionStep_emptyCount {b b' : SudokuBoard} (hnef : NoEmptyFixed b)
    (h : DeductionStep b b') : NoEmptyFixed b' ∧ emptyCount b' + 1 = emptyCount b := by
  obtain ⟨r, c, d, hg, hd, rfl, _⟩ := h
  have hd0 : d ≠ 0 := by have := isValid_digit b r c d hd; omega
  exact ⟨NoEmptyFixed_placeNumber b r c d hnef,
    emptyCount_placeNumber b r c d (hnef r c hg) hg hd0⟩

namespace Solver

/-! ## solveHumanistic -/

theorem solveHumanistic_sound :
    ∀ (fuel : Nat) (s : Solver) (res : Bool) (s' : Solver), ValidBoard s.board →
      solveHumanistic fuel s = some (res, s') →
        Grows s.board s'.board ∧ res = s'.board.isComplete ∧
        (∀ S, IsCompletion s.board.grid S → IsCompletion s'.board.grid S) ∧
        s'.currentMode = s.currentMode := by
  intro fuel
  induction fuel with
  | zero => intro s res s' _ h; simp [solveHumanistic] at h
  | succ fuel ih =>
    intro s res s' hv h
    unfold solveHumanistic at h
    split at h
    · rename_i s1 h1
      obtain ⟨hstep, hmode⟩ := applyNakedSingles_true s s1 h1
      have hg := DeductionStep_grows hv hstep
      obtain ⟨g1, g2, g3, g4⟩ := ih s1 res s' hg.1 h
      exact ⟨Grows_trans hg g1, g2,
        fun S hS => g3 S (DeductionStep_completion hv hstep S hS), g4.trans hmode⟩
    · rename_i s1 h1
      have e1 := applyNakedSingles_false s s1 h1
      subst e1
      split at h
      · rename_i s2 h2
        obtain ⟨hstep, hmode⟩ := applyHiddenSingles_true s1 s2 h2
        have hg := DeductionStep_grows hv hstep
        obtain ⟨g1, g2, g3, g4⟩ := ih s2 res s' hg.1 h
        exact ⟨Grows_trans hg g1, g2,
          fun S hS => g3 S (DeductionStep_completion hv hstep S hS), g4.trans hmode⟩
      · rename_i s2 h2
        have e2 := applyHiddenSingles_false s1 s2 h2
        subst e2
        simp only [Option.some.injEq, Prod.mk.injEq] at h
        obtain ⟨hr, hs⟩ := h
        subst hs
        exact ⟨Grows_refl _ hv, hr.symm, fun S hS => hS, rfl⟩

theorem solveHumanistic_emptyCount :
    ∀ (fuel : Nat) (s : Solver) (res : Bool) (s' : Solver), NoEmptyFixed s.board →
      solveHumanistic fuel s = some (res, s') →
        NoEmptyFixed s'.board ∧ emptyCount s'.board ≤ emptyCount s.board := by
  intro fuel
  induction fuel with
  | zero => intro s res s' _ h; simp [solveHumanistic] at h
  | succ fuel ih =>
    intro s res s' hnef h
    unfold solveHumanistic at h
    split at h
    · rename_i s1 h1
      obtain ⟨hstep, _⟩ := applyNakedSingles_true s s1 h1
      obtain ⟨k1, k2⟩ := DeductionStep_emptyCount hnef hstep
      obtain ⟨g1, g2⟩ := ih s1 res s' k1 h
      exact ⟨g1, by omega⟩
    · rename_i s1 h1
      have e1 := applyNakedSingles_false s s1 h1
      subst e1
      split at h
      · rename_i s2 h2
        obtain ⟨hstep, _⟩ := applyHiddenSingles_true s1 s2 h2
        obtain ⟨k1, k2⟩ := DeductionStep_emptyCount hnef hstep
        obtain ⟨g1, g2⟩ := ih s2 res s' k1 h
        exact ⟨g1, by omega⟩
      · rename_i s2 h2
        have e2 := applyHiddenSingles_false s1 s2 h2
        subst e2
        simp only [Option.some.injEq, Prod.mk.injEq] at h
        obtain ⟨_, hs⟩ := h
        subst hs
        exact ⟨hnef, le_refl _⟩

theorem solveHumanistic_isSome :
    ∀ (fuel : Nat) (s : Solver), NoEmptyFixed s.board → emptyCount s.board < fuel →
      (solveHumanistic fuel s).isSome = true := by
  intro fuel
  induction fuel with
  | zero => intro s _ h; omega
  | succ fuel ih =>
    intro s hnef hcount
    unfold solveHumanistic
    split
    · rename_i s1 h1
      obtain ⟨hstep, _⟩ := applyNakedSingles_true s s1 h1
      obtain ⟨k1, k2⟩ := DeductionStep_emptyCount hnef hstep
      exact ih s1 k1 (by omega)
    · rename_i s1 h1
      have e1 := applyNakedSingles_false s s1 h1
      subst e1
      split
      · rename_i s2 h2
        obtain ⟨hstep, _⟩ := applyHiddenSingles_true s1 s2 h2
        obtain ⟨k1, k2⟩ := DeductionStep_emptyCount hnef hstep
        exact ih s2 k1 (by omega)
      · simp

/-! ## solve -/

theorem solveSearch_sound (fuel : Nat) (s s' : Solver) (hv : ValidBoard s.board)
    (h : solveSearch fuel s = some (true, s')) :
    Grows s.board s'.board ∧ ∀ r c, s'.board.grid r c ≠ 0 := by
  unfold solveSearch at h
  split at h
  · rename_i hc
    simp only [Option.some.injEq, Prod.mk.injEq, true_and] at h
    subst h
    exact ⟨Grows_refl _ hv, (isComplete_iff _).1 hc⟩
  · split at h
    · exact solveRecursive_sound fuel s s' hv h
    · simp at h

theorem solveSearch_restore (fuel : Nat) (s s' : Solver) (hnef : NoEmptyFixed s.board)
    (h : solveSearch fuel s = some (false, s')) : s'.board = s.board := by
  unfold solveSearch at h
  split at h
  · simp at h
  · split at h
    · exact solveRecursive_restore fuel s s' hnef h
    · simp only [Option.some.injEq, Prod.mk.injEq, true_and] at h
      rw [h]

theorem solveSearch_isSome (fuel : Nat) (s : Solver) (hnef : NoEmptyFixed s.board)
    (hcount : emptyCount s.board < fuel) : (solveSearch fuel s).isSome = true := by
  unfold solveSearch
  split
  · simp
  · split
    · exact solveRecursive_isSome fuel s hnef hcount
    · simp

theorem solveSearch_complete (fuel : Nat) (s : Solver) (S : Fin 9 → Fin 9 → Nat)
    (hv : ValidBoard s.board) (hS : IsCompletion s.board.grid S)
    (hcount : emptyCount s.board < fuel)
    (hmode : s.currentMode = Mode.BACKTRACK_ONLY ∨ s.currentMode = Mode.HYBRID) :
    ∃ s', solveSearch fuel s = some (true, s') := by
  unfold solveSearch
  split
  · exact ⟨s, rfl⟩
  · exact solveRecursive_complete S fuel s hv hS hcount

/-- The result of `solve` on a valid board, when it is true. -/
theorem solve_true (fuel : Nat) (s s' : Solver) (hv : ValidBoard s.board)
    (h : solve fuel s = some (true, s')) :
    Grows s.board s'.board ∧ ∀ r c, s'.board.grid r c ≠ 0 := by
  unfold solve at h
  dsimp only at h
  split at h
  · split at h
    · exact Option.noConfusion h
    · rename_i res s1 h1
      obtain ⟨g1, _, _, g4⟩ := solveHumanistic_sound fuel
        { s with recursionCount := 0, backtrackCount := 0, logicCount := 0 } res s1 hv h1
      split at h
      · simp only [Option.some.injEq, Prod.mk.injEq] at h
        obtain ⟨hc, hs⟩ := h
        subst hs
        exact ⟨g1, (isComplete_iff _).1 hc⟩
      · obtain ⟨k1, k2⟩ := solveSearch_sound fuel s1 s' g1.1 h
        exact ⟨Grows_trans g1 k1, k2⟩
  · exact solveSearch_sound fuel
      { s with recursionCount := 0, backtrackCount := 0, logicCount := 0 } s' hv h

theorem solve_isSome (fuel : Nat) (s : Solver) (hnef : NoEmptyFixed s.board)
    (hcount : emptyCount s.board < fuel) : (solve fuel s).isSome = true := by
  unfold solve
  dsimp only
  split
  · have hs := solveHumanistic_isSome fuel
      { s with recursionCount := 0, backtrackCount := 0, logicCount := 0 } hnef hcount
    split
    · rename_i hnone
      rw [hnone] at hs; simp at hs
    · rename_i res s1 h1
      obtain ⟨k1, k2⟩ := solveHumanistic_emptyCount fuel
        { s with recursionCount := 0, backtrackCount := 0, logicCount := 0 } res s1 hnef h1
      split
      · simp
      · exact solveSearch_isSome fuel s1 k1 (lt_of_le_of_lt k2 hcount)
  · exact solveSearch_isSome fuel
      { s with recursionCount := 0, backtrackCount := 0, logicCount := 0 } hnef hcount

theorem solve_backtrack (fuel : Nat) (s : Solver) (hm : s.currentMode = Mode.BACKTRACK_ONLY) :
    solve fuel s =
      solveSearch fuel { s with recursionCount := 0, backtrackCount := 0, logicCount := 0 } := by
  unfold solve
  simp [hm]

end Solver

theorem cellsInRange_of_completion (g S : Fin 9 → Fin 9 → Nat) (hS : IsCompletion g S) :
    CellsInRange g := by
  intro r c
  by_cases h : g r c = 0
  · omega
  · rw [← hS.2 r c h]
    exact (range_of_eachDigitOnce S hS.1 r c).2

/-- A board that grew from a board with cells in `0..9` and has no empty cell
is a completion of it. -/
theorem completion_of_grows (b b' : SudokuBoard) (hr : CellsInRange b.grid) (hg : Grows b b')
    (hfull : ∀ r c, b'.grid r c ≠ 0) : IsCompletion b.grid b'.grid :=
  ⟨eachDigitOnce_of_full b'.grid hfull (hg.2.2.2 hr) hg.1.2.1, hg.2.1⟩

/-! ## loadBoard -/

theorem MaskInv_set_fixed (b : SudokuBoard) (f : Fin 9 → Fin 9 → Bool) (h : MaskInv b) :
    MaskInv { b with fixed := f } := h

theorem loadCell_spec (g : Fin 9 → Fin 9 → Nat) (b : SudokuBoard) (a : Fin 9 × Fin 9)
    (hm : MaskInv b) (hg : b.grid a.1 a.2 = 0) (hf : b.fixed a.1 a.2 = false) :
    MaskInv (loadCell g b a) ∧
    (loadCell g b a).grid a.1 a.2 = g a.1 a.2 ∧
    (loadCell g b a).fixed a.1 a.2 = decide (g a.1 a.2 ≠ 0) ∧
    ∀ p : Fin 9 × Fin 9, p ≠ a →
      (loadCell g b a).grid p.1 p.2 = b.grid p.1 p.2 ∧
      (loadCell g b a).fixed p.1 p.2 = b.fixed p.1 p.2 := by
  unfold loadCell
  by_cases h0 : g a.1 a.2 = 0
  · simp only [h0, ne_eq, not_true_eq_false, if_false, decide_False]
    exact ⟨hm, hg, hf, fun _ _ => by simp⟩
  · simp only [h0, ne_eq, not_false_eq_true, if_true, decide_True]
    refine ⟨MaskInv_set_fixed _ _ (MaskInv_placeNumber_empty b a.1 a.2 _ hm hg), ?_, ?_, ?_⟩
    · rw [placeNumber_grid b a.1 a.2 _ hf, set2_apply]; simp
    · simp [set2_apply]
    · intro p hp
      have : ¬ (p.1 = a.1 ∧ p.2 = a.2) := by
        rintro ⟨h1, h2⟩; exact hp (Prod.ext h1 h2)
      rw [placeNumber_grid b a.1 a.2 _ hf, placeNumber_fixed]
      simp [set2_apply, this]

theorem foldl_loadCell (g : Fin 9 → Fin 9 → Nat) (L : List (Fin 9 × Fin 9)) :
    L.Nodup → ∀ b : SudokuBoard, MaskInv b →
      (∀ p ∈ L, b.grid p.1 p.2 = 0 ∧ b.fixed p.1 p.2 = false) →
      MaskInv (L.foldl (loadCell g) b) ∧
      (∀ p ∈ L, (L.foldl (loadCell g) b).grid p.1 p.2 = g p.1 p.2 ∧
        (L.foldl (loadCell g) b).fixed p.1 p.2 = decide (g p.1 p.2 ≠ 0)) ∧
      (∀ p, p ∉ L → (L.foldl (loadCell g) b).grid p.1 p.2 = b.grid p.1 p.2 ∧
        (L.foldl (loadCell g) b).fixed p.1 p.2 = b.fixed p.1 p.2) := by
  induction L with
  | nil =>
    intro _ b hm _
    exact ⟨hm, fun p hp => by simp at hp, fun _ _ => ⟨rfl, rfl⟩⟩
  | cons a L ih =>
    intro hnd b hm hempty
    rw [List.nodup_cons] at hnd
    obtain ⟨ha1, ha2⟩ := hempty a (List.mem_cons_self a L)
    obtain ⟨k1, k2, k3, k4⟩ := loadCell_spec g b a hm ha1 ha2
    have hempty' : ∀ p ∈ L, (loadCell g b a).grid p.1 p.2 = 0 ∧
        (loadCell g b a).fixed p.1 p.2 = false := by
      intro p hp
      have hpa : p ≠ a := by
        rintro rfl; exact hnd.1 hp
      obtain ⟨e1, e2⟩ := k4 p hpa
      obtain ⟨e3, e4⟩ := hempty p (List.mem_cons_of_mem a hp)
      exact ⟨e1.trans e3, e2.trans e4⟩
    obtain ⟨g1, g2, g3⟩ := ih hnd.2 (loadCell g b a) k1 hempty'
    rw [List.foldl_cons]
    refine ⟨g1, ?_, ?_⟩
    · intro p hp
      rcases List.mem_cons.1 hp with rfl | hp
      · obtain ⟨e1, e2⟩ := g3 p hnd.1
        exact ⟨e1.trans k2, e2.trans k3⟩
      · exact g2 p hp
    · intro p hp
      have hpa : p ≠ a := fun h => hp (h ▸ List.mem_cons_self a L)
      have hpL : p ∉ L := fun h => hp (List.mem_cons_of_mem a h)
      obtain ⟨e1, e2⟩ := g3 p hpL
      obtain ⟨e3, e4⟩ := k4 p hpa
      exact ⟨e1.trans e3, e2.trans e4⟩

/-- The state after `loadBoard(grid)`: the cells are those of `grid`, a cell is
fixed exactly when it is non-zero, and the masks agree with the grid. -/
theorem loadBoard_spec (b0 : SudokuBoard) (g : Fin 9 → Fin 9 → Nat) :
    (b0.loadBoard g).grid = g ∧
    (∀ r c, (b0.loadBoard g).fixed r c = decide (g r c ≠ 0)) ∧
    MaskInv (b0.loadBoard g) := by
  obtain ⟨g1, g2, _⟩ := foldl_loadCell g allCells allCells_nodup new MaskInv_new
    (fun _ _ => ⟨rfl, rfl⟩)
  refine ⟨?_, ?_, g1⟩
  · funext r c
    exact (g2 (r, c) (Solver.mem_allCells (r, c))).1
  · intro r c
    exact (g2 (r, c) (Solver.mem_allCells (r, c))).2

theorem loadBoard_valid (b0 : SudokuBoard) (g : Fin 9 → Fin 9 → Nat) (hn : NoRepeat g) :
    ValidBoard (b0.loadBoard g) := by
  obtain ⟨h1, h2, h3⟩ := loadBoard_spec b0 g
  refine ⟨h3, by rw [h1]; exact hn, ?_⟩
  intro r c hrc
  rw [h2 r c]
  rw [h1] at hrc
  simp [hrc]

/-! ## Facts about the test grids -/

theorem emptyCount_lt (b : SudokuBoard) : emptyCount b < 82 := by
  unfold emptyCount
  have h1 := @List.countP_le_length _ (fun p : Fin 9 × Fin 9 => b.grid p.1 p.2 == 0) allCells
  have h2 : allCells.length = 81 := by decide
  omega

theorem emptyCount_eq_zero (b : SudokuBoard) (h : ∀ r c, b.grid r c ≠ 0) : emptyCount b = 0 := by
  unfold emptyCount
  rw [List.countP_eq_zero]
  intro p _
  simpa using h p.1 p.2

theorem easyGrid_noRepeat : NoRepeat easyGrid := by decide

theorem hardGrid_noRepeat : NoRepeat hardGrid := by decide

theorem nearGrid_noRepeat : NoRepeat nearGrid := by decide

theorem deadEndGrid_noRepeat : NoRepeat deadEndGrid := by decide

theorem easySolution_once : EachDigitOnce easySolution :=
  eachDigitOnce_of_full easySolution (by decide) (by decide) (by decide)

theorem hardSolution_once : EachDigitOnce hardSolution :=
  eachDigitOnce_of_full hardSolution (by decide) (by decide) (by decide)

theorem loadBoard_grid (b0 : SudokuBoard) (g : Fin 9 → Fin 9 → Nat) :
    (b0.loadBoard g).grid = g := (loadBoard_spec b0 g).1

theorem deadEndGrid_no_completion : ¬ ∃ S, IsCompletion deadEndGrid S := by
  rintro ⟨S, hS⟩
  have hn := noRepeat_of_eachDigitOnce S hS.1
  obtain ⟨h1, h9⟩ := range_of_eachDigitOnce S hS.1 0 8
  have e0 : S 0 0 = 1 := hS.2 0 0 (by decide)
  have e1 : S 0 1 = 2 := hS.2 0 1 (by decide)
  have e2 : S 0 2 = 3 := hS.2 0 2 (by decide)
  have e3 : S 0 3 = 4 := hS.2 0 3 (by decide)
  have e4 : S 0 4 = 5 := hS.2 0 4 (by decide)
  have e5 : S 0 5 = 6 := hS.2 0 5 (by decide)
  have e6 : S 0 6 = 7 := hS.2 0 6 (by decide)
  have e7 : S 0 7 = 8 := hS.2 0 7 (by decide)
  have e8 : S 1 8 = 9 := hS.2 1 8 (by decide)
  have n0 := hn 0 0 0 8 (by decide) (Or.inl rfl) (by omega)
  have n1 := hn 0 1 0 8 (by decide) (Or.inl rfl) (by omega)
  have n2 := hn 0 2 0 8 (by decide) (Or.inl rfl) (by omega)
  have n3 := hn 0 3 0 8 (by decide) (Or.inl rfl) (by omega)
  have n4 := hn 0 4 0 8 (by decide) (Or.inl rfl) (by omega)
  have n5 := hn 0 5 0 8 (by decide) (Or.inl rfl) (by omega)
  have n6 := hn 0 6 0 8 (by decide) (Or.inl rfl) (by omega)
  have n7 := hn 0 7 0 8 (by decide) (Or.inl rfl) (by omega)
  have n8 := hn 1 8 0 8 (by decide) (Or.inr (Or.inl rfl)) (by omega)
  omega

theorem conflictGrid_no_completion : ¬ ∃ S, IsCompletion conflictGrid S := by
  rintro ⟨S, hS⟩
  have hn := noRepeat_of_eachDigitOnce S hS.1
  have e0 : S 0 0 = 3 := hS.2 0 0 (by decide)
  have e1 : S 0 1 = 3 := hS.2 0 1 (by decide)
  have n0 := hn 0 0 0 1 (by decide) (Or.inl rfl) (by omega)
  omega

/-! ## Solver contracts -/

/-- C1: on a valid board (cells in `0..9`, masks agreeing with the grid, no
repeated digit in a unit, no empty cell fixed), in every mode, `solve`
returns once the fuel exceeds the number of empty cells, and whenever it
returns true the board is complete, every row, column and box holds each
digit `1..9` exactly once, and every cell that was non-empty before the call
holds the same digit. -/
theorem solve_sound (s : Solver) (mode : Mode) (hv : ValidBoard s.board)
    (hr : CellsInRange s.board.grid) :
    (∀ fuel, emptyCount s.board < fuel → (solve fuel (s.setMode mode)).isSome = true) ∧
    ∀ fuel s', solve fuel (s.setMode mode) = some (true, s') →
      s'.board.isComplete = true ∧ EachDigitOnce s'.board.grid ∧
        Extends s.board.grid s'.board.grid := by
  refine ⟨fun fuel hf => solve_isSome fuel (s.setMode mode) hv.2.2 hf, ?_⟩
  intro fuel s' h
  obtain ⟨hg, hfull⟩ := solve_true fuel (s.setMode mode) s' hv h
  exact ⟨(isComplete_iff _).2 hfull, (completion_of_grows s.board s'.board hr hg hfull).1, hg.2.1⟩

/-- Witness of `solve_sound`: the board loaded from `nearGrid`, in HYBRID mode;
deduction fills the two blank cells. -/
theorem solve_sound_witness :
    solve 3 ((init (new.loadBoard nearGrid)).setMode Mode.HYBRID) =
      some (true, (((init (new.loadBoard nearGrid)).setMode Mode.HYBRID).logicPlace 0 0
        4).logicPlace 8 8 9) ∧
    EachDigitOnce ((((init (new.loadBoard nearGrid)).setMode Mode.HYBRID).logicPlace 0 0
        4).logicPlace 8 8 9).board.grid :=
  ⟨by rfl,
   ((solve_sound (init (new.loadBoard nearGrid)) Mode.HYBRID
      (loadBoard_valid new nearGrid nearGrid_noRepeat)
      (by show CellsInRange (new.loadBoard nearGrid).grid
          rw [loadBoard_grid]; decide)).2 3 _ (by rfl)).2.1⟩

/-- C2: on a valid board that has a valid completion, `solve` in
BACKTRACK_ONLY mode, given fuel above the number of empty cells, returns true
and leaves on the board a valid completion of the initial board. -/
theorem backtrack_complete (s : Solver) (hv : ValidBoard s.board)
    (hS : ∃ S, IsCompletion s.board.grid S) (fuel : Nat) (hfuel : emptyCount s.board < fuel) :
    ∃ s', solve fuel (s.setMode Mode.BACKTRACK_ONLY) = some (true, s') ∧
      IsCompletion s.board.grid s'.board.grid := by
  obtain ⟨S, hS⟩ := hS
  rw [solve_backtrack fuel (s.setMode Mode.BACKTRACK_ONLY) rfl]
  obtain ⟨s', hs'⟩ := solveSearch_complete fuel
    { s.setMode Mode.BACKTRACK_ONLY with
      recursionCount := 0, backtrackCount := 0, logicCount := 0 } S hv hS hfuel (Or.inl rfl)
  refine ⟨s', hs', ?_⟩
  obtain ⟨hg, hfull⟩ := solveSearch_sound fuel
    { s.setMode Mode.BACKTRACK_ONLY with
      recursionCount := 0, backtrackCount := 0, logicCount := 0 } s' hv hs'
  exact completion_of_grows s.board s'.board (cellsInRange_of_completion _ S hS) hg hfull

/-- Witness of `backtrack_complete`: the board loaded from the easy grid of
`test_solver.cpp`, whose completion is `easySolution`. -/
theorem backtrack_complete_witness :
    IsCompletion (new.loadBoard easyGrid).grid easySolution ∧
    ∃ s', solve 82 ((init (new.loadBoard easyGrid)).setMode Mode.BACKTRACK_ONLY) =
        some (true, s') ∧
      IsCompletion (new.loadBoard easyGrid).grid s'.board.grid :=
  ⟨⟨easySolution_once, by rw [loadBoard_grid]; decide⟩,
   backtrack_complete (init (new.loadBoard easyGrid))
     (loadBoard_valid new easyGrid easyGrid_noRepeat)
     ⟨easySolution, easySolution_once, by
       show Extends (new.loadBoard easyGrid).grid easySolution
       rw [loadBoard_grid]; decide⟩
     82 (emptyCount_lt _)⟩

/-- C3, counterexample: the board loaded from `conflictGrid`, which holds 3
twice in row 0, has no valid completion, yet `solve` in BACKTRACK_ONLY mode
fills the blank cell `(8,8)` with 9 and returns true. -/
theorem backtrack_true_without_completion :
    CellsInRange conflictGrid ∧
    (conflictGrid 0 0 = 3 ∧ conflictGrid 0 1 = 3) ∧
    (¬ ∃ S, IsCompletion (new.loadBoard conflictGrid).grid S) ∧
    solve 3 ((init (new.loadBoard conflictGrid)).setMode Mode.BACKTRACK_ONLY) =
      some (true,
        { board := (new.loadBoard conflictGrid).placeNumber 8 8 9
          recursionCount := 2, backtrackCount := 0, logicCount := 0
          currentMode := Mode.BACKTRACK_ONLY }) := by
  refine ⟨by decide, by decide, ?_, by rfl⟩
  rw [loadBoard_grid]
  exact conflictGrid_no_completion

/-- C3, amended: on a valid board with cells in `0..9` that has no valid
completion, `solve` in BACKTRACK_ONLY mode, given fuel above the number of
empty cells, returns false and leaves the board in its pre-call state. -/
theorem backtrack_fails_without_completion (s : Solver) (hv : ValidBoard s.board)
    (hr : CellsInRange s.board.grid) (hno : ¬ ∃ S, IsCompletion s.board.grid S)
    (fuel : Nat) (hfuel : emptyCount s.board < fuel) :
    ∃ s', solve fuel (s.setMode Mode.BACKTRACK_ONLY) = some (false, s') ∧
      s'.board = s.board := by
  have hsome := solve_isSome fuel (s.setMode Mode.BACKTRACK_ONLY) hv.2.2 hfuel
  cases hres : solve fuel (s.setMode Mode.BACKTRACK_ONLY) with
  | none => rw [hres] at hsome; simp at hsome
  | some x =>
    obtain ⟨res, s'⟩ := x
    cases res with
    | true =>
      exfalso
      obtain ⟨hg, hfull⟩ := solve_true fuel (s.setMode Mode.BACKTRACK_ONLY) s' hv hres
      exact hno ⟨s'.board.grid, completion_of_grows s.board s'.board hr hg hfull⟩
    | false =>
      refine ⟨s', rfl, ?_⟩
      rw [solve_backtrack fuel (s.setMode Mode.BACKTRACK_ONLY) rfl] at hres
      exact solveSearch_restore fuel
        { s.setMode Mode.BACKTRACK_ONLY with
      recursionCount := 0, backtrackCount := 0, logicCount := 0 } s' hv.2.2 hres

/-- Witness of `backtrack_fails_without_completion`: the board loaded from
`deadEndGrid`. -/
theorem backtrack_fails_without_completion_witness :
    (¬ ∃ S, IsCompletion (new.loadBoard deadEndGrid).grid S) ∧
    ∃ s', solve 82 ((init (new.loadBoard deadEndGrid)).setMode Mode.BACKTRACK_ONLY) =
        some (false, s') ∧
      s'.board = new.loadBoard deadEndGrid :=
  ⟨by rw [loadBoard_grid]; exact deadEndGrid_no_completion,
   backtrack_fails_without_completion (init (new.loadBoard deadEndGrid))
     (loadBoard_valid new deadEndGrid deadEndGrid_noRepeat)
     (by show CellsInRange (new.loadBoard deadEndGrid).grid
         rw [loadBoard_grid]; decide)
     (by show ¬ ∃ S, IsCompletion (new.loadBoard deadEndGrid).grid S
         rw [loadBoard_grid]; exact deadEndGrid_no_completion)
     82 (emptyCount_lt _)⟩

/-- The run of BACKTRACK_ONLY `solve` on the board loaded from `mrvGrid`: false
after two calls and one backtrack; the cells and the three mask arrays read
after the call are those read before. -/
theorem mrvGrid_backtrack_result :
    (solve 3 ((init (new.loadBoard mrvGrid)).setMode Mode.BACKTRACK_ONLY)).map
      (fun x => (x.1, x.2.recursionCount, x.2.backtrackCount,
        allCells.map (fun p => x.2.board.grid p.1 p.2),
        (List.finRange 9).map x.2.board.rowMask, (List.finRange 9).map x.2.board.colMask,
        allBoxes.map (fun p => x.2.board.boxMask p.1 p.2))) =
    some (false, 2, 1,
      allCells.map (fun p => (new.loadBoard mrvGrid).grid p.1 p.2),
      (List.finRange 9).map (new.loadBoard mrvGrid).rowMask,
      (List.finRange 9).map (new.loadBoard mrvGrid).colMask,
      allBoxes.map (fun p => (new.loadBoard mrvGrid).boxMask p.1 p.2)) := by
  rfl

/-- The first trial of that run: the search picks the empty cell `(0,0)` of the
board loaded from `mrvGrid`, 1 is legal there, placing it changes the cell,
and the nested call picks `(8,8)`. -/
theorem mrvGrid_first_trial :
    (new.loadBoard mrvGrid).grid 0 0 = 0 ∧
    findBestCell (new.loadBoard mrvGrid) = some (0, 0) ∧
    (new.loadBoard mrvGrid).isValid 0 0 1 = true ∧
    ((new.loadBoard mrvGrid).placeNumber 0 0 1).grid 0 0 = 1 ∧
    findBestCell ((new.loadBoard mrvGrid).placeNumber 0 0 1) = some (8, 8) := by
  decide

/-- C4: on a board in which no empty cell is fixed, whenever `solve` in
BACKTRACK_ONLY mode returns false, the board state after the call (cells,
fixed flags, row, column and box masks) equals the state before the call. -/
theorem restore_on_failure (s : Solver) (hnef : NoEmptyFixed s.board) (fuel : Nat)
    (s' : Solver) (h : solve fuel (s.setMode Mode.BACKTRACK_ONLY) = some (false, s')) :
    s'.board = s.board := by
  rw [solve_backtrack fuel (s.setMode Mode.BACKTRACK_ONLY) rfl] at h
  exact solveSearch_restore fuel
    { s.setMode Mode.BACKTRACK_ONLY with
      recursionCount := 0, backtrackCount := 0, logicCount := 0 } s' hnef h

/-- Witness of `restore_on_failure`: on the board loaded from `mrvGrid` the
search picks the empty cell `(0,0)`, places the legal digit 1, picks `(8,8)`
in the nested call, finds no digit for it, removes the 1 and returns false
after two calls and one backtrack; the cells and masks read after the call
are those read before, and the board is the one before the call. -/
theorem restore_on_failure_witness :
    ((new.loadBoard mrvGrid).grid 0 0 = 0 ∧
      findBestCell (new.loadBoard mrvGrid) = some (0, 0) ∧
      (new.loadBoard mrvGrid).isValid 0 0 1 = true ∧
      ((new.loadBoard mrvGrid).placeNumber 0 0 1).grid 0 0 = 1 ∧
      findBestCell ((new.loadBoard mrvGrid).placeNumber 0 0 1) = some (8, 8)) ∧
    ∃ s', solve 3 ((init (new.loadBoard mrvGrid)).setMode Mode.BACKTRACK_ONLY) =
        some (false, s') ∧
      s'.recursionCount = 2 ∧ s'.backtrackCount = 1 ∧
      (allCells.map (fun p => s'.board.grid p.1 p.2) =
          allCells.map (fun p => (new.loadBoard mrvGrid).grid p.1 p.2) ∧
        (List.finRange 9).map s'.board.rowMask =
          (List.finRange 9).map (new.loadBoard mrvGrid).rowMask ∧
        (List.finRange 9).map s'.board.colMask =
          (List.finRange 9).map (new.loadBoard mrvGrid).colMask ∧
        allBoxes.map (fun p => s'.board.boxMask p.1 p.2) =
          allBoxes.map (fun p => (new.loadBoard mrvGrid).boxMask p.1 p.2)) ∧
      s'.board = (init (new.loadBoard mrvGrid)).board := by
  refine ⟨mrvGrid_first_trial, ?_⟩
  have h := mrvGrid_backtrack_result
  cases hs : solve 3 ((init (new.loadBoard mrvGrid)).setMode Mode.BACKTRACK_ONLY) with
  | none => rw [hs] at h; simp at h
  | some x =>
    obtain ⟨res, s'⟩ := x
    rw [hs] at h
    simp only [Option.map_some', Option.some.injEq, Prod.mk.injEq] at h
    obtain ⟨h1, h2, h3, h4⟩ := h
    subst h1
    exact ⟨s', rfl, h2, h3, h4,
      restore_on_failure (init (new.loadBoard mrvGrid))
        (by
          intro r c hrc
          obtain ⟨g1, g2, _⟩ := loadBoard_spec new mrvGrid
          show (new.loadBoard mrvGrid).fixed r c = false
          rw [g2 r c]
          have : mrvGrid r c = 0 := by rw [← g1]; exact hrc
          simp [this])
        3 s' hs⟩

/-- C5: for every 9×9 grid with entries in `0..9`, without repeated non-zero
digit in a unit and with a valid completion, `loadBoard` followed by `solve`
in HYBRID mode, given fuel above the number of empty cells, returns true,
leaves a complete board with zero empty cells, and leaves every given clue
unchanged. -/
theorem hybrid_end_to_end (b0 : SudokuBoard) (g : Fin 9 → Fin 9 → Nat)
    (_hr : CellsInRange g) (hn : NoRepeat g) (hS : ∃ S, IsCompletion g S) (fuel : Nat)
    (hfuel : emptyCount (b0.loadBoard g) < fuel) :
    ∃ s', solve fuel ((init (b0.loadBoard g)).setMode Mode.HYBRID) = some (true, s') ∧
      s'.board.isComplete = true ∧ emptyCount s'.board = 0 ∧
      ∀ r c, g r c ≠ 0 → s'.board.grid r c = g r c := by
  obtain ⟨S, hS⟩ := hS
  have hv := loadBoard_valid b0 g hn
  have hgrid := loadBoard_grid b0 g
  have hsome := solveHumanistic_isSome fuel
    { (init (b0.loadBoard g)).setMode Mode.HYBRID with
      recursionCount := 0, backtrackCount := 0, logicCount := 0 } hv.2.2 hfuel
  cases hh : solveHumanistic fuel
    { (init (b0.loadBoard g)).setMode Mode.HYBRID with
      recursionCount := 0, backtrackCount := 0, logicCount := 0 } with
  | none => rw [hh] at hsome; simp at hsome
  | some x =>
    obtain ⟨res, s1⟩ := x
    obtain ⟨g1, _, g3, g4⟩ := solveHumanistic_sound fuel _ res s1 hv hh
    obtain ⟨k1, k2⟩ := solveHumanistic_emptyCount fuel _ res s1 hv.2.2 hh
    have hm : s1.currentMode = Mode.HYBRID := g4
    obtain ⟨s', hs'⟩ := solveSearch_complete fuel s1 S g1.1
      (g3 S (by show IsCompletion (b0.loadBoard g).grid S
                rw [hgrid]; exact hS))
      (lt_of_le_of_lt k2 hfuel) (Or.inr hm)
    obtain ⟨j1, j2⟩ := solveSearch_sound fuel s1 s' g1.1 hs'
    refine ⟨s', ?_, (isComplete_iff _).2 j2, emptyCount_eq_zero _ j2, ?_⟩
    · unfold solve
      simp only [setMode, init, or_true, if_true]
      simp only [setMode, init] at hh
      rw [hh]
      simp only [hm, if_false]
      exact hs'
    · intro r c hrc
      have := (Grows_trans g1 j1).2.1 r c (by
        show (b0.loadBoard g).grid r c ≠ 0
        rw [hgrid]; exact hrc)
      rw [this]
      show (b0.loadBoard g).grid r c = g r c
      rw [hgrid]

/-- Witness of `hybrid_end_to_end`: the easy and the hard grid of
`test_solver.cpp`. -/
theorem hybrid_end_to_end_witness :
    (∃ s', solve 82 ((init (new.loadBoard easyGrid)).setMode Mode.HYBRID) = some (true, s') ∧
      s'.board.isComplete = true ∧ emptyCount s'.board = 0 ∧
      ∀ r c, easyGrid r c ≠ 0 → s'.board.grid r c = easyGrid r c) ∧
    (∃ s', solve 82 ((init (new.loadBoard hardGrid)).setMode Mode.HYBRID) = some (true, s') ∧
      s'.board.isComplete = true ∧ emptyCount s'.board = 0 ∧
      ∀ r c, hardGrid r c ≠ 0 → s'.board.grid r c = hardGrid r c) :=
  ⟨hybrid_end_to_end new easyGrid (by decide) easyGrid_noRepeat
     ⟨easySolution, easySolution_once, by decide⟩ 82 (emptyCount_lt _),
   hybrid_end_to_end new hardGrid (by decide) hardGrid_noRepeat
     ⟨hardSolution, hardSolution_once, by decide⟩ 82 (emptyCount_lt _)⟩

/-! ## Bulk load and single-cell writes -/

/-- C11: for every prior board state and every grid with entries in `0..9`,
consistent or not, after `loadBoard(grid)` every cell holds the grid's entry,
a cell is fixed exactly when its entry is non-zero, and the whole resulting
state is the same whatever the prior state was. -/
theorem loadBoard_postcondition (b0 : SudokuBoard) (g : Fin 9 → Fin 9 → Nat)
    (_hr : CellsInRange g) :
    (∀ i j, (b0.loadBoard g).getValue i j = g i j) ∧
    (∀ i j, (b0.loadBoard g).isFixed i j = true ↔ g i j ≠ 0) ∧
    (∀ b1 : SudokuBoard, b1.loadBoard g = b0.loadBoard g) := by
  obtain ⟨h1, h2, _⟩ := loadBoard_spec b0 g
  refine ⟨?_, ?_, fun _ => rfl⟩
  · intro i j
    show (b0.loadBoard g).grid i j = g i j
    rw [h1]
  · intro i j
    show (b0.loadBoard g).fixed i j = true ↔ g i j ≠ 0
    rw [h2 i j]
    simp

/-- Witness of `loadBoard_postcondition`: the grid with 3 twice in row 0,
loaded over a board that already holds the easy grid. -/
theorem loadBoard_postcondition_witness :
    CellsInRange conflictGrid ∧
    (∀ i j, ((new.loadBoard easyGrid).loadBoard conflictGrid).getValue i j = conflictGrid i j) ∧
    (∀ i j, ((new.loadBoard easyGrid).loadBoard conflictGrid).isFixed i j = true ↔
      conflictGrid i j ≠ 0) ∧
    (∀ b1 : SudokuBoard,
      b1.loadBoard conflictGrid = (new.loadBoard easyGrid).loadBoard conflictGrid) :=
  ⟨by decide, loadBoard_postcondition (new.loadBoard easyGrid) conflictGrid (by decide)⟩

/-- C12, counterexample: no grid with entries in `0..9` that holds the same
non-zero digit twice in a row, column or box leaves the mask invariant broken
after `loadBoard`. -/
theorem load_conflict_never_breaks_masks :
    ¬ ∃ g : Fin 9 → Fin 9 → Nat, CellsInRange g ∧
      (∃ r c r' c', (r, c) ≠ (r', c') ∧ sameUnit r c r' c' ∧ g r c ≠ 0 ∧ g r c = g r' c') ∧
      ¬ MaskInv (new.loadBoard g) := by
  rintro ⟨g, _, _, h⟩
  exact h (loadBoard_spec new g).2.2

/-- C12, amended: for every grid with entries in `0..9`, also one that holds the
same non-zero digit twice in a unit, the mask invariant holds after
`loadBoard`; what such a grid breaks is the no-repeat invariant, since the
loaded board holds the digit twice in that unit. -/
theorem load_conflict_keeps_masks (b0 : SudokuBoard) (g : Fin 9 → Fin 9 → Nat)
    (_hr : CellsInRange g)
    (hdup : ∃ r c r' c', (r, c) ≠ (r', c') ∧ sameUnit r c r' c' ∧ g r c ≠ 0 ∧
      g r c = g r' c') :
    MaskInv (b0.loadBoard g) ∧ ¬ NoRepeat (b0.loadBoard g).grid := by
  obtain ⟨h1, _, h3⟩ := loadBoard_spec b0 g
  refine ⟨h3, ?_⟩
  rw [h1]
  obtain ⟨r, c, r', c', hne, hu, hnz, he⟩ := hdup
  exact fun hn => hn r c r' c' hne hu hnz he

/-- Witness of `load_conflict_keeps_masks`: `conflictGrid`, with 3 at `(0,0)`
and `(0,1)`. -/
theorem load_conflict_keeps_masks_witness :
    CellsInRange conflictGrid ∧ conflictGrid 0 0 = conflictGrid 0 1 ∧
    MaskInv (new.loadBoard conflictGrid) ∧ ¬ NoRepeat (new.loadBoard conflictGrid).grid :=
  ⟨by decide, by decide,
   load_conflict_keeps_masks new conflictGrid (by decide)
     ⟨0, 0, 0, 1, by decide, Or.inl rfl, by decide, by decide⟩⟩

/-- C13: on every board, for a non-fixed cell, empty or occupied, and a digit
`d` in `0..9`, after `placeNumber(r, c, d)` the cell holds `d`, every other
cell and every fixed flag is unchanged, and `placeNumber(r, c, 0)` gives the
same board state as `removeNumber(r, c)`, which changes nothing when the cell
is empty. -/
theorem placeNumber_write_frame (b : SudokuBoard) (r c : Fin 9) (d : Nat)
    (hf : b.fixed r c = false) (_hd : d ≤ 9) :
    (b.placeNumber r c d).grid r c = d ∧
    (∀ i j, (i, j) ≠ (r, c) → (b.placeNumber r c d).grid i j = b.grid i j) ∧
    (b.placeNumber r c d).fixed = b.fixed ∧
    b.placeNumber r c 0 = b.removeNumber r c ∧
    (b.grid r c = 0 → b.removeNumber r c = b) := by
  refine ⟨?_, ?_, placeNumber_fixed b r c d, placeNumber_zero b r c,
    removeNumber_of_empty b r c⟩
  · rw [placeNumber_grid b r c d hf, set2_apply]
    simp
  · intro i j hij
    rw [placeNumber_grid b r c d hf, set2_apply]
    have : ¬ (i = r ∧ j = c) := by
      rintro ⟨rfl, rfl⟩; exact hij rfl
    simp [this]

/-- Witness of `placeNumber_write_frame`: the occupied mutable cell `(0,0)` of
the board holding a 5 there, overwritten by 7. -/
theorem placeNumber_write_frame_witness :
    (new.placeNumber 0 0 5).fixed 0 0 = false ∧
    ((new.placeNumber 0 0 5).placeNumber 0 0 7).grid 0 0 = 7 ∧
    (new.placeNumber 0 0 5).placeNumber 0 0 0 = (new.placeNumber 0 0 5).removeNumber 0 0 :=
  ⟨by decide,
   (placeNumber_write_frame (new.placeNumber 0 0 5) 0 0 7 (by decide) (by decide)).1,
   (placeNumber_write_frame (new.placeNumber 0 0 5) 0 0 7 (by decide) (by decide)).2.2.2.1⟩

/-! ## isComplete under gated mutation -/

theorem CellsInRange_removeNumber (b : SudokuBoard) (r c : Fin 9) (h : CellsInRange b.grid) :
    CellsInRange (b.removeNumber r c).grid := by
  by_cases hf : b.fixed r c = true
  · rw [removeNumber_of_fixed b r c hf]; exact h
  · rw [removeNumber_grid b r c (by simpa using hf)]
    intro i j
    rw [set2_apply]
    split
    · omega
    · exact h i j

theorem CellsInRange_placeNumber (b : SudokuBoard) (r c : Fin 9) (d : Nat) (hd : d ≤ 9)
    (h : CellsInRange b.grid) : CellsInRange (b.placeNumber r c d).grid := by
  by_cases hf : b.fixed r c = true
  · rw [placeNumber_of_fixed b r c d hf]; exact h
  · rw [placeNumber_grid b r c d (by simpa using hf)]
    intro i j
    rw [set2_apply]
    split
    · exact hd
    · exact h i j

theorem CellsInRange_runOps (ops : List BoardOp) :
    ∀ b : SudokuBoard, CellsInRange b.grid → OpsGated b ops →
      CellsInRange (runOps b ops).grid := by
  induction ops with
  | nil => intro b h _; exact h
  | cons op rest ih =>
    intro b h hg
    cases op with
    | place r c d =>
      simp only [OpsGated] at hg
      have hd : d ≤ 9 := by
        rcases hg.1 with h0 | hv
        · omega
        · exact (isValid_digit b r c d hv).2
      exact ih _ (CellsInRange_placeNumber b r c d hd h) hg.2
    | remove r c =>
      simp only [OpsGated] at hg
      exact ih _ (CellsInRange_removeNumber b r c h) hg

/-- C14: on a board obtained by `loadBoard` of a grid with entries in `0..9`
and no repeated non-zero digit in a unit, followed by any sequence of
`removeNumber` calls and of `placeNumber(r, c, d)` calls made while
`isValid(r, c, d)` is true (or with `d = 0`), `isComplete` returns true
exactly when every cell is non-zero, and then every row, column and box holds
each digit `1..9` exactly once. -/
theorem isComplete_filled_and_valid (b0 : SudokuBoard) (g : Fin 9 → Fin 9 → Nat)
    (hr : CellsInRange g) (hn : NoRepeat g) (ops : List BoardOp)
    (hg : OpsGated (b0.loadBoard g) ops) :
    ((runOps (b0.loadBoard g) ops).isComplete = true ↔
      ∀ r c, (runOps (b0.loadBoard g) ops).grid r c ≠ 0) ∧
    ((runOps (b0.loadBoard g) ops).isComplete = true →
      EachDigitOnce (runOps (b0.loadBoard g) ops).grid) := by
  refine ⟨isComplete_iff _, ?_⟩
  intro hc
  have hv := loadBoard_valid b0 g hn
  obtain ⟨_, hn'⟩ := invariants_runOps ops (b0.loadBoard g) hv.1 hv.2.1 hg
  have hr' : CellsInRange (runOps (b0.loadBoard g) ops).grid :=
    CellsInRange_runOps ops (b0.loadBoard g) (by rw [loadBoard_grid]; exact hr) hg
  exact eachDigitOnce_of_full _ ((isComplete_iff _).1 hc) hr' hn'

/-- Witness of `isComplete_filled_and_valid`: `nearGrid` loaded, then its two
blank cells filled by gated placements. -/
theorem isComplete_filled_and_valid_witness :
    OpsGated (new.loadBoard nearGrid) [BoardOp.place 0 0 4, BoardOp.place 8 8 9] ∧
    (runOps (new.loadBoard nearGrid) [BoardOp.place 0 0 4, BoardOp.place 8 8 9]).isComplete
      = true ∧
    EachDigitOnce
      (runOps (new.loadBoard nearGrid) [BoardOp.place 0 0 4, BoardOp.place 8 8 9]).grid :=
  ⟨by simp only [OpsGated]; decide, by decide,
   (isComplete_filled_and_valid new nearGrid (by decide) nearGrid_noRepeat
      [BoardOp.place 0 0 4, BoardOp.place 8 8 9] (by simp only [OpsGated]; decide)).2
      (by decide)⟩

/-! ## Counters and mode during deduction -/

namespace Solver

theorem applyNakedSingles_place (s s1 : Solver) (h : applyNakedSingles s = (true, s1)) :
    ∃ (r c : Fin 9) (d : Nat), s1 = s.logicPlace r c d := by
  obtain ⟨r, c, d, _, _, _, h1⟩ := nakedLoop_true s allCells s1 h
  exact ⟨r, c, d, h1⟩

theorem hiddenRows_place (s : Solver) (rows : List (Fin 9)) (s1 : Solver)
    (h : hiddenRows s rows = some s1) : ∃ (r c : Fin 9) (d : Nat), s1 = s.logicPlace r c d := by
  induction rows with
  | nil => simp [hiddenRows] at h
  | cons r rest ih =>
    unfold hiddenRows at h
    dsimp only at h
    split at h
    · simp only [Option.some.injEq] at h
      exact ⟨_, _, _, h.symm⟩
    · exact ih h

theorem hiddenCols_place (s : Solver) (cols : List (Fin 9)) (s1 : Solver)
    (h : hiddenCols s cols = some s1) : ∃ (r c : Fin 9) (d : Nat), s1 = s.logicPlace r c d := by
  induction cols with
  | nil => simp [hiddenCols] at h
  | cons c rest ih =>
    unfold hiddenCols at h
    dsimp only at h
    split at h
    · simp only [Option.some.injEq] at h
      exact ⟨_, _, _, h.symm⟩
    · exact ih h

theorem hiddenBoxes_place (s : Solver) (boxes : List (Fin 3 × Fin 3)) (s1 : Solver)
    (h : hiddenBoxes s boxes = some s1) :
    ∃ (r c : Fin 9) (d : Nat), s1 = s.logicPlace r c d := by
  induction boxes with
  | nil => simp [hiddenBoxes] at h
  | cons bx rest ih =>
    unfold hiddenBoxes at h
    dsimp only at h
    split at h
    · simp only [Option.some.injEq] at h
      exact ⟨_, _, _, h.symm⟩
    · exact ih h

theorem applyHiddenSingles_place (s s1 : Solver) (h : applyHiddenSingles s = (true, s1)) :
    ∃ (r c : Fin 9) (d : Nat), s1 = s.logicPlace r c d := by
  unfold applyHiddenSingles at h
  split at h
  · rename_i s2 h2
    simp only [Prod.mk.injEq, true_and] at h
    subst h
    exact hiddenRows_place s _ _ h2
  · split at h
    · rename_i s2 h2
      simp only [Prod.mk.injEq, true_and] at h
      subst h
      exact hiddenCols_place s _ _ h2
    · split at h
      · rename_i s2 h2
        simp only [Prod.mk.injEq, true_and] at h
        subst h
        exact hiddenBoxes_place s _ _ h2
      · simp at h

/-- Deduction changes neither the search counters nor the mode, and ends in a
state where neither rule fires; its result is `isComplete` of the final board. -/
theorem solveHumanistic_frame :
    ∀ (fuel : Nat) (s : Solver) (res : Bool) (s' : Solver),
      solveHumanistic fuel s = some (res, s') →
        s'.recursionCount = s.recursionCount ∧ s'.backtrackCount = s.backtrackCount ∧
        s'.currentMode = s.currentMode ∧ s.logicCount ≤ s'.logicCount ∧
        (applyNakedSingles s').1 = false ∧ (applyHiddenSingles s').1 = false ∧
        res = s'.board.isComplete := by
  intro fuel
  induction fuel with
  | zero => intro s res s' h; simp [solveHumanistic] at h
  | succ fuel ih =>
    intro s res s' h
    unfold solveHumanistic at h
    split at h
    · rename_i s1 h1
      obtain ⟨r, c, d, rfl⟩ := applyNakedSingles_place s s1 h1
      obtain ⟨g1, g2, g3, g4, g5⟩ := ih _ res s' h
      refine ⟨g1, g2, g3, ?_, g5⟩
      simp only [logicPlace] at g4
      omega
    · rename_i s1 h1
      have e1 := applyNakedSingles_false s s1 h1
      subst e1
      split at h
      · rename_i s2 h2
        obtain ⟨r, c, d, rfl⟩ := applyHiddenSingles_place s1 s2 h2
        obtain ⟨g1, g2, g3, g4, g5⟩ := ih _ res s' h
        refine ⟨g1, g2, g3, ?_, g5⟩
        simp only [logicPlace] at g4
        omega
      · rename_i s2 h2
        have e2 := applyHiddenSingles_false s1 s2 h2
        subst e2
        simp only [Option.some.injEq, Prod.mk.injEq] at h
        obtain ⟨hr, hs⟩ := h
        subst hs
        refine ⟨rfl, rfl, rfl, le_refl _, ?_, ?_, hr.symm⟩
        · rw [h1]
        · rw [h2]

/-! ## Counters and mode during search -/

theorem tryDigits_logicCount (recurse : Solver → Option (Bool × Solver)) (row col : Fin 9)
    (hrec : ∀ t res t', recurse t = some (res, t') →
      t'.logicCount = t.logicCount ∧ t'.currentMode = t.currentMode) :
    ∀ (L : List Nat) (s : Solver) (res : Bool) (s' : Solver),
      tryDigits recurse row col L s = some (res, s') →
        s'.logicCount = s.logicCount ∧ s'.currentMode = s.currentMode := by
  intro L
  induction L with
  | nil =>
    intro s res s' h
    simp only [tryDigits, Option.some.injEq, Prod.mk.injEq] at h
    rw [h.2]
    exact ⟨rfl, rfl⟩
  | cons num rest ih =>
    intro s res s' h
    unfold tryDigits at h
    split at h
    · split at h
      · exact Option.noConfusion h
      · rename_i s1 hr
        simp only [Option.some.injEq, Prod.mk.injEq] at h
        rw [← h.2]
        exact hrec { s with board := s.board.placeNumber row col num } true s1 hr
      · rename_i s1 hr
        obtain ⟨k1, k2⟩ := hrec { s with board := s.board.placeNumber row col num } false s1 hr
        obtain ⟨g1, g2⟩ := ih _ res s' h
        exact ⟨g1.trans k1, g2.trans k2⟩
    · exact ih s res s' h

theorem solveRecursive_logicCount :
    ∀ (fuel : Nat) (s : Solver) (res : Bool) (s' : Solver),
      solveRecursive fuel s = some (res, s') →
        s'.logicCount = s.logicCount ∧ s'.currentMode = s.currentMode := by
  intro fuel
  induction fuel with
  | zero => intro s res s' h; simp [solveRecursive] at h
  | succ fuel ih =>
    intro s res s' h
    unfold solveRecursive at h
    simp only at h
    split at h
    · simp only [Option.some.injEq, Prod.mk.injEq] at h
      rw [← h.2]
      exact ⟨rfl, rfl⟩
    · rename_i row col hfb
      exact tryDigits_logicCount (solveRecursive fuel) row col ih digits
        { s with recursionCount := s.recursionCount + 1 } res s' h

theorem solveSearch_logicCount (fuel : Nat) (s : Solver) (res : Bool) (s' : Solver)
    (h : solveSearch fuel s = some (res, s')) :
    s'.logicCount = s.logicCount ∧ s'.currentMode = s.currentMode := by
  unfold solveSearch at h
  split at h
  · simp only [Option.some.injEq, Prod.mk.injEq] at h
    rw [← h.2]
    exact ⟨rfl, rfl⟩
  · split at h
    · exact solveRecursive_logicCount fuel s res s' h
    · simp only [Option.some.injEq, Prod.mk.injEq] at h
      rw [← h.2]
      exact ⟨rfl, rfl⟩

theorem solve_logic (fuel : Nat) (s : Solver) (hm : s.currentMode = Mode.LOGIC_ONLY)
    (res : Bool) (s1 : Solver)
    (hh : solveHumanistic fuel
      { s with recursionCount := 0, backtrackCount := 0, logicCount := 0 } = some (res, s1))
    (hm1 : s1.currentMode = Mode.LOGIC_ONLY) :
    solve fuel s = some (s1.board.isComplete, s1) := by
  unfold solve
  dsimp only
  rw [if_pos (Or.inl hm), hh]
  simp [hm1]

end Solver

/-! ## Mode dispatch -/

/-- Evaluation: LOGIC_ONLY solves the easy grid of `test_solver.cpp` with 45
deduction moves and no search. -/
theorem easyGrid_logic_result :
    (solve 82 ((init (new.loadBoard easyGrid)).setMode Mode.LOGIC_ONLY)).map
      (fun x => (x.1, x.2.recursionCount, x.2.backtrackCount, x.2.logicCount))
      = some (true, 0, 0, 45) := by
  decide

/-- C15: on a board in which no empty cell is fixed, `solve` in LOGIC_ONLY
mode, given fuel above the number of empty cells, returns the state reached by
deduction at its fixed point (neither rule fires any more); the result is true
exactly when that board is complete, and `recursionCount` and
`backtrackCount` are 0 after the call whatever the result. -/
theorem logic_only_never_backtracks (s : Solver) (hnef : NoEmptyFixed s.board) (fuel : Nat)
    (hfuel : emptyCount s.board < fuel) :
    ∃ (res : Bool) (s' : Solver),
      solve fuel (s.setMode Mode.LOGIC_ONLY) = some (res, s') ∧
      solveHumanistic fuel
        { s.setMode Mode.LOGIC_ONLY with
          recursionCount := 0, backtrackCount := 0, logicCount := 0 } = some (res, s') ∧
      (applyNakedSingles s').1 = false ∧ (applyHiddenSingles s').1 = false ∧
      (res = true ↔ s'.board.isComplete = true) ∧
      s'.recursionCount = 0 ∧ s'.backtrackCount = 0 := by
  have hsome := solveHumanistic_isSome fuel
    { s.setMode Mode.LOGIC_ONLY with
      recursionCount := 0, backtrackCount := 0, logicCount := 0 } hnef hfuel
  cases hh : solveHumanistic fuel
    { s.setMode Mode.LOGIC_ONLY with
      recursionCount := 0, backtrackCount := 0, logicCount := 0 } with
  | none => rw [hh] at hsome; simp at hsome
  | some x =>
    obtain ⟨res, s'⟩ := x
    obtain ⟨g1, g2, g3, _, g5, g6, g7⟩ := solveHumanistic_frame fuel _ res s' hh
    have hm : s'.currentMode = Mode.LOGIC_ONLY := g3
    refine ⟨res, s', ?_, rfl, g5, g6, by rw [g7], g1, g2⟩
    rw [solve_logic fuel (s.setMode Mode.LOGIC_ONLY) rfl res s' hh hm, g7]

/-- Witness of `logic_only_never_backtracks`: the easy grid of
`test_solver.cpp` is solved by deduction alone, with both search counters
at 0. -/
theorem logic_only_never_backtracks_witness :
    (solve 82 ((init (new.loadBoard easyGrid)).setMode Mode.LOGIC_ONLY)).map
      (fun x => (x.1, x.2.recursionCount, x.2.backtrackCount, x.2.logicCount))
      = some (true, 0, 0, 45) ∧
    ∃ (res : Bool) (s' : Solver),
      solve 82 ((init (new.loadBoard easyGrid)).setMode Mode.LOGIC_ONLY) = some (res, s') ∧
      (res = true ↔ s'.board.isComplete = true) ∧
      s'.recursionCount = 0 ∧ s'.backtrackCount = 0 := by
  refine ⟨easyGrid_logic_result, ?_⟩
  obtain ⟨res, s', h1, _, _, _, h5, h6, h7⟩ :=
    logic_only_never_backtracks (init (new.loadBoard easyGrid))
      (loadBoard_valid new easyGrid easyGrid_noRepeat).2.2 82 (emptyCount_lt _)
  exact ⟨res, s', h1, h5, h6, h7⟩

/-- C16: on a valid board with cells in `0..9`, whenever `solve` in LOGIC_ONLY
mode returns true, `solve` in BACKTRACK_ONLY mode from the same initial board,
given fuel above the number of empty cells, returns true with a complete
board; and on every board whatsoever `logicCount` is 0 after a BACKTRACK_ONLY
`solve`. -/
theorem backtrack_only_skips_deduction :
    (∀ (s : Solver) (fuelL : Nat) (s1 : Solver), ValidBoard s.board →
      CellsInRange s.board.grid →
      solve fuelL (s.setMode Mode.LOGIC_ONLY) = some (true, s1) →
      ∀ fuel, emptyCount s.board < fuel →
        ∃ s2, solve fuel (s.setMode Mode.BACKTRACK_ONLY) = some (true, s2) ∧
          s2.board.isComplete = true) ∧
    (∀ (s : Solver) (fuel : Nat) (res : Bool) (s' : Solver),
      solve fuel (s.setMode Mode.BACKTRACK_ONLY) = some (res, s') → s'.logicCount = 0) := by
  constructor
  · intro s fuelL s1 hv hr hL fuel hfuel
    obtain ⟨hg, hfull⟩ := solve_true fuelL (s.setMode Mode.LOGIC_ONLY) s1 hv hL
    have hS : IsCompletion s.board.grid s1.board.grid :=
      completion_of_grows s.board s1.board hr hg hfull
    rw [solve_backtrack fuel (s.setMode Mode.BACKTRACK_ONLY) rfl]
    obtain ⟨s2, hs2⟩ := solveSearch_complete fuel
      { s.setMode Mode.BACKTRACK_ONLY with
        recursionCount := 0, backtrackCount := 0, logicCount := 0 }
      s1.board.grid hv hS hfuel (Or.inl rfl)
    refine ⟨s2, hs2, ?_⟩
    obtain ⟨_, hfull2⟩ := solveSearch_sound fuel
      { s.setMode Mode.BACKTRACK_ONLY with
        recursionCount := 0, backtrackCount := 0, logicCount := 0 } s2 hv hs2
    exact (isComplete_iff _).2 hfull2
  · intro s fuel res s' h
    rw [solve_backtrack fuel (s.setMode Mode.BACKTRACK_ONLY) rfl] at h
    exact (solveSearch_logicCount fuel
      { s.setMode Mode.BACKTRACK_ONLY with
        recursionCount := 0, backtrackCount := 0, logicCount := 0 } res s' h).1

/-- Witness of `backtrack_only_skips_deduction`: the easy grid, which
LOGIC_ONLY solves, is also solved by BACKTRACK_ONLY. -/
theorem backtrack_only_skips_deduction_witness :
    (solve 82 ((init (new.loadBoard easyGrid)).setMode Mode.LOGIC_ONLY)).map
      (fun x => (x.1, x.2.recursionCount, x.2.backtrackCount, x.2.logicCount))
      = some (true, 0, 0, 45) ∧
    ∃ s2, solve 82 ((init (new.loadBoard easyGrid)).setMode Mode.BACKTRACK_ONLY)
        = some (true, s2) ∧ s2.board.isComplete = true ∧ s2.logicCount = 0 := by
  have hL := easyGrid_logic_result
  refine ⟨hL, ?_⟩
  cases hs : solve 82 ((init (new.loadBoard easyGrid)).setMode Mode.LOGIC_ONLY) with
  | none => rw [hs] at hL; simp at hL
  | some x =>
    obtain ⟨res, s1⟩ := x
    rw [hs] at hL
    simp only [Option.map_some', Option.some.injEq, Prod.mk.injEq] at hL
    obtain ⟨hres, _⟩ := hL
    subst hres
    obtain ⟨s2, h1, h2⟩ := backtrack_only_skips_deduction.1 (init (new.loadBoard easyGrid)) 82 s1
      (loadBoard_valid new easyGrid easyGrid_noRepeat)
      (by show CellsInRange (new.loadBoard easyGrid).grid
          rw [loadBoard_grid]; decide)
      hs 82 (emptyCount_lt _)
    exact ⟨s2, h1, h2, backtrack_only_skips_deduction.2 _ 82 true s2 h1⟩

/-- C17: for every board, mode and prior counter values, `solve` started with
counters `a`, `b`, `c` gives the same result and the same final state,
counters included, as `solve` started with all three counters at zero; so a
second `solve` call on the state left by a first one reports counters for the
second call only. -/
theorem solve_resets_counters (s : Solver) (fuel : Nat) :
    (∀ a b c : Nat,
      solve fuel { s with recursionCount := a, backtrackCount := b, logicCount := c } =
        solve fuel { s with recursionCount := 0, backtrackCount := 0, logicCount := 0 }) ∧
    (∀ (res1 : Bool) (s1 : Solver), solve fuel s = some (res1, s1) →
      ∀ fuel2, solve fuel2 s1 =
        solve fuel2 { s1 with recursionCount := 0, backtrackCount := 0, logicCount := 0 }) :=
  ⟨fun _ _ _ => rfl, fun _ _ _ _ => rfl⟩

/-! ## solveRandomized -/

namespace Solver

theorem tryShuffled_logicCount (recurse : Solver × Nat → Option (Bool × Solver × Nat))
    (row col : Fin 9)
    (hrec : ∀ t res t' k', recurse t = some (res, t', k') → t'.logicCount = t.1.logicCount) :
    ∀ (L : List Nat) (st : Solver × Nat) (res : Bool) (s' : Solver) (k' : Nat),
      tryShuffled recurse row col L st = some (res, s', k') →
        s'.logicCount = st.1.logicCount := by
  intro L
  induction L with
  | nil =>
    intro st res s' k' h
    simp only [tryShuffled, Option.some.injEq, Prod.mk.injEq] at h
    rw [h.2.1]
  | cons num rest ih =>
    intro st res s' k' h
    unfold tryShuffled at h
    split at h
    · split at h
      · exact Option.noConfusion h
      · rename_i s1 k1 hr
        simp only [Option.some.injEq, Prod.mk.injEq] at h
        rw [← h.2.1]
        exact hrec ({ st.1 with board := st.1.board.placeNumber row col num }, st.2) true s1 k1 hr
      · rename_i s1 k1 hr
        have e1 := hrec ({ st.1 with board := st.1.board.placeNumber row col num }, st.2)
          false s1 k1 hr
        have e2 := ih _ res s' k' h
        exact e2.trans e1
    · exact ih st res s' k' h

theorem solveRecursiveRandomized_logicCount (shuffles : Nat → List Nat) :
    ∀ (fuel : Nat) (st : Solver × Nat) (res : Bool) (s' : Solver) (k' : Nat),
      solveRecursiveRandomized shuffles fuel st = some (res, s', k') →
        s'.logicCount = st.1.logicCount := by
  intro fuel
  induction fuel with
  | zero => intro st res s' k' h; simp [solveRecursiveRandomized] at h
  | succ fuel ih =>
    intro st res s' k' h
    unfold solveRecursiveRandomized at h
    simp only at h
    split at h
    · simp only [Option.some.injEq, Prod.mk.injEq] at h
      rw [← h.2.1]
    · rename_i row col hfb
      exact tryShuffled_logicCount (solveRecursiveRandomized shuffles fuel) row col ih
        (shuffles st.2) ({ st.1 with recursionCount := st.1.recursionCount + 1 }, st.2 + 1)
        res s' k' h

/-- Whatever the shuffles, `solveRandomized` leaves `logicCount` at the value
it had before the call. -/
theorem solveRandomized_logicCount (shuffles : Nat → List Nat) (fuel : Nat) (s : Solver)
    (res : Bool) (s' : Solver) (h : solveRandomized shuffles fuel s = some (res, s')) :
    s'.logicCount = s.logicCount := by
  unfold solveRandomized at h
  dsimp only at h
  split at h
  · exact Option.noConfusion h
  · rename_i r1 s1 k1 h1
    simp only [Option.some.injEq, Prod.mk.injEq] at h
    rw [← h.2]
    exact solveRecursiveRandomized_logicCount shuffles fuel
      ({ s with recursionCount := 0, backtrackCount := 0 }, 0) r1 s1 k1 h1

end Solver

/-- C18, failing input: after a HYBRID `solve` of `nearGrid` the solver holds
`logicCount = 2`; `solveRandomized` on that state returns true and resets
`recursionCount` and `backtrackCount`, but `logicCount` is still 2, not 0. -/
theorem solveRandomized_keeps_logicCount :
    solve 3 (init (new.loadBoard nearGrid)) =
      some (true, ((init (new.loadBoard nearGrid)).logicPlace 0 0 4).logicPlace 8 8 9) ∧
    solveRandomized (fun _ => digits) 1
        (((init (new.loadBoard nearGrid)).logicPlace 0 0 4).logicPlace 8 8 9) =
      some (true,
        { ((init (new.loadBoard nearGrid)).logicPlace 0 0 4).logicPlace 8 8 9 with
          recursionCount := 1, backtrackCount := 0 }) ∧
    ({ ((init (new.loadBoard nearGrid)).logicPlace 0 0 4).logicPlace 8 8 9 with
        recursionCount := 1, backtrackCount := 0 } : Solver).logicCount = 2 :=
  ⟨by rfl, by rfl, by rfl⟩

/-! ## estimateDifficulty -/

theorem foldl_count (p : Fin 9 × Fin 9 → Prop) [DecidablePred p] (L : List (Fin 9 × Fin 9)) :
    ∀ n : Nat, L.foldl (fun (n : Nat) q => if p q then n + 1 else n) n =
      n + L.countP (fun q => decide (p q)) := by
  induction L with
  | nil => intro n; simp
  | cons a L ih =>
    intro n
    rw [List.foldl_cons, ih, List.countP_cons]
    by_cases ha : p a
    · simp only [ha, if_true, decide_True]
      omega
    · simp [ha]

theorem countEmpty_eq (b : SudokuBoard) : countEmpty b = emptyCount b := by
  unfold countEmpty emptyCount
  rw [foldl_count (fun q => b.getValue q.1 q.2 = 0) allCells 0]
  simp only [getValue, Nat.zero_add]
  congr 1

/-- C19: for every board and every backtrack count, `estimateDifficulty`
returns the value of the two-tier rule of the specification applied to the
backtrack count and the number of empty cells, and never UNKNOWN; being a
function of the solver state to a difficulty, it changes neither board nor
counters. -/
theorem estimateDifficulty_eq_reference (s : Solver) :
    estimateDifficulty s = difficultyReference s.backtrackCount (emptyCount s.board) ∧
    estimateDifficulty s ≠ Difficulty.UNKNOWN := by
  unfold estimateDifficulty difficultyReference
  rw [countEmpty_eq]
  dsimp only
  constructor
  · split_ifs <;> first | rfl | omega
  · split_ifs <;> simp

/-! ## findBestCell -/

theorem candidateCount_eq (b : SudokuBoard) (r c : Fin 9) :
    candidateCount b r c = countSetBits (getCandidates b r c) := by
  rw [countSetBits_getCandidates]
  unfold candidateCount
  have hnd : digits.Nodup := digits_nodup
  rw [List.countP_eq_length_filter, ← List.toFinset_card_of_nodup (hnd.filter _)]
  congr 1
  ext n
  simp only [List.mem_toFinset, List.mem_filter, mem_digits, Finset.mem_filter, Finset.mem_range]
  constructor
  · rintro ⟨h1, h2⟩
    exact ⟨by omega, h2⟩
  · rintro ⟨_, h2⟩
    exact ⟨isValid_digit b r c n h2, h2⟩

/-- Whenever the board has an empty cell, `findBestCell` returns true and the
cell it selects is empty. -/
theorem findBestCell_isSome (b : SudokuBoard) (h : ∃ r c, b.grid r c = 0) :
    ∃ p, findBestCell b = some p ∧ b.grid p.1 p.2 = 0 := by
  cases hf : findBestCell b with
  | none =>
    obtain ⟨r, c, hrc⟩ := h
    exact absurd hrc (findBestCell_none b hf r c)
  | some p => exact ⟨p, rfl, findBestCell_some b p hf⟩

/-- C20, failing input: on the board loaded from `mrvGrid`, a grid without
repeated digit, `findBestCell` returns true and selects the empty cell `(0,0)`,
which has one legal candidate, although the empty cell `(8,8)` has none. -/
theorem findBestCell_not_minimal :
    NoRepeat mrvGrid ∧
    findBestCell (new.loadBoard mrvGrid) = some (0, 0) ∧
    (new.loadBoard mrvGrid).grid 0 0 = 0 ∧
    candidateCount (new.loadBoard mrvGrid) 0 0 = 1 ∧
    (new.loadBoard mrvGrid).grid 8 8 = 0 ∧
    candidateCount (new.loadBoard mrvGrid) 8 8 = 0 ∧
    ¬ candidateCount (new.loadBoard mrvGrid) 0 0 ≤ candidateCount (new.loadBoard mrvGrid) 8 8 := by
  refine ⟨by decide, by decide, by decide, by decide, by decide, by decide, by decide⟩

/-! ## Deduction: what a call does -/

namespace Solver

theorem logicPlace_of_step (s s1 : Solver) (hstep : DeductionStep s.board s1.board)
    (hplace : ∃ (r c : Fin 9) (d : Nat), s1 = s.logicPlace r c d) :
    ∃ (r c : Fin 9) (d : Nat), s.board.grid r c = 0 ∧
      s.board.isValid (r.val : Int) (c.val : Int) (d : Int) = true ∧
      s1 = s.logicPlace r c d ∧
      (ValidBoard s.board → ∀ S, IsCompletion s.board.grid S → S r c = d) := by
  obtain ⟨r, c, d, hg, hv, hb, hf⟩ := hstep
  obtain ⟨r', c', d', rfl⟩ := hplace
  refine ⟨r, c, d, hg, hv, ?_, hf⟩
  simp only [logicPlace] at hb ⊢
  rw [hb]

/-- What a call of `applyNakedSingles` does: nothing when it returns false, one
`placeNumber` of a legal digit in an empty cell when it returns true. -/
theorem applyNakedSingles_spec (s : Solver) (ret : Bool) (s1 : Solver)
    (h : applyNakedSingles s = (ret, s1)) :
    (ret = false → s1 = s) ∧
    (ret = true → ∃ (r c : Fin 9) (d : Nat), s.board.grid r c = 0 ∧
      s.board.isValid (r.val : Int) (c.val : Int) (d : Int) = true ∧
      s1 = s.logicPlace r c d ∧
      (ValidBoard s.board → ∀ S, IsCompletion s.board.grid S → S r c = d)) := by
  constructor
  · rintro rfl
    exact applyNakedSingles_false s s1 h
  · rintro rfl
    exact logicPlace_of_step s s1 (applyNakedSingles_true s s1 h).1
      (applyNakedSingles_place s s1 h)

/-- What a call of `applyHiddenSingles` does, in its row, column and box
cases alike. -/
theorem applyHiddenSingles_spec (s : Solver) (ret : Bool) (s1 : Solver)
    (h : applyHiddenSingles s = (ret, s1)) :
    (ret = false → s1 = s) ∧
    (ret = true → ∃ (r c : Fin 9) (d : Nat), s.board.grid r c = 0 ∧
      s.board.isValid (r.val : Int) (c.val : Int) (d : Int) = true ∧
      s1 = s.logicPlace r c d ∧
      (ValidBoard s.board → ∀ S, IsCompletion s.board.grid S → S r c = d)) := by
  constructor
  · rintro rfl
    exact applyHiddenSingles_false s s1 h
  · rintro rfl
    exact logicPlace_of_step s s1 (applyHiddenSingles_true s s1 h).1
      (applyHiddenSingles_place s s1 h)

end Solver

/-- C21: on every board, a call of `applyNakedSingles` or of
`applyHiddenSingles` that returns false leaves the state unchanged, and a call
that returns true has made exactly one `placeNumber(r, c, d)`, at a cell that
was empty and with `isValid(r, c, d)` true on the board before the call; when
the cell is mutable the grid afterwards differs from the grid before in that
one cell, which holds `d`. -/
theorem deduction_sound (s : Solver) (ret : Bool) (s1 : Solver)
    (h : applyNakedSingles s = (ret, s1) ∨ applyHiddenSingles s = (ret, s1)) :
    (ret = false → s1 = s) ∧
    (ret = true → ∃ (r c : Fin 9) (d : Nat), s.board.grid r c = 0 ∧
      s.board.isValid (r.val : Int) (c.val : Int) (d : Int) = true ∧
      s1 = s.logicPlace r c d ∧
      (s.board.fixed r c = false → s1.board.grid = set2 s.board.grid r c d)) := by
  have key : (ret = false → s1 = s) ∧
      (ret = true → ∃ (r c : Fin 9) (d : Nat), s.board.grid r c = 0 ∧
        s.board.isValid (r.val : Int) (c.val : Int) (d : Int) = true ∧
        s1 = s.logicPlace r c d ∧
        (ValidBoard s.board → ∀ S, IsCompletion s.board.grid S → S r c = d)) := by
    rcases h with h | h
    · exact applyNakedSingles_spec s ret s1 h
    · exact applyHiddenSingles_spec s ret s1 h
  refine ⟨key.1, fun hret => ?_⟩
  obtain ⟨r, c, d, hg, hv, hs, _⟩ := key.2 hret
  refine ⟨r, c, d, hg, hv, hs, fun hf => ?_⟩
  rw [hs]
  exact placeNumber_grid s.board r c d hf

/-- Witness of `deduction_sound`: on the board loaded from `nearGrid`,
`applyNakedSingles` places 4 at `(0,0)`. -/
theorem deduction_sound_witness :
    applyNakedSingles (init (new.loadBoard nearGrid)) =
      (true, (init (new.loadBoard nearGrid)).logicPlace 0 0 4) ∧
    ∃ (r c : Fin 9) (d : Nat), (new.loadBoard nearGrid).grid r c = 0 ∧
      (new.loadBoard nearGrid).isValid (r.val : Int) (c.val : Int) (d : Int) = true ∧
      (init (new.loadBoard nearGrid)).logicPlace 0 0 4 =
        (init (new.loadBoard nearGrid)).logicPlace r c d :=
  ⟨by rfl, by
    obtain ⟨r, c, d, h1, h2, h3, _⟩ :=
      (deduction_sound (init (new.loadBoard nearGrid)) true
        ((init (new.loadBoard nearGrid)).logicPlace 0 0 4) (Or.inl (by rfl))).2 rfl
    exact ⟨r, c, d, h1, h2, h3⟩⟩

/-- C26: on a valid board, for every complete valid grid `S` that agrees with
all non-empty cells of the board, `S` still agrees with every non-empty cell
after `applyNakedSingles`, after `applyHiddenSingles` and after
`solveHumanistic`. -/
theorem deduction_preserves_solutions (s : Solver) (S : Fin 9 → Fin 9 → Nat)
    (hv : ValidBoard s.board) (hS : IsCompletion s.board.grid S) :
    (∀ ret s1, applyNakedSingles s = (ret, s1) → Extends s1.board.grid S) ∧
    (∀ ret s1, applyHiddenSingles s = (ret, s1) → Extends s1.board.grid S) ∧
    (∀ fuel res s', solveHumanistic fuel s = some (res, s') → Extends s'.board.grid S) := by
  refine ⟨?_, ?_, ?_⟩
  · intro ret s1 h
    cases ret with
    | false => rw [applyNakedSingles_false s s1 h]; exact hS.2
    | true =>
      exact (DeductionStep_completion hv (applyNakedSingles_true s s1 h).1 S hS).2
  · intro ret s1 h
    cases ret with
    | false => rw [applyHiddenSingles_false s s1 h]; exact hS.2
    | true =>
      exact (DeductionStep_completion hv (applyHiddenSingles_true s s1 h).1 S hS).2
  · intro fuel res s' h
    exact ((solveHumanistic_sound fuel s res s' hv h).2.2.1 S hS).2

/-- Witness of `deduction_preserves_solutions`: the easy grid and its
completion. -/
theorem deduction_preserves_solutions_witness :
    IsCompletion (init (new.loadBoard easyGrid)).board.grid easySolution ∧
    (∀ ret s1, applyNakedSingles (init (new.loadBoard easyGrid)) = (ret, s1) →
      Extends s1.board.grid easySolution) ∧
    (∀ fuel res s', solveHumanistic fuel (init (new.loadBoard easyGrid)) = some (res, s') →
      Extends s'.board.grid easySolution) :=
  ⟨⟨easySolution_once, by
      show Extends (new.loadBoard easyGrid).grid easySolution
      rw [loadBoard_grid]; decide⟩,
   (deduction_preserves_solutions (init (new.loadBoard easyGrid)) easySolution
      (loadBoard_valid new easyGrid easyGrid_noRepeat)
      ⟨easySolution_once, by
        show Extends (new.loadBoard easyGrid).grid easySolution
        rw [loadBoard_grid]; decide⟩).1,
   (deduction_preserves_solutions (init (new.loadBoard easyGrid)) easySolution
      (loadBoard_valid new easyGrid easyGrid_noRepeat)
      ⟨easySolution_once, by
        show Extends (new.loadBoard easyGrid).grid easySolution
        rw [loadBoard_grid]; decide⟩).2.2⟩

/-! ## Deduction: the fixed point -/

theorem countP_eq_one_of_existsUnique {α : Type} [DecidableEq α] (P : α → Bool)
    (L : List α) (hnd : L.Nodup) (h : ∃! x, x ∈ L ∧ P x = true) : L.countP P = 1 := by
  obtain ⟨a, ⟨ha, hPa⟩, huniq⟩ := h
  rw [List.countP_eq_length_filter, ← List.toFinset_card_of_nodup (hnd.filter _)]
  have : (L.filter P).toFinset = {a} := by
    ext x
    simp only [List.mem_toFinset, List.mem_filter, Finset.mem_singleton]
    constructor
    · intro hx; exact huniq x hx
    · rintro rfl; exact ⟨ha, hPa⟩
  rw [this, Finset.card_singleton]

namespace Solver

/-- The count kept by the scan of a unit is the number of its empty cells in
which the digit is a candidate. -/
theorem foldl_tallyCell_counts (b : SudokuBoard) (n : Nat) (cells : List (Fin 9 × Fin 9)) :
    ∀ t : Tally, (cells.foldl (tallyCell b) t).counts n =
      t.counts n + cells.countP (fun p =>
        decide (b.grid p.1 p.2 = 0) && b.isValid (p.1.val : Int) (p.2.val : Int) (n : Int)) := by
  induction cells with
  | nil => intro t; simp
  | cons a cells ih =>
    intro t
    rw [List.foldl_cons, ih, (tallyCell_spec b t a n).1, List.countP_cons]
    by_cases hc : b.grid a.1 a.2 = 0 ∧
        b.isValid (a.1.val : Int) (a.2.val : Int) (n : Int) = true
    · simp only [hc, and_self, if_true, decide_True, Bool.and_self]
      omega
    · rw [if_neg hc]
      have : (decide (b.grid a.1 a.2 = 0) &&
          b.isValid (a.1.val : Int) (a.2.val : Int) (n : Int)) = false := by
        by_cases h0 : b.grid a.1 a.2 = 0
        · have : b.isValid (a.1.val : Int) (a.2.val : Int) (n : Int) = false := by
            by_contra hv
            exact hc ⟨h0, by simpa using hv⟩
          simp [this]
        · simp [h0]
      simp [this]

theorem tallyUnit_not_single (b : SudokuBoard) (cells : List (Fin 9 × Fin 9)) (n : Nat)
    (hnd : cells.Nodup) (hc : (tallyUnit b cells).counts n ≠ 1) :
    ¬ ∃! p, p ∈ cells ∧ (b.grid p.1 p.2 = 0 ∧
      b.isValid (p.1.val : Int) (p.2.val : Int) (n : Int) = true) := by
  intro h
  apply hc
  unfold tallyUnit
  rw [foldl_tallyCell_counts]
  simp only [Tally.zero, Nat.zero_add]
  apply countP_eq_one_of_existsUnique _ _ hnd
  obtain ⟨p, ⟨hp, hq⟩, huniq⟩ := h
  refine ⟨p, ⟨hp, by simp [hq.1, hq.2]⟩, ?_⟩
  rintro q ⟨hq1, hq2⟩
  simp only [Bool.and_eq_true, decide_eq_true_eq] at hq2
  exact huniq q ⟨hq1, hq2⟩

theorem firstSingle_none (t : Tally) (h : firstSingle t = none) (n : Nat) (h1 : 1 ≤ n)
    (h9 : n ≤ 9) : t.counts n ≠ 1 := by
  unfold firstSingle at h
  rw [List.find?_eq_none] at h
  have := h n ((mem_digits n).2 ⟨h1, h9⟩)
  simpa using this

theorem hiddenRows_none (s : Solver) (rows : List (Fin 9)) (h : hiddenRows s rows = none) :
    ∀ r ∈ rows, firstSingle (tallyUnit s.board (rowCells r)) = none := by
  induction rows with
  | nil => intro r hr; simp at hr
  | cons a rest ih =>
    unfold hiddenRows at h
    dsimp only at h
    split at h
    · exact Option.noConfusion h
    · rename_i hnone
      intro r hr
      rcases List.mem_cons.1 hr with rfl | hr
      · exact hnone
      · exact ih h r hr

theorem hiddenCols_none (s : Solver) (cols : List (Fin 9)) (h : hiddenCols s cols = none) :
    ∀ c ∈ cols, firstSingle (tallyUnit s.board (colCells c)) = none := by
  induction cols with
  | nil => intro r hr; simp at hr
  | cons a rest ih =>
    unfold hiddenCols at h
    dsimp only at h
    split at h
    · exact Option.noConfusion h
    · rename_i hnone
      intro r hr
      rcases List.mem_cons.1 hr with rfl | hr
      · exact hnone
      · exact ih h r hr

theorem hiddenBoxes_none (s : Solver) (boxes : List (Fin 3 × Fin 3))
    (h : hiddenBoxes s boxes = none) :
    ∀ bx ∈ boxes, firstSingle (tallyUnit s.board (boxCells bx.1 bx.2)) = none := by
  induction boxes with
  | nil => intro r hr; simp at hr
  | cons a rest ih =>
    unfold hiddenBoxes at h
    dsimp only at h
    split at h
    · exact Option.noConfusion h
    · rename_i hnone
      intro r hr
      rcases List.mem_cons.1 hr with rfl | hr
      · exact hnone
      · exact ih h r hr

theorem applyHiddenSingles_none (s : Solver) (h : (applyHiddenSingles s).1 = false) :
    hiddenRows s (List.finRange 9) = none ∧ hiddenCols s (List.finRange 9) = none ∧
      hiddenBoxes s allBoxes = none := by
  unfold applyHiddenSingles at h
  split at h
  · simp at h
  · rename_i h1
    split at h
    · simp at h
    · rename_i h2
      split at h
      · simp at h
      · rename_i h3
        exact ⟨h1, h2, h3⟩

theorem nakedLoop_none (s : Solver) (cells : List (Fin 9 × Fin 9))
    (h : (nakedLoop s cells).1 = false) :
    ∀ p ∈ cells, s.board.grid p.1 p.2 = 0 →
      countSetBits (getCandidates s.board p.1 p.2) ≠ 1 := by
  induction cells with
  | nil => intro p hp; simp at hp
  | cons a rest ih =>
    unfold nakedLoop at h
    intro p hp hg
    split at h
    · rename_i hne
      rcases List.mem_cons.1 hp with rfl | hp
      · exact absurd hg (by simpa [getValue] using hne)
      · exact ih h p hp hg
    · dsimp only at h
      split at h
      · simp at h
      · rename_i hc
        rcases List.mem_cons.1 hp with rfl | hp
        · exact hc
        · exact ih h p hp hg

theorem rowCells_nodup : ∀ r : Fin 9, (rowCells r).Nodup := by decide

theorem colCells_nodup : ∀ c : Fin 9, (colCells c).Nodup := by decide

theorem boxCells_nodup : ∀ br bc : Fin 3, (boxCells br bc).Nodup := by decide

theorem mem_allBoxes (bx : Fin 3 × Fin 3) : bx ∈ allBoxes := by
  revert bx
  decide

/-- A state in which neither deduction rule fires: no empty cell has exactly
one candidate and no unit has a digit with exactly one candidate cell. -/
theorem fixed_point_of_no_progress (s : Solver) (h1 : (applyNakedSingles s).1 = false)
    (h2 : (applyHiddenSingles s).1 = false) :
    (∀ r c, s.board.grid r c = 0 → candidateCount s.board r c ≠ 1) ∧
    (∀ n : Nat, 1 ≤ n → n ≤ 9 →
      (∀ r, ¬ ∃! c, s.board.grid r c = 0 ∧
        s.board.isValid (r.val : Int) (c.val : Int) (n : Int) = true) ∧
      (∀ c, ¬ ∃! r, s.board.grid r c = 0 ∧
        s.board.isValid (r.val : Int) (c.val : Int) (n : Int) = true) ∧
      (∀ br bc, ¬ ∃! p : Fin 9 × Fin 9, div3 p.1 = br ∧ div3 p.2 = bc ∧
        s.board.grid p.1 p.2 = 0 ∧
        s.board.isValid (p.1.val : Int) (p.2.val : Int) (n : Int) = true)) := by
  obtain ⟨k1, k2, k3⟩ := applyHiddenSingles_none s h2
  constructor
  · intro r c hg
    rw [candidateCount_eq]
    exact nakedLoop_none s allCells h1 (r, c) (mem_allCells (r, c)) hg
  · intro n hn1 hn9
    refine ⟨?_, ?_, ?_⟩
    · intro r hex
      have hc := firstSingle_none _ (hiddenRows_none s _ k1 r (List.mem_finRange r)) n hn1 hn9
      apply tallyUnit_not_single s.board (rowCells r) n (rowCells_nodup r) hc
      obtain ⟨c, hc1, hc2⟩ := hex
      refine ⟨(r, c), ⟨(mem_rowCells r _).2 rfl, hc1⟩, ?_⟩
      rintro p ⟨hp1, hp2⟩
      have e1 : p.1 = r := (mem_rowCells r p).1 hp1
      have e2 : p.2 = c := hc2 p.2 (by rw [← e1]; exact hp2)
      exact Prod.ext e1 e2
    · intro c hex
      have hc := firstSingle_none _ (hiddenCols_none s _ k2 c (List.mem_finRange c)) n hn1 hn9
      apply tallyUnit_not_single s.board (colCells c) n (colCells_nodup c) hc
      obtain ⟨r, hr1, hr2⟩ := hex
      refine ⟨(r, c), ⟨(mem_colCells c _).2 rfl, hr1⟩, ?_⟩
      rintro p ⟨hp1, hp2⟩
      have e2 : p.2 = c := (mem_colCells c p).1 hp1
      have e1 : p.1 = r := hr2 p.1 (by rw [← e2]; exact hp2)
      exact Prod.ext e1 e2
    · intro br bc hex
      have hc := firstSingle_none _
        (hiddenBoxes_none s _ k3 (br, bc) (mem_allBoxes (br, bc))) n hn1 hn9
      apply tallyUnit_not_single s.board (boxCells br bc) n (boxCells_nodup br bc) hc
      obtain ⟨p, ⟨hp1, hp2, hp3⟩, huniq⟩ := hex
      refine ⟨p, ⟨(mem_boxCells br bc p).2 ⟨hp1, hp2⟩, hp3⟩, ?_⟩
      rintro q ⟨hq1, hq2⟩
      obtain ⟨e1, e2⟩ := (mem_boxCells br bc q).1 hq1
      exact huniq q ⟨e1, e2, hq2⟩

end Solver

/-- C25: on a board in which no empty cell is fixed, `solveHumanistic`, given
fuel above the number of empty cells, returns; on the final board no empty
cell has exactly one legal candidate and no row, column or box has a digit
that is a legal candidate in exactly one of its empty cells; and the value
returned is `isComplete()` of the final board. -/
theorem deduction_fixed_point (s : Solver) (hnef : NoEmptyFixed s.board) (fuel : Nat)
    (hfuel : emptyCount s.board < fuel) :
    ∃ (res : Bool) (s' : Solver), solveHumanistic fuel s = some (res, s') ∧
      res = s'.board.isComplete ∧
      (∀ r c, s'.board.grid r c = 0 → candidateCount s'.board r c ≠ 1) ∧
      (∀ n : Nat, 1 ≤ n → n ≤ 9 →
        (∀ r, ¬ ∃! c, s'.board.grid r c = 0 ∧
          s'.board.isValid (r.val : Int) (c.val : Int) (n : Int) = true) ∧
        (∀ c, ¬ ∃! r, s'.board.grid r c = 0 ∧
          s'.board.isValid (r.val : Int) (c.val : Int) (n : Int) = true) ∧
        (∀ br bc, ¬ ∃! p : Fin 9 × Fin 9, div3 p.1 = br ∧ div3 p.2 = bc ∧
          s'.board.grid p.1 p.2 = 0 ∧
          s'.board.isValid (p.1.val : Int) (p.2.val : Int) (n : Int) = true)) := by
  have hsome := solveHumanistic_isSome fuel s hnef hfuel
  cases hh : solveHumanistic fuel s with
  | none => rw [hh] at hsome; simp at hsome
  | some x =>
    obtain ⟨res, s'⟩ := x
    obtain ⟨_, _, _, _, g5, g6, g7⟩ := solveHumanistic_frame fuel s res s' hh
    obtain ⟨k1, k2⟩ := fixed_point_of_no_progress s' g5 g6
    exact ⟨res, s', rfl, g7, k1, k2⟩

/-- Witness of `deduction_fixed_point`: the hard grid of `test_solver.cpp`, on
which deduction stops with the board incomplete. -/
theorem deduction_fixed_point_witness :
    (solveHumanistic 82 (init (new.loadBoard hardGrid))).map
      (fun x => (x.1, x.2.logicCount)) = some (false, 1) ∧
    ∃ (res : Bool) (s' : Solver),
      solveHumanistic 82 (init (new.loadBoard hardGrid)) = some (res, s') ∧
      res = s'.board.isComplete ∧
      (∀ r c, s'.board.grid r c = 0 → candidateCount s'.board r c ≠ 1) := by
  refine ⟨by decide, ?_⟩
  obtain ⟨res, s', h1, h2, h3, _⟩ := deduction_fixed_point (init (new.loadBoard hardGrid))
    (loadBoard_valid new hardGrid hardGrid_noRepeat).2.2 82 (emptyCount_lt _)
  exact ⟨res, s', h1, h2, h3⟩

/-! ## Fuel: more fuel gives the same result -/

namespace Solver

theorem tryDigits_mono (recurse recurse' : Solver → Option (Bool × Solver)) (row col : Fin 9)
    (h : ∀ t x, recurse t = some x → recurse' t = some x) :
    ∀ (L : List Nat) (s : Solver) (x : Bool × Solver),
      tryDigits recurse row col L s = some x → tryDigits recurse' row col L s = some x := by
  intro L
  induction L with
  | nil => intro s x hx; simpa [tryDigits] using hx
  | cons num rest ih =>
    intro s x hx
    unfold tryDigits at hx ⊢
    split
    · rename_i hv
      rw [if_pos hv] at hx
      cases hr : recurse { s with board := s.board.placeNumber row col num } with
      | none => rw [hr] at hx; exact Option.noConfusion hx
      | some y =>
        rw [hr] at hx
        rw [h _ y hr]
        obtain ⟨res, s1⟩ := y
        cases res with
        | true => exact hx
        | false => exact ih _ x hx
    · rename_i hv
      rw [if_neg hv] at hx
      exact ih s x hx

theorem solveRecursive_succ :
    ∀ (fuel : Nat) (s : Solver) (x : Bool × Solver),
      solveRecursive fuel s = some x → solveRecursive (fuel + 1) s = some x := by
  intro fuel
  induction fuel with
  | zero => intro s x h; simp [solveRecursive] at h
  | succ fuel ih =>
    intro s x h
    unfold solveRecursive at h ⊢
    simp only at h ⊢
    split
    · rename_i hfb
      rw [hfb] at h
      exact h
    · rename_i row col hfb
      rw [hfb] at h
      exact tryDigits_mono (solveRecursive fuel) (solveRecursive (fuel + 1)) row col ih digits
        { s with recursionCount := s.recursionCount + 1 } x h

theorem solveRecursive_mono (fuel fuel' : Nat) (hle : fuel ≤ fuel') (s : Solver)
    (x : Bool × Solver) (h : solveRecursive fuel s = some x) :
    solveRecursive fuel' s = some x := by
  induction hle with
  | refl => exact h
  | step _ ih => exact solveRecursive_succ _ s x ih

theorem solveHumanistic_succ :
    ∀ (fuel : Nat) (s : Solver) (x : Bool × Solver),
      solveHumanistic fuel s = some x → solveHumanistic (fuel + 1) s = some x := by
  intro fuel
  induction fuel with
  | zero => intro s x h; simp [solveHumanistic] at h
  | succ fuel ih =>
    intro s x h
    unfold solveHumanistic at h ⊢
    split
    · rename_i s1 h1
      rw [h1] at h
      exact ih s1 x h
    · rename_i s1 h1
      rw [h1] at h
      dsimp only at h ⊢
      split
      · rename_i s2 h2
        rw [h2] at h
        exact ih s2 x h
      · rename_i s2 h2
        rw [h2] at h
        exact h

theorem solveHumanistic_mono (fuel fuel' : Nat) (hle : fuel ≤ fuel') (s : Solver)
    (x : Bool × Solver) (h : solveHumanistic fuel s = some x) :
    solveHumanistic fuel' s = some x := by
  induction hle with
  | refl => exact h
  | step _ ih => exact solveHumanistic_succ _ s x ih

theorem solveSearch_mono (fuel fuel' : Nat) (hle : fuel ≤ fuel') (s : Solver)
    (x : Bool × Solver) (h : solveSearch fuel s = some x) : solveSearch fuel' s = some x := by
  unfold solveSearch at h ⊢
  split
  · rename_i hc
    rw [if_pos hc] at h
    exact h
  · rename_i hc
    rw [if_neg hc] at h
    split
    · rename_i hm
      rw [if_pos hm] at h
      exact solveRecursive_mono fuel fuel' hle s x h
    · rename_i hm
      rw [if_neg hm] at h
      exact h

theorem solve_mono (fuel fuel' : Nat) (hle : fuel ≤ fuel') (s : Solver)
    (x : Bool × Solver) (h : solve fuel s = some x) : solve fuel' s = some x := by
  unfold solve at h ⊢
  dsimp only at h ⊢
  split
  · rename_i hm
    rw [if_pos hm] at h
    cases hh : solveHumanistic fuel
        { s with recursionCount := 0, backtrackCount := 0, logicCount := 0 } with
    | none => rw [hh] at h; exact Option.noConfusion h
    | some y =>
      rw [hh] at h
      rw [solveHumanistic_mono fuel fuel' hle _ y hh]
      obtain ⟨res, s1⟩ := y
      dsimp only at h ⊢
      split
      · rename_i hl
        rw [if_pos hl] at h
        exact h
      · rename_i hl
        rw [if_neg hl] at h
        exact solveSearch_mono fuel fuel' hle s1 x h
  · rename_i hm
    rw [if_neg hm] at h
    exact solveSearch_mono fuel fuel' hle _ x h

/-! ## The number of deduction moves -/

theorem solveHumanistic_logicCount :
    ∀ (fuel : Nat) (s : Solver) (res : Bool) (s' : Solver), NoEmptyFixed s.board →
      solveHumanistic fuel s = some (res, s') →
        s'.logicCount + emptyCount s'.board = s.logicCount + emptyCount s.board := by
  intro fuel
  induction fuel with
  | zero => intro s res s' _ h; simp [solveHumanistic] at h
  | succ fuel ih =>
    intro s res s' hnef h
    unfold solveHumanistic at h
    split at h
    · rename_i s1 h1
      obtain ⟨r, c, d, hg, hv, rfl, _⟩ := (applyNakedSingles_spec s true s1 h1).2 rfl
      have hd : d ≠ 0 := by have := isValid_digit s.board r c d hv; omega
      have e1 := emptyCount_placeNumber s.board r c d (hnef r c hg) hg hd
      have e2 := ih _ res s' (NoEmptyFixed_placeNumber s.board r c d hnef) h
      simp only [logicPlace] at e2
      omega
    · rename_i s1 h1
      have e1 := applyNakedSingles_false s s1 h1
      subst e1
      split at h
      · rename_i s2 h2
        obtain ⟨r, c, d, hg, hv, rfl, _⟩ := (applyHiddenSingles_spec s1 true s2 h2).2 rfl
        have hd : d ≠ 0 := by have := isValid_digit s1.board r c d hv; omega
        have e1 := emptyCount_placeNumber s1.board r c d (hnef r c hg) hg hd
        have e2 := ih _ res s' (NoEmptyFixed_placeNumber s1.board r c d hnef) h
        simp only [logicPlace] at e2
        omega
      · rename_i s2 h2
        have e2 := applyHiddenSingles_false s1 s2 h2
        subst e2
        simp only [Option.some.injEq, Prod.mk.injEq] at h
        rw [← h.2]

theorem solve_logicCount_le (fuel : Nat) (s : Solver) (res : Bool) (s' : Solver)
    (hnef : NoEmptyFixed s.board) (h : solve fuel s = some (res, s')) :
    s'.logicCount ≤ emptyCount s.board := by
  unfold solve at h
  dsimp only at h
  split at h
  · split at h
    · exact Option.noConfusion h
    · rename_i r1 s1 h1
      have e1 := solveHumanistic_logicCount fuel
        { s with recursionCount := 0, backtrackCount := 0, logicCount := 0 } r1 s1 hnef h1
      simp only [Nat.zero_add] at e1
      split at h
      · simp only [Option.some.injEq, Prod.mk.injEq] at h
        rw [← h.2]
        omega
      · have := (solveSearch_logicCount fuel s1 res s' h).1
        omega
  · have := (solveSearch_logicCount fuel
      { s with recursionCount := 0, backtrackCount := 0, logicCount := 0 } res s' h).1
    simp only at this
    omega

end Solver

/-- C28: on a board in which no empty cell is fixed, with `E` its number of
empty cells, `solve` returns in every mode as soon as the fuel, which bounds
the iterations of the deduction loop and the nesting of `solveRecursive`
calls, is `E + 1`; more fuel gives the same result; and `logicCount` is at
most `E` after the call. -/
theorem solve_terminates (s : Solver) (mode : Mode) (hnef : NoEmptyFixed s.board) :
    ∃ (res : Bool) (s' : Solver),
      solve (emptyCount s.board + 1) (s.setMode mode) = some (res, s') ∧
      (∀ fuel, emptyCount s.board < fuel → solve fuel (s.setMode mode) = some (res, s')) ∧
      s'.logicCount ≤ emptyCount s.board := by
  have hsome := solve_isSome (emptyCount s.board + 1) (s.setMode mode) hnef (Nat.lt_succ_self _)
  cases hh : solve (emptyCount s.board + 1) (s.setMode mode) with
  | none => rw [hh] at hsome; simp at hsome
  | some x =>
    obtain ⟨res, s'⟩ := x
    refine ⟨res, s', rfl, ?_, ?_⟩
    · intro fuel hfuel
      exact solve_mono _ fuel hfuel (s.setMode mode) (res, s') hh
    · exact solve_logicCount_le _ (s.setMode mode) res s' hnef hh

/-- Witness of `solve_terminates`: the board loaded from `nearGrid` has two
empty cells, and HYBRID `solve` returns with fuel 3 after two deduction moves. -/
theorem solve_terminates_witness :
    emptyCount (new.loadBoard nearGrid) = 2 ∧
    solve 3 ((init (new.loadBoard nearGrid)).setMode Mode.HYBRID) =
      some (true, (((init (new.loadBoard nearGrid)).setMode Mode.HYBRID).logicPlace 0 0
        4).logicPlace 8 8 9) ∧
    ∃ (res : Bool) (s' : Solver),
      solve (emptyCount (new.loadBoard nearGrid) + 1)
        ((init (new.loadBoard nearGrid)).setMode Mode.HYBRID) = some (res, s') ∧
      s'.logicCount ≤ emptyCount (new.loadBoard nearGrid) := by
  refine ⟨by decide, by rfl, ?_⟩
  obtain ⟨res, s', h1, _, h3⟩ := solve_terminates (init (new.loadBoard nearGrid)) Mode.HYBRID
    (loadBoard_valid new nearGrid nearGrid_noRepeat).2.2
  exact ⟨res, s', h1, h3⟩

/-! ## HYBRID against BACKTRACK_ONLY -/

namespace Solver

/-- On a valid board with a completion, `solve` in HYBRID mode returns true. -/
theorem solve_hybrid_complete (fuel : Nat) (s : Solver) (S : Fin 9 → Fin 9 → Nat)
    (hm : s.currentMode = Mode.HYBRID) (hv : ValidBoard s.board)
    (hS : IsCompletion s.board.grid S) (hfuel : emptyCount s.board < fuel) :
    ∃ s', solve fuel s = some (true, s') := by
  have hsome := solveHumanistic_isSome fuel
    { s with recursionCount := 0, backtrackCount := 0, logicCount := 0 } hv.2.2 hfuel
  cases hh : solveHumanistic fuel
    { s with recursionCount := 0, backtrackCount := 0, logicCount := 0 } with
  | none => rw [hh] at hsome; simp at hsome
  | some x =>
    obtain ⟨res, s1⟩ := x
    obtain ⟨g1, _, g3, g4⟩ := solveHumanistic_sound fuel
      { s with recursionCount := 0, backtrackCount := 0, logicCount := 0 } res s1 hv hh
    obtain ⟨k1, k2⟩ := solveHumanistic_emptyCount fuel
      { s with recursionCount := 0, backtrackCount := 0, logicCount := 0 } res s1 hv.2.2 hh
    have hm1 : s1.currentMode = Mode.HYBRID := g4.trans hm
    obtain ⟨s', hs'⟩ := solveSearch_complete fuel s1 S g1.1 (g3 S hS)
      (lt_of_le_of_lt k2 hfuel) (Or.inr hm1)
    refine ⟨s', ?_⟩
    unfold solve
    dsimp only
    rw [if_pos (Or.inr hm), hh]
    simp only [hm1, if_false]
    exact hs'

/-- On a valid board with a completion, `solve` in BACKTRACK_ONLY mode returns
true. -/
theorem solve_backtrack_complete (fuel : Nat) (s : Solver) (S : Fin 9 → Fin 9 → Nat)
    (hm : s.currentMode = Mode.BACKTRACK_ONLY) (hv : ValidBoard s.board)
    (hS : IsCompletion s.board.grid S) (hfuel : emptyCount s.board < fuel) :
    ∃ s', solve fuel s = some (true, s') := by
  rw [solve_backtrack fuel s hm]
  exact solveSearch_complete fuel
    { s with recursionCount := 0, backtrackCount := 0, logicCount := 0 } S hv hS hfuel
    (Or.inl hm)

/-- On a valid board with cells in `0..9` and without completion, `solve`
returns false. -/
theorem solve_false_of_no_completion (fuel : Nat) (s : Solver) (hv : ValidBoard s.board)
    (hr : CellsInRange s.board.grid) (hno : ¬ ∃ S, IsCompletion s.board.grid S)
    (hfuel : emptyCount s.board < fuel) : ∃ s', solve fuel s = some (false, s') := by
  have hsome := solve_isSome fuel s hv.2.2 hfuel
  cases hh : solve fuel s with
  | none => rw [hh] at hsome; simp at hsome
  | some x =>
    obtain ⟨res, s'⟩ := x
    cases res with
    | false => exact ⟨s', rfl⟩
    | true =>
      exfalso
      obtain ⟨hg, hfull⟩ := solve_true fuel s s' hv hh
      exact hno ⟨s'.board.grid, completion_of_grows s.board s'.board hr hg hfull⟩

end Solver

/-- C27: on a valid board with cells in `0..9`, given fuel above the number of
empty cells, `solve` in HYBRID mode and `solve` in BACKTRACK_ONLY mode from the
same initial board return the same truth value; and when the board has exactly
one valid completion both return true and leave the same final grid. -/
theorem hybrid_backtrack_agree (s : Solver) (hv : ValidBoard s.board)
    (hr : CellsInRange s.board.grid) (fuel : Nat) (hfuel : emptyCount s.board < fuel) :
    ∃ (res : Bool) (sH sB : Solver),
      solve fuel (s.setMode Mode.HYBRID) = some (res, sH) ∧
      solve fuel (s.setMode Mode.BACKTRACK_ONLY) = some (res, sB) ∧
      ((∃! S, IsCompletion s.board.grid S) →
        res = true ∧ sH.board.grid = sB.board.grid) := by
  by_cases hex : ∃ S, IsCompletion s.board.grid S
  · obtain ⟨S, hS⟩ := hex
    obtain ⟨sH, hH⟩ := solve_hybrid_complete fuel (s.setMode Mode.HYBRID) S rfl hv hS hfuel
    obtain ⟨sB, hB⟩ := solve_backtrack_complete fuel (s.setMode Mode.BACKTRACK_ONLY) S rfl hv hS
      hfuel
    refine ⟨true, sH, sB, hH, hB, fun huniq => ⟨rfl, ?_⟩⟩
    obtain ⟨g1, g2⟩ := solve_true fuel (s.setMode Mode.HYBRID) sH hv hH
    obtain ⟨k1, k2⟩ := solve_true fuel (s.setMode Mode.BACKTRACK_ONLY) sB hv hB
    exact huniq.unique (completion_of_grows s.board sH.board hr g1 g2)
      (completion_of_grows s.board sB.board hr k1 k2)
  · obtain ⟨sH, hH⟩ := solve_false_of_no_completion fuel (s.setMode Mode.HYBRID) hv hr hex hfuel
    obtain ⟨sB, hB⟩ := solve_false_of_no_completion fuel (s.setMode Mode.BACKTRACK_ONLY) hv hr
      hex hfuel
    refine ⟨false, sH, sB, hH, hB, fun huniq => ?_⟩
    exact absurd huniq.exists hex

/-- Witness of `hybrid_backtrack_agree`: the board loaded from `nearGrid`, on
which both modes return true. -/
theorem hybrid_backtrack_agree_witness :
    solve 3 ((init (new.loadBoard nearGrid)).setMode Mode.HYBRID) =
      some (true, (((init (new.loadBoard nearGrid)).setMode Mode.HYBRID).logicPlace 0 0
        4).logicPlace 8 8 9) ∧
    ∃ (res : Bool) (sH sB : Solver),
      solve 3 ((init (new.loadBoard nearGrid)).setMode Mode.HYBRID) = some (res, sH) ∧
      solve 3 ((init (new.loadBoard nearGrid)).setMode Mode.BACKTRACK_ONLY) = some (res, sB) ∧
      ((∃! S, IsCompletion (new.loadBoard nearGrid).grid S) →
        res = true ∧ sH.board.grid = sB.board.grid) :=
  ⟨by rfl,
   hybrid_backtrack_agree (init (new.loadBoard nearGrid))
     (loadBoard_valid new nearGrid nearGrid_noRepeat)
     (by show CellsInRange (new.loadBoard nearGrid).grid
         rw [loadBoard_grid]; decide)
     3 (by decide)⟩

/-! ## Reachable boards -/

theorem NoEmptyFixed_removeNumber (b : SudokuBoard) (r c : Fin 9) (h : NoEmptyFixed b) :
    NoEmptyFixed (b.removeNumber r c) := by
  rw [← placeNumber_zero]
  exact NoEmptyFixed_placeNumber b r c 0 h

/-- C29: in every board state reachable from construction by `loadBoard` of
grids with entries in `0..9`, `placeNumber` and `removeNumber` calls, every
fixed cell holds a non-zero digit, that is, every empty cell is mutable; so
`placeNumber` on an empty cell of such a board writes the digit. -/
theorem fixed_cells_never_empty (b : SudokuBoard) (h : Reachable b) :
    (∀ r c, b.fixed r c = true → b.grid r c ≠ 0) ∧
    (∀ r c, b.grid r c = 0 → b.fixed r c = false) ∧
    (∀ r c d, b.grid r c = 0 → (b.placeNumber r c d).grid r c = d) := by
  have key : NoEmptyFixed b := by
    induction h with
    | construct => intro r c _; rfl
    | load b g _ _ _ =>
      intro r c hrc
      obtain ⟨h1, h2, _⟩ := loadBoard_spec b g
      rw [h2 r c]
      rw [h1] at hrc
      simp [hrc]
    | place b r c d _ ih => exact NoEmptyFixed_placeNumber b r c d ih
    | remove b r c _ ih => exact NoEmptyFixed_removeNumber b r c ih
  refine ⟨?_, key, ?_⟩
  · intro r c hf hg
    rw [key r c hg] at hf
    exact Bool.noConfusion hf
  · intro r c d hg
    rw [placeNumber_grid b r c d (key r c hg), set2_apply]
    simp

/-- Witness of `fixed_cells_never_empty`: the easy grid loaded, then a
placement, a rejected removal of a clue and a removal. -/
theorem fixed_cells_never_empty_witness :
    Reachable ((((new.loadBoard easyGrid).placeNumber 0 0 4).removeNumber 0 3).removeNumber
      0 0) ∧
    ∀ r c, ((((new.loadBoard easyGrid).placeNumber 0 0 4).removeNumber 0 3).removeNumber
      0 0).grid r c = 0 →
      ((((new.loadBoard easyGrid).placeNumber 0 0 4).removeNumber 0 3).removeNumber
        0 0).fixed r c = false :=
  ⟨Reachable.remove _ 0 0 (Reachable.remove _ 0 3 (Reachable.place _ 0 0 4
      (Reachable.load _ easyGrid Reachable.construct (by decide)))),
   (fixed_cells_never_empty _
      (Reachable.remove _ 0 0 (Reachable.remove _ 0 3 (Reachable.place _ 0 0 4
        (Reachable.load _ easyGrid Reachable.construct (by decide)))))).2.1⟩

/-! ## Randomized search: restoration and soundness -/

namespace Solver

theorem tryShuffled_restore (recurse : Solver × Nat → Option (Bool × Solver × Nat))
    (row col : Fin 9)
    (hrec : ∀ t t' k', NoEmptyFixed t.1.board → recurse t = some (false, t', k') →
      t'.board = t.1.board) :
    ∀ (L : List Nat) (st : Solver × Nat) (s' : Solver) (k' : Nat),
      NoEmptyFixed st.1.board → st.1.board.grid row col = 0 →
      tryShuffled recurse row col L st = some (false, s', k') → s'.board = st.1.board := by
  intro L
  induction L with
  | nil =>
    intro st s' k' _ _ h
    simp only [tryShuffled, Option.some.injEq, Prod.mk.injEq, true_and] at h
    rw [h.1]
  | cons num rest ih =>
    intro st s' k' hnef hg h
    unfold tryShuffled at h
    split at h
    · rename_i hv
      split at h
      · exact Option.noConfusion h
      · simp at h
      · rename_i s1 k1 hr
        have hf : st.1.board.fixed row col = false := hnef row col hg
        have h1 := hrec ({ st.1 with board := st.1.board.placeNumber row col num }, st.2) s1 k1
          (NoEmptyFixed_placeNumber st.1.board row col num hnef) hr
        simp only at h1
        have h2 : s1.board.removeNumber row col = st.1.board := by
          rw [h1]; exact removeNumber_placeNumber st.1.board row col num hf hg hv
        have := ih _ s' k' (by simp only [h2]; exact hnef) (by simp only [h2]; exact hg) h
        simp only [h2] at this
        exact this
    · exact ih st s' k' hnef hg h

theorem solveRecursiveRandomized_restore (shuffles : Nat → List Nat) :
    ∀ (fuel : Nat) (st : Solver × Nat) (s' : Solver) (k' : Nat), NoEmptyFixed st.1.board →
      solveRecursiveRandomized shuffles fuel st = some (false, s', k') →
        s'.board = st.1.board := by
  intro fuel
  induction fuel with
  | zero => intro st s' k' _ h; simp [solveRecursiveRandomized] at h
  | succ fuel ih =>
    intro st s' k' hnef h
    unfold solveRecursiveRandomized at h
    simp only at h
    split at h
    · simp at h
    · rename_i row col hfb
      have hg := findBestCell_some _ _ hfb
      exact tryShuffled_restore (solveRecursiveRandomized shuffles fuel) row col ih
        (shuffles st.2) ({ st.1 with recursionCount := st.1.recursionCount + 1 }, st.2 + 1)
        s' k' hnef hg h

theorem tryShuffled_sound (recurse : Solver × Nat → Option (Bool × Solver × Nat))
    (row col : Fin 9)
    (hrec : ∀ t t' k', NoEmptyFixed t.1.board → recurse t = some (false, t', k') →
      t'.board = t.1.board)
    (hsound : ∀ t t' k', ValidBoard t.1.board → recurse t = some (true, t', k') →
      Grows t.1.board t'.board ∧ ∀ r c, t'.board.grid r c ≠ 0) :
    ∀ (L : List Nat) (st : Solver × Nat) (s' : Solver) (k' : Nat),
      ValidBoard st.1.board → st.1.board.grid row col = 0 →
      tryShuffled recurse row col L st = some (true, s', k') →
        Grows st.1.board s'.board ∧ ∀ r c, s'.board.grid r c ≠ 0 := by
  intro L
  induction L with
  | nil => intro st s' k' _ _ h; simp [tryShuffled] at h
  | cons num rest ih =>
    intro st s' k' hv hg h
    unfold tryShuffled at h
    split at h
    · rename_i hvalid
      have hgrow := Grows_placeNumber st.1.board row col num hv hg hvalid
      split at h
      · exact Option.noConfusion h
      · rename_i s1 k1 hr
        simp only [Option.some.injEq, Prod.mk.injEq, true_and] at h
        obtain ⟨h1, h2⟩ := hsound
          ({ st.1 with board := st.1.board.placeNumber row col num }, st.2) s1 k1 hgrow.1 hr
        rw [← h.1]
        exact ⟨Grows_trans hgrow h1, h2⟩
      · rename_i s1 k1 hr
        have hf : st.1.board.fixed row col = false := hv.2.2 row col hg
        have h1 := hrec ({ st.1 with board := st.1.board.placeNumber row col num }, st.2) s1 k1
          hgrow.1.2.2 hr
        simp only at h1
        have h2 : s1.board.removeNumber row col = st.1.board := by
          rw [h1]; exact removeNumber_placeNumber st.1.board row col num hf hg hvalid
        have := ih _ s' k' (by simp only [h2]; exact hv) (by simp only [h2]; exact hg) h
        simp only [h2] at this
        exact this
    · exact ih st s' k' hv hg h

theorem solveRecursiveRandomized_sound (shuffles : Nat → List Nat) :
    ∀ (fuel : Nat) (st : Solver × Nat) (s' : Solver) (k' : Nat), ValidBoard st.1.board →
      solveRecursiveRandomized shuffles fuel st = some (true, s', k') →
        Grows st.1.board s'.board ∧ ∀ r c, s'.board.grid r c ≠ 0 := by
  intro fuel
  induction fuel with
  | zero => intro st s' k' _ h; simp [solveRecursiveRandomized] at h
  | succ fuel ih =>
    intro st s' k' hv h
    unfold solveRecursiveRandomized at h
    simp only at h
    split at h
    · rename_i hfb
      simp only [Option.some.injEq, Prod.mk.injEq, true_and] at h
      rw [← h.1]
      exact ⟨Grows_refl _ hv, findBestCell_none _ hfb⟩
    · rename_i row col hfb
      have hg := findBestCell_some _ _ hfb
      exact tryShuffled_sound (solveRecursiveRandomized shuffles fuel) row col
        (solveRecursiveRandomized_restore shuffles fuel) ih
        (shuffles st.2) ({ st.1 with recursionCount := st.1.recursionCount + 1 }, st.2 + 1)
        s' k' hv hg h

/-- A true result of `solveRandomized` on a valid board: the board is full,
satisfies the invariants and keeps every cell that was non-empty. -/
theorem solveRandomized_sound (shuffles : Nat → List Nat) (fuel : Nat) (s s' : Solver)
    (hv : ValidBoard s.board) (h : solveRandomized shuffles fuel s = some (true, s')) :
    Grows s.board s'.board ∧ ∀ r c, s'.board.grid r c ≠ 0 := by
  unfold solveRandomized at h
  dsimp only at h
  split at h
  · exact Option.noConfusion h
  · rename_i r1 s1 k1 h1
    simp only [Option.some.injEq, Prod.mk.injEq] at h
    obtain ⟨hr, hs⟩ := h
    subst hr hs
    exact solveRecursiveRandomized_sound shuffles fuel
      ({ s with recursionCount := 0, backtrackCount := 0 }, 0) s1 k1 hv h1

/-! ## Randomized search: a true result is a full board with the same flags -/

theorem tryShuffled_full (recurse : Solver × Nat → Option (Bool × Solver × Nat))
    (row col : Fin 9)
    (hfull : ∀ t res t' k', recurse t = some (res, t', k') →
      t'.board.fixed = t.1.board.fixed ∧ (res = true → ∀ r c, t'.board.grid r c ≠ 0)) :
    ∀ (L : List Nat) (st : Solver × Nat) (res : Bool) (s' : Solver) (k' : Nat),
      tryShuffled recurse row col L st = some (res, s', k') →
        s'.board.fixed = st.1.board.fixed ∧ (res = true → ∀ r c, s'.board.grid r c ≠ 0) := by
  intro L
  induction L with
  | nil =>
    intro st res s' k' h
    simp only [tryShuffled, Option.some.injEq, Prod.mk.injEq] at h
    obtain ⟨h1, h2, _⟩ := h
    subst h1 h2
    exact ⟨rfl, fun hf => Bool.noConfusion hf⟩
  | cons num rest ih =>
    intro st res s' k' h
    unfold tryShuffled at h
    split at h
    · split at h
      · exact Option.noConfusion h
      · rename_i s1 k1 hr
        simp only [Option.some.injEq, Prod.mk.injEq] at h
        obtain ⟨h1, h2, _⟩ := h
        subst h1 h2
        obtain ⟨e1, e2⟩ := hfull
          ({ st.1 with board := st.1.board.placeNumber row col num }, st.2) true s1 k1 hr
        exact ⟨e1.trans (placeNumber_fixed _ _ _ _), fun _ => e2 rfl⟩
      · rename_i s1 k1 hr
        obtain ⟨e1, _⟩ := hfull
          ({ st.1 with board := st.1.board.placeNumber row col num }, st.2) false s1 k1 hr
        obtain ⟨g1, g2⟩ := ih _ res s' k' h
        refine ⟨?_, g2⟩
        rw [g1]
        simp only
        rw [removeNumber_fixed, e1]
        exact placeNumber_fixed _ _ _ _
    · exact ih st res s' k' h

theorem solveRecursiveRandomized_full (shuffles : Nat → List Nat) :
    ∀ (fuel : Nat) (st : Solver × Nat) (res : Bool) (s' : Solver) (k' : Nat),
      solveRecursiveRandomized shuffles fuel st = some (res, s', k') →
        s'.board.fixed = st.1.board.fixed ∧ (res = true → ∀ r c, s'.board.grid r c ≠ 0) := by
  intro fuel
  induction fuel with
  | zero => intro st res s' k' h; simp [solveRecursiveRandomized] at h
  | succ fuel ih =>
    intro st res s' k' h
    unfold solveRecursiveRandomized at h
    simp only at h
    split at h
    · rename_i hfb
      simp only [Option.some.injEq, Prod.mk.injEq] at h
      obtain ⟨_, h2, _⟩ := h
      subst h2
      exact ⟨rfl, fun _ => findBestCell_none _ hfb⟩
    · rename_i row col hfb
      exact tryShuffled_full (solveRecursiveRandomized shuffles fuel) row col ih
        (shuffles st.2) ({ st.1 with recursionCount := st.1.recursionCount + 1 }, st.2 + 1)
        res s' k' h

/-- On every board, a true result of `solveRandomized` leaves no empty cell,
and the fixed flags are those of the board before the call. -/
theorem solveRandomized_full (shuffles : Nat → List Nat) (fuel : Nat) (s : Solver)
    (res : Bool) (s' : Solver) (h : solveRandomized shuffles fuel s = some (res, s')) :
    s'.board.fixed = s.board.fixed ∧ (res = true → ∀ r c, s'.board.grid r c ≠ 0) := by
  unfold solveRandomized at h
  dsimp only at h
  split at h
  · exact Option.noConfusion h
  · rename_i r1 s1 k1 h1
    simp only [Option.some.injEq, Prod.mk.injEq] at h
    obtain ⟨hr, hs⟩ := h
    subst hr hs
    exact solveRecursiveRandomized_full shuffles fuel
      ({ s with recursionCount := 0, backtrackCount := 0 }, 0) r1 s1 k1 h1

end Solver

/-! ## The diagonal fill of the generator -/

/-- Successive `placeNumber` calls on distinct empty cells of a board with no
fixed cell: the masks stay in agreement, each cell holds the value written,
and every other cell is untouched. -/
theorem foldl_placeNumber_spec (L : List ((Fin 9 × Fin 9) × Nat)) :
    (L.map Prod.fst).Nodup → ∀ b : SudokuBoard, MaskInv b → (∀ r c, b.fixed r c = false) →
      (∀ x ∈ L, b.grid x.1.1 x.1.2 = 0) →
      MaskInv (L.foldl (fun b x => b.placeNumber x.1.1 x.1.2 x.2) b) ∧
      (∀ x ∈ L, (L.foldl (fun b x => b.placeNumber x.1.1 x.1.2 x.2) b).grid x.1.1 x.1.2 = x.2) ∧
      (∀ p : Fin 9 × Fin 9, p ∉ L.map Prod.fst →
        (L.foldl (fun b x => b.placeNumber x.1.1 x.1.2 x.2) b).grid p.1 p.2 = b.grid p.1 p.2) := by
  induction L with
  | nil =>
    intro _ b hm _ _
    exact ⟨hm, fun x hx => absurd hx (List.not_mem_nil x), fun _ _ => rfl⟩
  | cons x L ih =>
    intro hnd b hm hfix hempty
    rw [List.map_cons, List.nodup_cons] at hnd
    have hx0 := hempty x (List.mem_cons_self x L)
    have hgrid := placeNumber_grid b x.1.1 x.1.2 x.2 (hfix x.1.1 x.1.2)
    have hm1 := MaskInv_placeNumber_empty b x.1.1 x.1.2 x.2 hm hx0
    have hfix1 : ∀ r c, (b.placeNumber x.1.1 x.1.2 x.2).fixed r c = false := by
      intro r c; rw [placeNumber_fixed]; exact hfix r c
    have hother : ∀ p : Fin 9 × Fin 9, p ≠ x.1 →
        (b.placeNumber x.1.1 x.1.2 x.2).grid p.1 p.2 = b.grid p.1 p.2 := by
      intro p hp
      rw [hgrid, set2_apply]
      have : ¬ (p.1 = x.1.1 ∧ p.2 = x.1.2) := by
        rintro ⟨h1, h2⟩; exact hp (Prod.ext h1 h2)
      simp [this]
    have hempty1 : ∀ y ∈ L, (b.placeNumber x.1.1 x.1.2 x.2).grid y.1.1 y.1.2 = 0 := by
      intro y hy
      rw [hother y.1 ?_]
      · exact hempty y (List.mem_cons_of_mem x hy)
      · intro he
        exact hnd.1 (he ▸ List.mem_map_of_mem Prod.fst hy)
    obtain ⟨g1, g2, g3⟩ := ih hnd.2 (b.placeNumber x.1.1 x.1.2 x.2) hm1 hfix1 hempty1
    rw [List.foldl_cons]
    refine ⟨g1, ?_, ?_⟩
    · intro y hy
      rcases List.mem_cons.1 hy with h | h
      · subst h
        rw [g3 y.1 hnd.1, hgrid, set2_apply]
        simp
      · exact g2 y h
    · intro p hp
      rw [List.map_cons, List.mem_cons, not_or] at hp
      rw [g3 p hp.2]
      exact hother p hp.1

theorem foldl_placeNumber_fixed (L : List ((Fin 9 × Fin 9) × Nat)) :
    ∀ b : SudokuBoard,
      (L.foldl (fun b x => b.placeNumber x.1.1 x.1.2 x.2) b).fixed = b.fixed := by
  induction L with
  | nil => intro b; rfl
  | cons x L ih =>
    intro b
    rw [List.foldl_cons, ih, placeNumber_fixed]

namespace Generator

theorem fillBox_fixed (b : SudokuBoard) (br bc : Fin 3) (nums : List Nat) :
    (fillBox b br bc nums).fixed = b.fixed :=
  foldl_placeNumber_fixed _ b

theorem fillDiagonal_fixed (b : SudokuBoard) (p0 p1 p2 : List Nat) :
    (fillDiagonal b p0 p1 p2).fixed = b.fixed := by
  unfold fillDiagonal
  rw [fillBox_fixed, fillBox_fixed, fillBox_fixed]

theorem boxCells_length : ∀ br bc : Fin 3, (boxCells br bc).length = 9 := by decide

theorem map_fst_zip_boxCells (br bc : Fin 3) (nums : List Nat) (hlen : nums.length = 9) :
    ((boxCells br bc).zip nums).map Prod.fst = boxCells br bc := by
  apply List.map_fst_zip
  rw [boxCells_length, hlen]

theorem map_snd_zip_boxCells (br bc : Fin 3) (nums : List Nat) (hlen : nums.length = 9) :
    ((boxCells br bc).zip nums).map Prod.snd = nums := by
  apply List.map_snd_zip
  rw [boxCells_length, hlen]

/-- The call `fillBox` on a box whose cells are empty, on a board with no fixed
cell. -/
theorem fillBox_spec (b : SudokuBoard) (br bc : Fin 3) (nums : List Nat)
    (hlen : nums.length = 9) (hm : MaskInv b) (hfix : ∀ r c, b.fixed r c = false)
    (hempty : ∀ p ∈ boxCells br bc, b.grid p.1 p.2 = 0) :
    MaskInv (fillBox b br bc nums) ∧
    (∀ r c, (fillBox b br bc nums).fixed r c = false) ∧
    (∀ x ∈ (boxCells br bc).zip nums, (fillBox b br bc nums).grid x.1.1 x.1.2 = x.2) ∧
    (∀ p : Fin 9 × Fin 9, p ∉ boxCells br bc →
      (fillBox b br bc nums).grid p.1 p.2 = b.grid p.1 p.2) := by
  have hfst := map_fst_zip_boxCells br bc nums hlen
  obtain ⟨g1, g2, g3⟩ := foldl_placeNumber_spec ((boxCells br bc).zip nums)
    (by rw [hfst]; exact boxCells_nodup br bc) b hm hfix
    (by
      intro x hx
      apply hempty
      rw [← hfst]
      exact List.mem_map_of_mem Prod.fst hx)
  refine ⟨g1, ?_, g2, ?_⟩
  · intro r c
    rw [fillBox_fixed]
    exact hfix r c
  · intro p hp
    apply g3
    rw [hfst]
    exact hp

/-- The board after `fillDiagonal` on the empty board, for three lists of
nine values: masks in agreement, no fixed cell, the diagonal boxes hold the
lists, every other cell is empty. -/
theorem fillDiagonal_spec (P : Fin 3 → List Nat) (hlen : ∀ k, (P k).length = 9) :
    MaskInv (fillDiagonal SudokuBoard.new (P 0) (P 1) (P 2)) ∧
    (∀ r c, (fillDiagonal SudokuBoard.new (P 0) (P 1) (P 2)).fixed r c = false) ∧
    (∀ k : Fin 3, ∀ x ∈ (boxCells k k).zip (P k),
      (fillDiagonal SudokuBoard.new (P 0) (P 1) (P 2)).grid x.1.1 x.1.2 = x.2) ∧
    (∀ p : Fin 9 × Fin 9, (∀ k : Fin 3, p ∉ boxCells k k) →
      (fillDiagonal SudokuBoard.new (P 0) (P 1) (P 2)).grid p.1 p.2 = 0) := by
  have hdisj : ∀ (k k' : Fin 3) (p : Fin 9 × Fin 9), k ≠ k' → p ∈ boxCells k k →
      p ∉ boxCells k' k' := by
    intro k k' p hne h1 h2
    rw [mem_boxCells] at h1 h2
    exact hne (h1.1.symm.trans h2.1)
  have hin : ∀ (k : Fin 3) (x : (Fin 9 × Fin 9) × Nat), x ∈ (boxCells k k).zip (P k) →
      x.1 ∈ boxCells k k := by
    intro k x hx
    exact (List.of_mem_zip (show (x.1, x.2) ∈ (boxCells k k).zip (P k) from hx)).1
  obtain ⟨a1, a2, a3, a4⟩ := fillBox_spec SudokuBoard.new 0 0 (P 0) (hlen 0) MaskInv_new
    (fun _ _ => rfl) (fun _ _ => rfl)
  obtain ⟨b1, b2, b3, b4⟩ := fillBox_spec (fillBox SudokuBoard.new 0 0 (P 0)) 1 1 (P 1) (hlen 1)
    a1 a2 (by
      intro p hp
      rw [a4 p (hdisj 1 0 p (by decide) hp)]
      rfl)
  obtain ⟨c1, c2, c3, c4⟩ := fillBox_spec
    (fillBox (fillBox SudokuBoard.new 0 0 (P 0)) 1 1 (P 1)) 2 2 (P 2) (hlen 2) b1 b2 (by
      intro p hp
      rw [b4 p (hdisj 2 1 p (by decide) hp), a4 p (hdisj 2 0 p (by decide) hp)]
      rfl)
  refine ⟨c1, c2, ?_, ?_⟩
  · intro k x hx
    have hmem := hin k x hx
    show (fillBox (fillBox (fillBox SudokuBoard.new 0 0 (P 0)) 1 1 (P 1)) 2 2 (P 2)).grid
      x.1.1 x.1.2 = x.2
    fin_cases k
    · rw [c4 x.1 (hdisj 0 2 x.1 (by decide) hmem), b4 x.1 (hdisj 0 1 x.1 (by decide) hmem)]
      exact a3 x hx
    · rw [c4 x.1 (hdisj 1 2 x.1 (by decide) hmem)]
      exact b3 x hx
    · exact c3 x hx
  · intro p hp
    show (fillBox (fillBox (fillBox SudokuBoard.new 0 0 (P 0)) 1 1 (P 1)) 2 2 (P 2)).grid
      p.1 p.2 = 0
    rw [c4 p (hp 2), b4 p (hp 1), a4 p (hp 0)]
    rfl

/-- Three permutations of `1..9` in the diagonal boxes of the empty board give
a board that satisfies the data-model invariants, with every cell in `0..9`. -/
theorem fillDiagonal_valid (P : Fin 3 → List Nat) (hP : ∀ k, (P k).Perm digits) :
    ValidBoard (fillDiagonal SudokuBoard.new (P 0) (P 1) (P 2)) ∧
    CellsInRange (fillDiagonal SudokuBoard.new (P 0) (P 1) (P 2)).grid := by
  have hlen : ∀ k, (P k).length = 9 := fun k => (hP k).length_eq
  obtain ⟨h1, h2, h3, h4⟩ := fillDiagonal_spec P hlen
  have hcell : ∀ p : Fin 9 × Fin 9,
      (fillDiagonal SudokuBoard.new (P 0) (P 1) (P 2)).grid p.1 p.2 ≠ 0 →
      ∃ k : Fin 3, p ∈ boxCells k k ∧
        (p, (fillDiagonal SudokuBoard.new (P 0) (P 1) (P 2)).grid p.1 p.2) ∈
          (boxCells k k).zip (P k) := by
    intro p hp
    by_contra hcon
    apply hp
    apply h4
    intro k hk
    apply hcon
    refine ⟨k, hk, ?_⟩
    have : p ∈ ((boxCells k k).zip (P k)).map Prod.fst := by
      rw [map_fst_zip_boxCells k k (P k) (hlen k)]; exact hk
    obtain ⟨x, hx, hxp⟩ := List.mem_map.1 this
    have hv := h3 k x hx
    have hx' : x = (p, (fillDiagonal SudokuBoard.new (P 0) (P 1) (P 2)).grid p.1 p.2) := by
      rw [← hxp, hv]
    rw [← hx']
    exact hx
  refine ⟨⟨h1, ?_, fun r c _ => h2 r c⟩, ?_⟩
  · intro r c r' c' hne hu hnz heq
    obtain ⟨k, hk, hz⟩ := hcell (r, c) hnz
    obtain ⟨k', hk', hz'⟩ := hcell (r', c') (by rw [← heq]; exact hnz)
    rw [mem_boxCells] at hk hk'
    simp only at hk hk' hz hz'
    by_cases hkk : k = k'
    · subst hkk
      have hnd : (((boxCells k k).zip (P k)).map Prod.snd).Nodup := by
        rw [map_snd_zip_boxCells k k (P k) (hlen k)]
        exact (hP k).nodup_iff.2 digits_nodup
      have := List.inj_on_of_nodup_map hnd hz hz' (by simp only; exact heq)
      exact hne (Prod.mk.inj this).1
    · apply hkk
      rcases hu with h | h | h
      · rw [← hk.1, ← hk'.1, h]
      · rw [← hk.2, ← hk'.2, h]
      · rw [← hk.1, ← hk'.1, h.1]
  · intro r c
    by_cases hz : (fillDiagonal SudokuBoard.new (P 0) (P 1) (P 2)).grid r c = 0
    · rw [hz]; omega
    · obtain ⟨k, _, hmem⟩ := hcell (r, c) hz
      have hv := (List.of_mem_zip hmem).2
      have := ((mem_digits _).1 ((hP k).mem_iff.1 hv)).2
      exact this

/-- The call `loadBoard` on the empty grid gives the freshly constructed
board, whatever the board before. -/
theorem loadBoard_empty (b : SudokuBoard) : b.loadBoard (fun _ _ => 0) = SudokuBoard.new := by
  rfl

end Generator

/-! ## Randomized search: a result within the fuel, and completeness -/

namespace Solver

theorem tryShuffled_isSome (recurse : Solver × Nat → Option (Bool × Solver × Nat))
    (row col : Fin 9) (n : Nat)
    (hrec : ∀ t t' k', NoEmptyFixed t.1.board → recurse t = some (false, t', k') →
      t'.board = t.1.board)
    (hsome : ∀ t, NoEmptyFixed t.1.board → emptyCount t.1.board < n →
      (recurse t).isSome = true) :
    ∀ (L : List Nat) (st : Solver × Nat), NoEmptyFixed st.1.board →
      st.1.board.grid row col = 0 → emptyCount st.1.board < n + 1 →
        (tryShuffled recurse row col L st).isSome = true := by
  intro L
  induction L with
  | nil => intro st _ _ _; simp [tryShuffled]
  | cons num rest ih =>
    intro st hnef hg hcount
    unfold tryShuffled
    split
    · rename_i hv
      have hf : st.1.board.fixed row col = false := hnef row col hg
      have hd : num ≠ 0 := by have := isValid_digit _ _ _ _ hv; omega
      have hnef1 := NoEmptyFixed_placeNumber st.1.board row col num hnef
      have hc1 := emptyCount_placeNumber st.1.board row col num hf hg hd
      have hs := hsome ({ st.1 with board := st.1.board.placeNumber row col num }, st.2) hnef1
        (by simp only; omega)
      split
      · rename_i hnone
        rw [hnone] at hs; simp at hs
      · simp
      · rename_i s1 k1 hr
        have h1 := hrec _ s1 k1 hnef1 hr
        simp only at h1
        have h2 : s1.board.removeNumber row col = st.1.board := by
          rw [h1]; exact removeNumber_placeNumber st.1.board row col num hf hg hv
        exact ih _ (by simp only [h2]; exact hnef) (by simp only [h2]; exact hg)
          (by simp only [h2]; exact hcount)
    · exact ih st hnef hg hcount

theorem solveRecursiveRandomized_isSome (shuffles : Nat → List Nat) :
    ∀ (fuel : Nat) (st : Solver × Nat), NoEmptyFixed st.1.board →
      emptyCount st.1.board < fuel →
        (solveRecursiveRandomized shuffles fuel st).isSome = true := by
  intro fuel
  induction fuel with
  | zero => intro st _ h; omega
  | succ fuel ih =>
    intro st hnef hcount
    unfold solveRecursiveRandomized
    simp only
    split
    · simp
    · rename_i row col hfb
      have hg := findBestCell_some _ _ hfb
      exact tryShuffled_isSome (solveRecursiveRandomized shuffles fuel) row col fuel
        (solveRecursiveRandomized_restore shuffles fuel) ih (shuffles st.2)
        ({ st.1 with recursionCount := st.1.recursionCount + 1 }, st.2 + 1) hnef hg hcount

/-- With more fuel than empty cells `solveRandomized` returns a result, for
every outcome of the shuffles. -/
theorem solveRandomized_isSome (shuffles : Nat → List Nat) (fuel : Nat) (s : Solver)
    (hnef : NoEmptyFixed s.board) (hfuel : emptyCount s.board < fuel) :
    (solveRandomized shuffles fuel s).isSome = true := by
  have h := solveRecursiveRandomized_isSome shuffles fuel
    ({ s with recursionCount := 0, backtrackCount := 0 }, 0) hnef hfuel
  unfold solveRandomized
  dsimp only
  split
  · rename_i hnone
    rw [hnone] at h; simp at h
  · simp

/-- A false result of `solveRandomized` leaves the board as it was. -/
theorem solveRandomized_restore (shuffles : Nat → List Nat) (fuel : Nat) (s s' : Solver)
    (hnef : NoEmptyFixed s.board) (h : solveRandomized shuffles fuel s = some (false, s')) :
    s'.board = s.board := by
  unfold solveRandomized at h
  dsimp only at h
  split at h
  · exact Option.noConfusion h
  · rename_i r1 s1 k1 h1
    simp only [Option.some.injEq, Prod.mk.injEq] at h
    obtain ⟨hr, hs⟩ := h
    subst hr hs
    exact solveRecursiveRandomized_restore shuffles fuel
      ({ s with recursionCount := 0, backtrackCount := 0 }, 0) s1 k1 hnef h1

theorem tryShuffled_complete (recurse : Solver × Nat → Option (Bool × Solver × Nat))
    (row col : Fin 9) (n : Nat) (S : Fin 9 → Fin 9 → Nat)
    (hrec : ∀ t t' k', NoEmptyFixed t.1.board → recurse t = some (false, t', k') →
      t'.board = t.1.board)
    (hsome : ∀ t, NoEmptyFixed t.1.board → emptyCount t.1.board < n →
      (recurse t).isSome = true)
    (hcompl : ∀ t, ValidBoard t.1.board → IsCompletion t.1.board.grid S →
      emptyCount t.1.board < n → ∃ t' k', recurse t = some (true, t', k')) :
    ∀ (L : List Nat) (st : Solver × Nat), ValidBoard st.1.board →
      IsCompletion st.1.board.grid S → st.1.board.grid row col = 0 →
      emptyCount st.1.board < n + 1 → S row col ∈ L →
        ∃ s' k', tryShuffled recurse row col L st = some (true, s', k') := by
  intro L
  induction L with
  | nil => intro st _ _ _ _ h; simp at h
  | cons num rest ih =>
    intro st hv hS hg hcount hmem
    have hf : st.1.board.fixed row col = false := hv.2.2 row col hg
    unfold tryShuffled
    split
    · rename_i hvalid
      have hd : num ≠ 0 := by have := isValid_digit _ _ _ _ hvalid; omega
      have hgrow := Grows_placeNumber st.1.board row col num hv hg hvalid
      have hc1 := emptyCount_placeNumber st.1.board row col num hf hg hd
      have hs := hsome ({ st.1 with board := st.1.board.placeNumber row col num }, st.2)
        hgrow.1.2.2 (by simp only; omega)
      split
      · rename_i hnone
        rw [hnone] at hs; simp at hs
      · rename_i s1 k1 hr
        exact ⟨s1, k1, rfl⟩
      · rename_i s1 k1 hr
        have hnum : S row col ≠ num := by
          intro he
          obtain ⟨t', k', ht'⟩ := hcompl
            ({ st.1 with board := st.1.board.placeNumber row col num }, st.2) hgrow.1
            (by simp only; rw [← he]; exact IsCompletion_placeNumber st.1.board S row col hf hS)
            (by simp only; omega)
          rw [ht'] at hr
          simp at hr
        have hmem' : S row col ∈ rest := by
          rcases List.mem_cons.1 hmem with h | h
          · exact absurd h hnum
          · exact h
        have h1 := hrec _ s1 k1 hgrow.1.2.2 hr
        simp only at h1
        have h2 : s1.board.removeNumber row col = st.1.board := by
          rw [h1]; exact removeNumber_placeNumber st.1.board row col num hf hg hvalid
        exact ih _ (by simp only [h2]; exact hv) (by simp only [h2]; exact hS)
          (by simp only [h2]; exact hg) (by simp only [h2]; exact hcount) hmem'
    · rename_i hvalid
      have hnum : S row col ≠ num := by
        intro he
        apply hvalid
        rw [← he]
        exact completion_isValid st.1.board S hv hS row col
      have hmem' : S row col ∈ rest := by
        rcases List.mem_cons.1 hmem with h | h
        · exact absurd h hnum
        · exact h
      exact ih st hv hS hg hcount hmem'

theorem solveRecursiveRandomized_complete (shuffles : Nat → List Nat)
    (hsh : ∀ k, (shuffles k).Perm digits) (S : Fin 9 → Fin 9 → Nat) :
    ∀ (fuel : Nat) (st : Solver × Nat), ValidBoard st.1.board →
      IsCompletion st.1.board.grid S → emptyCount st.1.board < fuel →
        ∃ s' k', solveRecursiveRandomized shuffles fuel st = some (true, s', k') := by
  intro fuel
  induction fuel with
  | zero => intro st _ _ h; omega
  | succ fuel ih =>
    intro st hv hS hcount
    unfold solveRecursiveRandomized
    simp only
    split
    · exact ⟨_, _, rfl⟩
    · rename_i row col hfb
      have hg := findBestCell_some _ _ hfb
      have hr := range_of_eachDigitOnce S hS.1 row col
      exact tryShuffled_complete (solveRecursiveRandomized shuffles fuel) row col fuel S
        (solveRecursiveRandomized_restore shuffles fuel)
        (solveRecursiveRandomized_isSome shuffles fuel) ih (shuffles st.2)
        ({ st.1 with recursionCount := st.1.recursionCount + 1 }, st.2 + 1) hv hS hg hcount
        ((hsh st.2).mem_iff.2 ((mem_digits _).2 hr))

/-- On a valid board that has a completion, with shuffles that are
permutations of `1..9` and more fuel than empty cells, `solveRandomized`
returns true. -/
theorem solveRandomized_complete (shuffles : Nat → List Nat)
    (hsh : ∀ k, (shuffles k).Perm digits) (S : Fin 9 → Fin 9 → Nat) (fuel : Nat) (s : Solver)
    (hv : ValidBoard s.board) (hS : IsCompletion s.board.grid S)
    (hfuel : emptyCount s.board < fuel) :
    ∃ s', solveRandomized shuffles fuel s = some (true, s') := by
  obtain ⟨s', k', h⟩ := solveRecursiveRandomized_complete shuffles hsh S fuel
    ({ s with recursionCount := 0, backtrackCount := 0 }, 0) hv hS hfuel
  refine ⟨s', ?_⟩
  unfold solveRandomized
  dsimp only
  rw [h]

end Solver

/-! ## The removal loop and the generated puzzle -/

theorem emptyCount_removeNumber (b : SudokuBoard) (r c : Fin 9)
    (hf : b.fixed r c = false) (hg : b.grid r c ≠ 0) :
    emptyCount (b.removeNumber r c) = emptyCount b + 1 := by
  unfold emptyCount
  rw [removeNumber_grid b r c hf]
  have := countP_change_one (fun p : Fin 9 × Fin 9 => set2 b.grid r c 0 p.1 p.2 == 0)
    (fun p : Fin 9 × Fin 9 => b.grid p.1 p.2 == 0) (r, c)
    (by simp [set2_apply]) (by simp [hg])
    (by
      intro x hx
      have : ¬ (x.1 = r ∧ x.2 = c) := by
        rintro ⟨h1, h2⟩; apply hx; exact Prod.ext h1 h2
      simp [set2_apply, this])
    allCells allCells_nodup
  rw [if_pos (mem_allCells (r, c))] at this
  exact this.symm

theorem clueCount_add_emptyCount (b : SudokuBoard) : clueCount b + emptyCount b = 81 := by
  unfold clueCount emptyCount
  have h := List.length_eq_countP_add_countP (fun p : Fin 9 × Fin 9 => b.grid p.1 p.2 != 0)
    allCells
  have hl : allCells.length = 81 := by decide
  have he : (fun p : Fin 9 × Fin 9 => b.grid p.1 p.2 == 0)
      = (fun p : Fin 9 × Fin 9 => decide ¬ (b.grid p.1 p.2 != 0) = true) := by
    funext p
    by_cases h0 : b.grid p.1 p.2 = 0 <;> simp [h0]
  rw [he, ← h, hl]

namespace Generator

/-- The loop of `removeDigits` on a board with no fixed cell: when it ends,
exactly `count` more cells are empty, every other cell is as before, and the
fixed flags are untouched. -/
theorem removeDigits_spec : ∀ (ids : List (Fin 81)) (b : SudokuBoard) (count : Nat)
    (b' : SudokuBoard), (∀ r c, b.fixed r c = false) → removeDigits ids b count = some b' →
      (∀ r c, b'.fixed r c = false) ∧ emptyCount b' = emptyCount b + count ∧
      Extends b'.grid b.grid ∧ (NoRepeat b.grid → NoRepeat b'.grid) ∧
      (CellsInRange b.grid → CellsInRange b'.grid) := by
  intro ids
  induction ids with
  | nil =>
    intro b count b' hfix h
    cases count with
    | zero =>
      simp only [removeDigits, Option.some.injEq] at h
      subst h
      exact ⟨hfix, rfl, fun _ _ _ => rfl, fun h => h, fun h => h⟩
    | succ n => simp [removeDigits] at h
  | cons cellId rest ih =>
    intro b count b' hfix h
    cases count with
    | zero =>
      simp only [removeDigits, Option.some.injEq] at h
      subst h
      exact ⟨hfix, rfl, fun _ _ _ => rfl, fun h => h, fun h => h⟩
    | succ n =>
      unfold removeDigits at h
      split at h
      · rename_i hnz
        have hf := hfix ⟨cellId.val / 9, by omega⟩ ⟨cellId.val % 9, by omega⟩
        have hfix1 : ∀ r c, (b.removeNumber ⟨cellId.val / 9, by omega⟩
            ⟨cellId.val % 9, by omega⟩).fixed r c = false := by
          intro r c; rw [removeNumber_fixed]; exact hfix r c
        obtain ⟨g1, g2, g3, g4, g5⟩ := ih _ n b' hfix1 h
        rw [emptyCount_removeNumber b _ _ hf hnz] at g2
        refine ⟨g1, by omega, ?_, fun hn => g4 (NoRepeat_removeNumber b _ _ hn),
          fun hr => g5 (CellsInRange_removeNumber b _ _ hr)⟩
        intro r c hrc
        have h1 := g3 r c hrc
        rw [removeNumber_grid b _ _ hf, set2_apply] at h1
        split at h1
        · exact absurd h1.symm hrc
        · exact h1
      · exact ih b (n + 1) b' hfix h

/-- The three list arguments of `fillDiagonal_valid` as a function on the box
index. -/
theorem fillDiagonal_valid3 (p0 p1 p2 : List Nat) (h0 : p0.Perm digits) (h1 : p1.Perm digits)
    (h2 : p2.Perm digits) :
    ValidBoard (fillDiagonal SudokuBoard.new p0 p1 p2) ∧
    CellsInRange (fillDiagonal SudokuBoard.new p0 p1 p2).grid :=
  fillDiagonal_valid ![p0, p1, p2] (by
    intro k
    fin_cases k
    · exact h0
    · exact h1
    · exact h2)

theorem fillDiagonal_boxes (p0 p1 p2 : List Nat) (h0 : p0.Perm digits) (h1 : p1.Perm digits)
    (h2 : p2.Perm digits) :
    (∀ x ∈ (boxCells 0 0).zip p0, (fillDiagonal SudokuBoard.new p0 p1 p2).grid x.1.1 x.1.2 = x.2) ∧
    (∀ x ∈ (boxCells 1 1).zip p1, (fillDiagonal SudokuBoard.new p0 p1 p2).grid x.1.1 x.1.2 = x.2) ∧
    (∀ x ∈ (boxCells 2 2).zip p2, (fillDiagonal SudokuBoard.new p0 p1 p2).grid x.1.1 x.1.2 = x.2) := by
  have h := (fillDiagonal_spec ![p0, p1, p2] (by
    intro k
    fin_cases k
    · exact h0.length_eq
    · exact h1.length_eq
    · exact h2.length_eq)).2.2.1
  exact ⟨h 0, h 1, h 2⟩

/-- The path of `generate` that produces a puzzle, step by step. -/
theorem generate_true (p0 p1 p2 : List Nat) (shuffles : Nat → List Nat)
    (removals : List (Fin 81)) (fuel : Nat) (board : SudokuBoard) (level : Difficulty)
    (b : SudokuBoard)
    (h : generate p0 p1 p2 shuffles removals fuel board level = some (true, b)) :
    ∃ s b3, solveRandomized shuffles fuel (Solver.init (fillDiagonal SudokuBoard.new p0 p1 p2))
        = some (true, s) ∧
      removeDigits removals s.board (removalCount level) = some b3 ∧
      b = b3.loadBoard b3.grid := by
  unfold generate at h
  rw [loadBoard_empty] at h
  dsimp only at h
  split at h
  · exact Option.noConfusion h
  · simp at h
  · rename_i s hs
    split at h
    · exact Option.noConfusion h
    · rename_i b3 hb3
      simp only [Option.some.injEq, Prod.mk.injEq, true_and] at h
      exact ⟨s, b3, hs, hb3, h.symm⟩

/-- The path of `generate` on which the fill fails: the board is left with the
three diagonal boxes only. -/
theorem generate_false (p0 p1 p2 : List Nat) (shuffles : Nat → List Nat)
    (removals : List (Fin 81)) (fuel : Nat) (board : SudokuBoard) (level : Difficulty)
    (b : SudokuBoard)
    (h : generate p0 p1 p2 shuffles removals fuel board level = some (false, b)) :
    b = fillDiagonal SudokuBoard.new p0 p1 p2 := by
  unfold generate at h
  rw [loadBoard_empty] at h
  dsimp only at h
  split at h
  · exact Option.noConfusion h
  · rename_i s hs
    simp only [Option.some.injEq, Prod.mk.injEq, true_and] at h
    rw [← h]
    have := solveRandomized_restore shuffles fuel _ s (by
      intro r c _
      show (fillDiagonal SudokuBoard.new p0 p1 p2).fixed r c = false
      rw [fillDiagonal_fixed]
      rfl) hs
    exact this
  · split at h
    · exact Option.noConfusion h
    · simp at h

/-- What the puzzle-producing path of `generate` leaves: no fixed cell before
the final reload, a full board after the search, and `removalCount level`
empty cells after the removal loop. -/
theorem generate_counts (p0 p1 p2 : List Nat) (shuffles : Nat → List Nat)
    (removals : List (Fin 81)) (fuel : Nat) (board : SudokuBoard) (level : Difficulty)
    (b : SudokuBoard)
    (h : generate p0 p1 p2 shuffles removals fuel board level = some (true, b)) :
    emptyCount b = removalCount level ∧ (∀ r c, b.fixed r c = decide (b.grid r c ≠ 0)) := by
  obtain ⟨s, b3, hs, hb3, hb⟩ := generate_true p0 p1 p2 shuffles removals fuel board level b h
  obtain ⟨f1, f2⟩ := solveRandomized_full shuffles fuel _ true s hs
  have hfix : ∀ r c, s.board.fixed r c = false := by
    intro r c
    rw [f1]
    show (fillDiagonal SudokuBoard.new p0 p1 p2).fixed r c = false
    rw [fillDiagonal_fixed]
    rfl
  obtain ⟨_, g2, _⟩ := removeDigits_spec removals s.board (removalCount level) b3 hfix hb3
  rw [emptyCount_eq_zero s.board (f2 rfl), Nat.zero_add] at g2
  obtain ⟨l1, l2, _⟩ := loadBoard_spec b3 b3.grid
  rw [← hb] at l1 l2
  refine ⟨?_, ?_⟩
  · rw [← g2]
    unfold emptyCount
    rw [l1]
  · intro r c
    rw [l2 r c, l1]

end Generator

/-! ## Generator: evaluation on the test data -/

set_option maxHeartbeats 4000000

/-- The run of `generate` on the test data, level EASY, with the identity
shuffle in the search: the puzzle is produced. -/
theorem generate_example :
    (Generator.generate diagBox0 diagBox1 diagBox2 (fun _ => digits) removalDraws 100
      SudokuBoard.new Generator.Difficulty.EASY).map (fun x => x.1) = some true := by
  decide

theorem generate_example_ok :
    ∃ b, Generator.generate diagBox0 diagBox1 diagBox2 (fun _ => digits) removalDraws 100
      SudokuBoard.new Generator.Difficulty.EASY = some (true, b) := by
  have h := generate_example
  cases hg : Generator.generate diagBox0 diagBox1 diagBox2 (fun _ => digits) removalDraws 100
      SudokuBoard.new Generator.Difficulty.EASY with
  | none => rw [hg] at h; simp at h
  | some x =>
    obtain ⟨r, b⟩ := x
    rw [hg] at h
    simp only [Option.map_some', Option.some.injEq] at h
    subst h
    exact ⟨b, rfl⟩

theorem diagBox0_perm : diagBox0.Perm digits := by decide

theorem diagBox1_perm : diagBox1.Perm digits := by decide

theorem diagBox2_perm : diagBox2.Perm digits := by decide

/-- With box shuffles and search shuffles that are permutations of `1..9`, and
fuel above the number of cells, the fill of `generate` can fail only when the
diagonal fill has no completion. -/
theorem generate_not_false (p0 p1 p2 : List Nat) (h0 : p0.Perm digits) (h1 : p1.Perm digits)
    (h2 : p2.Perm digits) (shuffles : Nat → List Nat) (hsh : ∀ k, (shuffles k).Perm digits)
    (removals : List (Fin 81)) (fuel : Nat) (hfuel : 81 < fuel) (board : SudokuBoard)
    (level : Generator.Difficulty) (S : Fin 9 → Fin 9 → Nat)
    (hS : IsCompletion (Generator.fillDiagonal SudokuBoard.new p0 p1 p2).grid S)
    (b : SudokuBoard) :
    Generator.generate p0 p1 p2 shuffles removals fuel board level ≠ some (false, b) := by
  intro h
  obtain ⟨hv, _⟩ := Generator.fillDiagonal_valid3 p0 p1 p2 h0 h1 h2
  obtain ⟨s', hs'⟩ := solveRandomized_complete shuffles hsh S fuel
    (Solver.init (Generator.fillDiagonal SudokuBoard.new p0 p1 p2)) hv hS
    (by have := emptyCount_lt (Generator.fillDiagonal SudokuBoard.new p0 p1 p2)
        show emptyCount (Generator.fillDiagonal SudokuBoard.new p0 p1 p2) < fuel
        omega)
  unfold Generator.generate at h
  rw [Generator.loadBoard_empty] at h
  dsimp only at h
  rw [hs'] at h
  dsimp only at h
  split at h
  · exact Option.noConfusion h
  · simp at h

/-! ## Generator: the claims -/

/-- C22: for every difficulty tier and every outcome of the random choices
(the three box shuffles, the shuffles of the search, the stream of removal
indices in `0..80`) for which `generate` runs to its end and produces the
puzzle, the resulting board has exactly `81 - k` non-zero cells, with `k = 30`
for EASY, `45` for MEDIUM, `54` for HARD and `60` for EXPERT; every non-zero
cell is fixed and every zero cell is not fixed. -/
theorem generate_clue_count (p0 p1 p2 : List Nat) (shuffles : Nat → List Nat)
    (removals : List (Fin 81)) (fuel : Nat) (board : SudokuBoard)
    (level : Generator.Difficulty) (b : SudokuBoard)
    (h : Generator.generate p0 p1 p2 shuffles removals fuel board level = some (true, b)) :
    clueCount b = 81 - (match level with
      | Generator.Difficulty.EASY => 30
      | Generator.Difficulty.MEDIUM => 45
      | Generator.Difficulty.HARD => 54
      | Generator.Difficulty.EXPERT => 60) ∧
    (∀ r c, b.grid r c ≠ 0 → b.fixed r c = true) ∧
    (∀ r c, b.grid r c = 0 → b.fixed r c = false) := by
  obtain ⟨hc, hf⟩ := Generator.generate_counts p0 p1 p2 shuffles removals fuel board level b h
  have hsum := clueCount_add_emptyCount b
  refine ⟨?_, ?_, ?_⟩
  · rw [hc] at hsum
    cases level <;> simp only [Generator.removalCount] at hsum ⊢ <;> omega
  · intro r c hrc
    rw [hf r c]
    simp [hrc]
  · intro r c hrc
    rw [hf r c]
    simp [hrc]

/-- Witness of C22: the run on the test data produces a board with 51 clues,
each fixed, and 30 empty cells, none fixed. -/
theorem generate_clue_count_witness :
    ∃ b, Generator.generate diagBox0 diagBox1 diagBox2 (fun _ => digits) removalDraws 100
        SudokuBoard.new Generator.Difficulty.EASY = some (true, b) ∧
      clueCount b = 51 ∧
      (∀ r c, b.grid r c ≠ 0 → b.fixed r c = true) ∧
      (∀ r c, b.grid r c = 0 → b.fixed r c = false) := by
  obtain ⟨b, hb⟩ := generate_example_ok
  exact ⟨b, hb, generate_clue_count diagBox0 diagBox1 diagBox2 (fun _ => digits) removalDraws
    100 SudokuBoard.new Generator.Difficulty.EASY b hb⟩

/-- C23: for every difficulty tier and every outcome of the random choices
(box shuffles that are permutations of `1..9`) for which `generate` runs to
its end and produces the puzzle, the deterministic `solve` in HYBRID mode on
the generated board, with more fuel than empty cells, returns true and leaves
a complete board in which every row, column and box holds each digit `1..9`
exactly once and every clue is unchanged. -/
theorem generated_puzzle_solvable (p0 p1 p2 : List Nat) (h0 : p0.Perm digits)
    (h1 : p1.Perm digits) (h2 : p2.Perm digits) (shuffles : Nat → List Nat)
    (removals : List (Fin 81)) (fuel : Nat) (board : SudokuBoard)
    (level : Generator.Difficulty) (b : SudokuBoard)
    (h : Generator.generate p0 p1 p2 shuffles removals fuel board level = some (true, b))
    (fuel2 : Nat) (hfuel : emptyCount b < fuel2) :
    ∃ s', solve fuel2 ((Solver.init b).setMode Mode.HYBRID) = some (true, s') ∧
      s'.board.isComplete = true ∧ EachDigitOnce s'.board.grid ∧
      (∀ r c, b.grid r c ≠ 0 → s'.board.grid r c = b.grid r c) ∧
      s'.board.fixed = b.fixed := by
  obtain ⟨s, b3, hs, hb3, hb⟩ := Generator.generate_true p0 p1 p2 shuffles removals fuel board
    level b h
  obtain ⟨hv, hr⟩ := Generator.fillDiagonal_valid3 p0 p1 p2 h0 h1 h2
  obtain ⟨hgrow, hfull⟩ := solveRandomized_sound shuffles fuel _ s hv hs
  have hfix : ∀ r c, s.board.fixed r c = false := by
    intro r c
    rw [hgrow.2.2.1]
    show (Generator.fillDiagonal SudokuBoard.new p0 p1 p2).fixed r c = false
    rw [Generator.fillDiagonal_fixed]
    rfl
  have hsr : CellsInRange s.board.grid := hgrow.2.2.2 hr
  have hsonce : EachDigitOnce s.board.grid :=
    eachDigitOnce_of_full s.board.grid hfull hsr hgrow.1.2.1
  obtain ⟨_, _, g3, g4, g5⟩ := Generator.removeDigits_spec removals s.board
    (Generator.removalCount level) b3 hfix hb3
  have hgrid : b.grid = b3.grid := by rw [hb]; exact loadBoard_grid b3 b3.grid
  have hbv : ValidBoard b := by
    rw [hb]; exact loadBoard_valid b3 b3.grid (g4 hgrow.1.2.1)
  have hbr : CellsInRange b.grid := by rw [hgrid]; exact g5 hsr
  have hcompl : IsCompletion b.grid s.board.grid := by
    refine ⟨hsonce, ?_⟩
    rw [hgrid]
    exact g3
  obtain ⟨s', hs'⟩ := solve_hybrid_complete fuel2 ((Solver.init b).setMode Mode.HYBRID)
    s.board.grid rfl hbv hcompl hfuel
  obtain ⟨k1, k2⟩ := solve_true fuel2 ((Solver.init b).setMode Mode.HYBRID) s' hbv hs'
  refine ⟨s', hs', (isComplete_iff s'.board).2 k2, ?_, k1.2.1, k1.2.2.1⟩
  exact eachDigitOnce_of_full s'.board.grid k2 (k1.2.2.2 hbr) k1.1.2.1

/-- Witness of C23: the puzzle produced on the test data is solved by the
hybrid solver. -/
theorem generated_puzzle_solvable_witness :
    ∃ b, Generator.generate diagBox0 diagBox1 diagBox2 (fun _ => digits) removalDraws 100
        SudokuBoard.new Generator.Difficulty.EASY = some (true, b) ∧
      ∃ s', solve 100 ((Solver.init b).setMode Mode.HYBRID) = some (true, s') ∧
        s'.board.isComplete = true ∧ EachDigitOnce s'.board.grid ∧
        (∀ r c, b.grid r c ≠ 0 → s'.board.grid r c = b.grid r c) ∧
        s'.board.fixed = b.fixed := by
  obtain ⟨b, hb⟩ := generate_example_ok
  exact ⟨b, hb, generated_puzzle_solvable diagBox0 diagBox1 diagBox2 diagBox0_perm
    diagBox1_perm diagBox2_perm (fun _ => digits) removalDraws 100 SudokuBoard.new
    Generator.Difficulty.EASY b hb 100 (by have := emptyCount_lt b; omega)⟩

/-- C24: for every three permutations of `1..9` written by `fillDiagonal` into
the diagonal boxes of the empty board, the board after `fillDiagonal` has no
repeated digit in a row, column or box, masks that agree with the grid, and
the permutations in the three boxes; for every outcome of the shuffles,
`solveRandomized` returns a result when the fuel exceeds the number of empty
cells, and whenever it returns true the board is complete, every row, column
and box holds each digit `1..9` exactly once, and the three diagonal boxes
still hold the permutations written. -/
theorem randomized_fill_complete_valid (p0 p1 p2 : List Nat) (h0 : p0.Perm digits)
    (h1 : p1.Perm digits) (h2 : p2.Perm digits) :
    NoRepeat (Generator.fillDiagonal SudokuBoard.new p0 p1 p2).grid ∧
    MaskInv (Generator.fillDiagonal SudokuBoard.new p0 p1 p2) ∧
    ((∀ x ∈ (boxCells 0 0).zip p0,
        (Generator.fillDiagonal SudokuBoard.new p0 p1 p2).grid x.1.1 x.1.2 = x.2) ∧
      (∀ x ∈ (boxCells 1 1).zip p1,
        (Generator.fillDiagonal SudokuBoard.new p0 p1 p2).grid x.1.1 x.1.2 = x.2) ∧
      (∀ x ∈ (boxCells 2 2).zip p2,
        (Generator.fillDiagonal SudokuBoard.new p0 p1 p2).grid x.1.1 x.1.2 = x.2)) ∧
    (∀ (shuffles : Nat → List Nat) (fuel : Nat),
      emptyCount (Generator.fillDiagonal SudokuBoard.new p0 p1 p2) < fuel →
      (solveRandomized shuffles fuel
        (Solver.init (Generator.fillDiagonal SudokuBoard.new p0 p1 p2))).isSome = true) ∧
    (∀ (shuffles : Nat → List Nat) (fuel : Nat) (s' : Solver),
      solveRandomized shuffles fuel
        (Solver.init (Generator.fillDiagonal SudokuBoard.new p0 p1 p2)) = some (true, s') →
      s'.board.isComplete = true ∧ EachDigitOnce s'.board.grid ∧
      (∀ x ∈ (boxCells 0 0).zip p0, s'.board.grid x.1.1 x.1.2 = x.2) ∧
      (∀ x ∈ (boxCells 1 1).zip p1, s'.board.grid x.1.1 x.1.2 = x.2) ∧
      (∀ x ∈ (boxCells 2 2).zip p2, s'.board.grid x.1.1 x.1.2 = x.2)) := by
  obtain ⟨hv, hr⟩ := Generator.fillDiagonal_valid3 p0 p1 p2 h0 h1 h2
  obtain ⟨e0, e1, e2⟩ := Generator.fillDiagonal_boxes p0 p1 p2 h0 h1 h2
  refine ⟨hv.2.1, hv.1, ⟨e0, e1, e2⟩, ?_, ?_⟩
  · intro shuffles fuel hfuel
    exact solveRandomized_isSome shuffles fuel _ hv.2.2 hfuel
  · intro shuffles fuel s' hs
    obtain ⟨hgrow, hfull⟩ := solveRandomized_sound shuffles fuel _ s' hv hs
    have hkeep : ∀ (p : List Nat) (k : Fin 3), p.Perm digits →
        (∀ x ∈ (boxCells k k).zip p,
          (Generator.fillDiagonal SudokuBoard.new p0 p1 p2).grid x.1.1 x.1.2 = x.2) →
        ∀ x ∈ (boxCells k k).zip p, s'.board.grid x.1.1 x.1.2 = x.2 := by
      intro p k hp he x hx
      have hx2 : x.2 ∈ p := (List.of_mem_zip (show (x.1, x.2) ∈ (boxCells k k).zip p from hx)).2
      have hd := ((mem_digits _).1 (hp.mem_iff.1 hx2)).1
      have hval := he x hx
      rw [← hval]
      apply hgrow.2.1
      show (Generator.fillDiagonal SudokuBoard.new p0 p1 p2).grid x.1.1 x.1.2 ≠ 0
      omega
    exact ⟨(isComplete_iff s'.board).2 hfull,
      eachDigitOnce_of_full s'.board.grid hfull (hgrow.2.2.2 hr) hgrow.1.2.1,
      hkeep p0 0 h0 e0, hkeep p1 1 h1 e1, hkeep p2 2 h2 e2⟩

/-- Witness of C24: on the test data `solveRandomized` returns true and the
result is a complete valid grid. -/
theorem randomized_fill_complete_valid_witness :
    diagBox0.Perm digits ∧ diagBox1.Perm digits ∧ diagBox2.Perm digits ∧
    ∃ s', solveRandomized (fun _ => digits) 100
        (Solver.init (Generator.fillDiagonal SudokuBoard.new diagBox0 diagBox1 diagBox2))
          = some (true, s') ∧
      s'.board.isComplete = true ∧ EachDigitOnce s'.board.grid ∧
      (∀ x ∈ (boxCells 0 0).zip diagBox0, s'.board.grid x.1.1 x.1.2 = x.2) ∧
      (∀ x ∈ (boxCells 1 1).zip diagBox1, s'.board.grid x.1.1 x.1.2 = x.2) ∧
      (∀ x ∈ (boxCells 2 2).zip diagBox2, s'.board.grid x.1.1 x.1.2 = x.2) := by
  obtain ⟨b, hb⟩ := generate_example_ok
  obtain ⟨s, _, hs, _⟩ := Generator.generate_true diagBox0 diagBox1 diagBox2 (fun _ => digits)
    removalDraws 100 SudokuBoard.new Generator.Difficulty.EASY b hb
  exact ⟨diagBox0_perm, diagBox1_perm, diagBox2_perm, s, hs,
    (randomized_fill_complete_valid diagBox0 diagBox1 diagBox2 diagBox0_perm diagBox1_perm
      diagBox2_perm).2.2.2.2 (fun _ => digits) 100 s hs⟩
